import Mathlib

/-!
Verification of the task-api repository (Go): the task entity, the in-memory
repository, and the task service (validation, filtering, sorting, pagination),
shallowly embedded in Lean.

Modelling choices, used throughout:

* Go `time.Time` values are modelled as natural-number instants: `0` is the
  zero time (`IsZero`), `t.After(u)` is `u < t`, `t.Before(u)` is `t < u`.
* Go pointers (`*Task`) are modelled as indices into an explicit heap of task
  objects, so that aliasing between the callers objects and the stored
  records is represented faithfully (the repository stores the callers
  pointer on `Create`, and copies on `GetByID`, `Update` and `ListAll`).
* `uuid.NewString` (library `github.com/google/uuid`, not part of this
  repository) is modelled as an injective function of a fresh-name counter
  threaded through the repository state, reflecting its guarantee of
  globally unique identifiers.
* Go `int` is 64-bit; where its overflow is observable (the pagination
  window arithmetic) the arithmetic is performed with an explicit
  wrap-around `wrap64`. A Go runtime panic (slice bounds out of range) is
  modelled as `Option.none`.
* `sort.Slice` (Go standard library, `sort` package) is embedded as the
  pattern-defeating quicksort (`pdqsort`) that implements it in Go 1.19 and
  later (the repository requires Go 1.22+), transcribed function by function
  from `src/sort/zsortfunc.go`. Loops are given explicit structural fuel so
  that every definition is executable by kernel reduction; each fuel
  argument is supplied with a provably sufficient value at its call sites.
-/

namespace TaskApi

/-- Task status: in the source a Go string type (`type TaskStatus string`). -/
abbrev TaskStatus := String

/-- `StatusPending` constant of internal/domain. -/
def StatusPending : TaskStatus := "PENDING"

/-- `StatusInProgress` constant of internal/domain. -/
def StatusInProgress : TaskStatus := "IN_PROGRESS"

/-- `StatusDone` constant of internal/domain. -/
def StatusDone : TaskStatus := "DONE"

/-- Validation error message constants of internal/domain. -/
def ErrTitleRequired : String := "title is required"

/-- Validation error message: missing due date. -/
def ErrDueDateRequired : String := "due_date is required"

/-- Validation error message: due date not in the future. -/
def ErrDueDatePast : String := "due_date must be in the future"

/-- Validation error message: status outside the enumeration. -/
def ErrStatusInvalid : String := "invalid status"

/-- The Task entity (internal/domain). Due dates are natural-number
instants; `0` is the Go zero time. -/
structure Task where
  id : String
  title : String
  description : String
  status : TaskStatus
  dueDate : Nat
deriving Repr, DecidableEq

/-- The zero value of `Task` (what a nil or out-of-range pointer reads as). -/
def defTask : Task := ⟨"", "", "", "", 0⟩

/-- `AppError` of pkg/errors: an error with a type tag and a message. -/
structure AppError where
  typ : String
  message : String
deriving Repr, DecidableEq

/-- `ErrTypeValidation` of pkg/errors. -/
def ErrTypeValidation : String := "validation"

/-- `ErrTypeNotFound` of pkg/errors. -/
def ErrTypeNotFound : String := "not_found"

/-- `NewValidationError` of pkg/errors. -/
def NewValidationError (msg : String) : AppError := ⟨ErrTypeValidation, msg⟩

/-- `NewNotFoundError` of pkg/errors. -/
def NewNotFoundError (msg : String) : AppError := ⟨ErrTypeNotFound, msg⟩

/-- `IsValidation` of pkg/errors. -/
def IsValidation (e : AppError) : Bool := e.typ == ErrTypeValidation

/-- `IsNotFound` of pkg/errors. -/
def IsNotFound (e : AppError) : Bool := e.typ == ErrTypeNotFound

/-- `isValidStatus` of internal/domain: membership in the closed status
enumeration. -/
def isValidStatus (s : TaskStatus) : Bool :=
  s == StatusPending || s == StatusInProgress || s == StatusDone

/-- A pointer to a heap-allocated task object: an index into the heap. -/
abbrev Ptr := Nat

/-- The object heap: every `*Task` ever allocated, in allocation order. -/
structure Heap where
  objs : List Task
deriving Repr, DecidableEq

/-- Dereference a pointer (out-of-range reads the zero value). -/
def Heap.load (h : Heap) (p : Ptr) : Task := h.objs.getD p defTask

/-- Write through a pointer (out-of-range writes are dropped, matching
`List.set`; all writes in the embedded code are in range). -/
def Heap.store (h : Heap) (p : Ptr) (t : Task) : Heap := ⟨h.objs.set p t⟩

/-- Allocate a fresh object, returning its pointer. -/
def Heap.alloc (h : Heap) (t : Task) : Ptr × Heap :=
  (h.objs.length, ⟨h.objs ++ [t]⟩)

/-- Modelled from the spec and the `google/uuid` library contract (the
library is not part of this repository): `uuid.NewString()` returns a
globally unique identifier, modelled as an injective function of the
fresh-name counter `n`; the result is never empty. -/
def uuidString (n : Nat) : String := String.mk (List.replicate (n + 1) 'u')

/-- Association list backing the Go `map[string]*Task`: lookup. -/
def mapLookup (m : List (String × Ptr)) (k : String) : Option Ptr :=
  match m with
  | [] => none
  | e :: rest => if e.1 = k then some e.2 else mapLookup rest k

/-- Association list: insert or replace (Go map assignment). -/
def mapInsert (m : List (String × Ptr)) (k : String) (p : Ptr) :
    List (String × Ptr) :=
  match m with
  | [] => [(k, p)]
  | e :: rest => if e.1 = k then (k, p) :: rest else e :: mapInsert rest k p

/-- Association list: remove a key (Go map delete). -/
def mapErase (m : List (String × Ptr)) (k : String) : List (String × Ptr) :=
  match m with
  | [] => []
  | e :: rest => if e.1 = k then mapErase rest k else e :: mapErase rest k

/-- State of an `InMemoryTaskRepository` together with the object heap and
the fresh-name counter of the modelled UUID generator. Go map iteration
order is unspecified; the association list keeps insertion order, a
deterministic refinement. -/
structure RepoState where
  heap : Heap
  tasks : List (String × Ptr)
  uuidSeed : Nat
deriving Repr, DecidableEq

/-- The empty repository (`NewInMemoryTaskRepository`). -/
def emptyRepo : RepoState := ⟨⟨[]⟩, [], 0⟩

namespace InMemoryTaskRepository

/-- `Create`: generates a fresh identifier, writes it into the callers
object through the pointer, and stores that same pointer in the map; the
returned error is always `none` (the Go method always returns nil). -/
def Create (s : RepoState) (p : Ptr) : RepoState × Option AppError :=
  let id := uuidString s.uuidSeed
  let t := s.heap.load p
  ({ heap := s.heap.store p { t with id := id },
     tasks := mapInsert s.tasks id p,
     uuidSeed := s.uuidSeed + 1 }, none)

/-- `GetByID`: looks the identifier up; on success allocates a copy of the
stored record and returns a pointer to the copy. -/
def GetByID (s : RepoState) (id : String) : RepoState × Except AppError Ptr :=
  match mapLookup s.tasks id with
  | none => (s, .error (NewNotFoundError "task not found"))
  | some p =>
      let a := s.heap.alloc (s.heap.load p)
      ({ s with heap := a.2 }, .ok a.1)

/-- `Update`: requires the identifier carried by the passed object to exist;
on success stores a fresh copy of the passed object. -/
def Update (s : RepoState) (p : Ptr) : RepoState × Option AppError :=
  let t := s.heap.load p
  match mapLookup s.tasks t.id with
  | none => (s, some (NewNotFoundError "task not found"))
  | some _ =>
      let a := s.heap.alloc t
      ({ s with heap := a.2, tasks := mapInsert s.tasks t.id a.1 },
       none)

/-- `Delete`: removes the entry for the identifier. -/
def Delete (s : RepoState) (id : String) : RepoState × Option AppError :=
  match mapLookup s.tasks id with
  | none => (s, some (NewNotFoundError "task not found"))
  | some _ => ({ s with tasks := mapErase s.tasks id }, none)

/-- `ListAll`: returns copies of every stored task. The Go method allocates
fresh copies which the service only reads, sorts and returns, so the task
values suffice; iteration order is the association-list order (Go map
iteration order is unspecified). -/
def ListAllVals (s : RepoState) : List Task :=
  s.tasks.map (fun e => s.heap.load e.2)

end InMemoryTaskRepository

/-- `CreateTaskInput` of internal/domain. -/
structure CreateTaskInput where
  title : String
  description : String
  status : Option TaskStatus
  dueDate : Nat
deriving Repr, DecidableEq

/-- `UpdateTaskInput` of internal/domain (all fields optional). -/
structure UpdateTaskInput where
  title : Option String
  description : Option String
  status : Option TaskStatus
  dueDate : Option Nat
deriving Repr, DecidableEq

/-- `TaskFilter` of internal/domain. `page` and `pageSize` are Go `int`
(64-bit) values, modelled as integers. -/
structure TaskFilter where
  status : Option TaskStatus
  page : Int
  pageSize : Int
deriving Repr, DecidableEq

namespace taskService

/-- `CreateTask`: validation in source order, then construction of the task
object and delegation to the repository. The returned pointer is the very
pointer that the repository stored (the service returns `task` itself).
`now` is the value of `time.Now()` at the validation. -/
def CreateTask (now : Nat) (s : RepoState) (input : CreateTaskInput) :
    RepoState × Except AppError Ptr :=
  if input.title = "" then
    (s, .error (NewValidationError ErrTitleRequired))
  else if input.dueDate = 0 then
    (s, .error (NewValidationError ErrDueDateRequired))
  else if input.dueDate ≤ now then
    (s, .error (NewValidationError ErrDueDatePast))
  else
    let status := match input.status with
      | none => StatusPending
      | some st => st
    if input.status.isSome && !isValidStatus status then
      (s, .error (NewValidationError ErrStatusInvalid))
    else
      let a := s.heap.alloc
        { id := "", title := input.title, description := input.description,
          status := status, dueDate := input.dueDate }
      let r := InMemoryTaskRepository.Create { s with heap := a.2 } a.1
      match r.2 with
      | some err => (r.1, .error err)
      | none => (r.1, .ok a.1)

/-- `GetTask`: delegates to the repository. -/
def GetTask (s : RepoState) (id : String) : RepoState × Except AppError Ptr :=
  InMemoryTaskRepository.GetByID s id

/-- Final step of `UpdateTask`: persist via repository `Update` and return
the local copy (the source is one function; it is modelled split at its
statement blocks so that each early return is a plain branch). -/
def UpdateTaskPersist (s : RepoState) (p : Ptr) :
    RepoState × Except AppError Ptr :=
  let r := InMemoryTaskRepository.Update s p
  match r.2 with
  | some err => (r.1, .error err)
  | none => (r.1, .ok p)

/-- Statement block of `UpdateTask`: the due-date block, then persist. -/
def UpdateTaskFromDueDate (now : Nat) (s : RepoState) (p : Ptr)
    (input : UpdateTaskInput) : RepoState × Except AppError Ptr :=
  match input.dueDate with
  | some dd =>
    if dd = 0 then (s, .error (NewValidationError ErrDueDateRequired))
    else if dd ≤ now then (s, .error (NewValidationError ErrDueDatePast))
    else
      let s2 := { s with heap := s.heap.store p { s.heap.load p with dueDate := dd } }
      UpdateTaskPersist s2 p
  | none => UpdateTaskPersist s p

/-- Statement block of `UpdateTask`: the status block. -/
def UpdateTaskFromStatus (now : Nat) (s : RepoState) (p : Ptr)
    (input : UpdateTaskInput) : RepoState × Except AppError Ptr :=
  match input.status with
  | some st =>
    if !isValidStatus st then (s, .error (NewValidationError ErrStatusInvalid))
    else
      let s2 := { s with heap := s.heap.store p { s.heap.load p with status := st } }
      UpdateTaskFromDueDate now s2 p input
  | none => UpdateTaskFromDueDate now s p input

/-- Statement block of `UpdateTask`: the description block. -/
def UpdateTaskFromDescription (now : Nat) (s : RepoState) (p : Ptr)
    (input : UpdateTaskInput) : RepoState × Except AppError Ptr :=
  match input.description with
  | some d =>
    let s2 := { s with heap := s.heap.store p { s.heap.load p with description := d } }
    UpdateTaskFromStatus now s2 p input
  | none => UpdateTaskFromStatus now s p input

/-- `UpdateTask`: fetches a copy of the existing task, merges the supplied
fields into that local copy under validation (mutating the copy in place,
with early returns), and persists the merged copy wholesale. Returns the
pointer to the local copy. -/
def UpdateTask (now : Nat) (s : RepoState) (id : String)
    (input : UpdateTaskInput) : RepoState × Except AppError Ptr :=
  match InMemoryTaskRepository.GetByID s id with
  | (s1, .error e) => (s1, .error e)
  | (s1, .ok p) =>
    match input.title with
    | some t =>
      if t = "" then (s1, .error (NewValidationError ErrTitleRequired))
      else
        let s2 := { s1 with heap := s1.heap.store p { s1.heap.load p with title := t } }
        UpdateTaskFromDescription now s2 p input
    | none => UpdateTaskFromDescription now s1 p input

end taskService

/-!
Embedding of Go `sort.Slice` as used by `ListTasks`: the pattern-defeating
quicksort of the Go standard library (`src/sort/zsortfunc.go`, Go 1.19 and
later), with `less i j` comparing the due dates of the tasks at indices
`i` and `j` (`tasks[i].DueDate.Before(tasks[j].DueDate)`). The data is the
list of tasks, indexed positionally; every mutation is a swap of two
indices. Unbounded loops carry a structural fuel argument; exhausted fuel
returns the data unchanged, and every call site supplies fuel that is
provably sufficient (the theorems below carry the sufficiency hypotheses).
-/

/-- Key of the element at index `i`: its due date (out of range reads the
zero task). -/
def keyAt (d : List Task) (i : Nat) : Nat := (d.getD i defTask).dueDate

/-- The `less` closure passed to `sort.Slice` by `ListTasks`. -/
abbrev lessD (d : List Task) (i j : Nat) : Prop := keyAt d i < keyAt d j

/-- `data.Swap(i, j)` (in the embedded code every swap is in range). -/
def swapD (d : List Task) (i j : Nat) : List Task :=
  if i < d.length ∧ j < d.length then
    (d.set i (d.getD j defTask)).set j (d.getD i defTask)
  else d

/-- Go `math/bits.Len`, by binary recursion with structural fuel. -/
def bitsLenAux : Nat → Nat → Nat
  | 0, _ => 0
  | fuel + 1, n => if n = 0 then 0 else bitsLenAux fuel (n / 2) + 1

/-- Go `math/bits.Len` (number of bits). -/
def bitsLen (n : Nat) : Nat := bitsLenAux n n

/-- `nextPowerOfTwo` of the sort package. -/
def nextPowerOfTwo (length : Nat) : Nat := 2 ^ bitsLen length

/-- One step of the `xorshift` random generator of the sort package
(64-bit state). -/
def xorshiftNext (r : Nat) : Nat :=
  let r1 := Nat.xor r (r * 2 ^ 13 % 2 ^ 64)
  let r2 := Nat.xor r1 (r1 / 2 ^ 7)
  Nat.xor r2 (r2 * 2 ^ 17 % 2 ^ 64)

/-- `sortedHint` of the sort package. -/
inductive sortedHint where
  | increasingHint
  | decreasingHint
  | unknownHint
deriving Repr, DecidableEq

/-- The hint derived from the swap count in `choosePivot` (`maxSwaps` is
`4 * 3`). -/
def hintFromSwaps (swaps : Nat) : sortedHint :=
  if swaps = 0 then .increasingHint
  else if swaps = 12 then .decreasingHint
  else .unknownHint

/-- Inner loop of `insertionSort`: sift the element at index `j` left while
it is smaller than its predecessor and `j > a`. -/
def insertionSortInner (d : List Task) (a : Nat) : Nat → List Task
  | 0 => d
  | j + 1 =>
    if a < j + 1 ∧ lessD d (j + 1) j then
      insertionSortInner (swapD d (j + 1) j) a j
    else d

/-- Outer loop of `insertionSort`: `n` remaining iterations, `i` the
current index. -/
def insertionSortLoop (d : List Task) (a i : Nat) : Nat → List Task
  | 0 => d
  | n + 1 => insertionSortLoop (insertionSortInner d a i) a (i + 1) n

/-- `insertionSort` of the sort package, on the range `[a, b)`. -/
def insertionSortRange (d : List Task) (a b : Nat) : List Task :=
  insertionSortLoop d a (a + 1) (b - (a + 1))

/-- Loop of `siftDown`: push the root down its larger-child path. -/
def siftDownLoop (d : List Task) (hi first root : Nat) : Nat → List Task
  | 0 => d
  | fuel + 1 =>
    let child := 2 * root + 1
    if hi ≤ child then d
    else
      let child1 :=
        if child + 1 < hi ∧ lessD d (first + child) (first + child + 1) then
          child + 1
        else child
      if ¬ lessD d (first + root) (first + child1) then d
      else siftDownLoop (swapD d (first + root) (first + child1)) hi first child1 fuel

/-- `siftDown` of the sort package. -/
def siftDown (d : List Task) (lo hi first : Nat) : List Task :=
  siftDownLoop d hi first lo hi

/-- Heap-building loop of `heapSort`: `siftDown` at every index from `i`
down to `0`. -/
def heapSortBuild (d : List Task) (hi first : Nat) : Nat → List Task
  | 0 => siftDown d 0 hi first
  | i + 1 => heapSortBuild (siftDown d (i + 1) hi first) hi first i

/-- Extraction loop of `heapSort`: pop the maximum into the end, from `i`
down to `0`. -/
def heapSortPop (d : List Task) (first : Nat) : Nat → List Task
  | 0 => siftDown (swapD d first first) 0 0 first
  | i + 1 =>
    heapSortPop (siftDown (swapD d first (first + (i + 1))) 0 (i + 1) first) first i

/-- `heapSort` of the sort package, on the range `[a, b)`. -/
def heapSortRange (d : List Task) (a b : Nat) : List Task :=
  let first := a
  let hi := b - a
  let d1 := heapSortBuild d hi first ((hi - 1) / 2)
  if hi = 0 then d1 else heapSortPop d1 first (hi - 1)

/-- `order2` of the sort package: the two indices ordered by `less`, with
the running swap count. -/
def order2 (d : List Task) (a b swaps : Nat) : Nat × Nat × Nat :=
  if lessD d b a then (b, a, swaps + 1) else (a, b, swaps)

/-- `median` of the sort package: the index of the median of three, with
the running swap count. -/
def median (d : List Task) (a b c swaps : Nat) : Nat × Nat :=
  let r1 := order2 d a b swaps
  let r2 := order2 d r1.2.1 c r1.2.2
  let r3 := order2 d r1.1 r2.1 r2.2.2
  (r3.2.1, r3.2.2)

/-- `medianAdjacent` of the sort package. -/
def medianAdjacent (d : List Task) (a swaps : Nat) : Nat × Nat :=
  median d (a - 1) a (a + 1) swaps

/-- `choosePivot` of the sort package (`shortestNinther` is 50). -/
def choosePivot (d : List Task) (a b : Nat) : Nat × sortedHint :=
  let l := b - a
  let i := a + l / 4 * 1
  let j := a + l / 4 * 2
  let k := a + l / 4 * 3
  if 8 ≤ l then
    if 50 ≤ l then
      let r1 := medianAdjacent d i 0
      let r2 := medianAdjacent d j r1.2
      let r3 := medianAdjacent d k r2.2
      let rm := median d r1.1 r2.1 r3.1 r3.2
      (rm.1, hintFromSwaps rm.2)
    else
      let rm := median d i j k 0
      (rm.1, hintFromSwaps rm.2)
  else (j, hintFromSwaps 0)

/-- Loop of `reverseRange`. -/
def reverseRangeLoop (d : List Task) (i j : Nat) : Nat → List Task
  | 0 => d
  | fuel + 1 =>
    if i < j then reverseRangeLoop (swapD d i j) (i + 1) (j - 1) fuel else d

/-- `reverseRange` of the sort package, on the range `[a, b)`. -/
def reverseRange (d : List Task) (a b : Nat) : List Task :=
  reverseRangeLoop d a (b - 1) b

/-- `breakPatterns` of the sort package: three pseudo-random swaps around
the middle of the range. -/
def breakPatterns (d : List Task) (a b : Nat) : List Task :=
  let length := b - a
  if 8 ≤ length then
    let modulus := nextPowerOfTwo length
    let r1 := xorshiftNext length
    let r2 := xorshiftNext r1
    let r3 := xorshiftNext r2
    let idx := a + length / 4 * 2 - 1
    let oth := fun (r : Nat) =>
      let o := Nat.land r (modulus - 1)
      if length ≤ o then o - length else o
    let d1 := swapD d (idx - 1) (a + oth r1)
    let d2 := swapD d1 idx (a + oth r2)
    swapD d2 (idx + 1) (a + oth r3)
  else d

/-- Scanning loop of `partialInsertionSort`: advance `i` over the sorted
prefix. -/
def pisAdvance (d : List Task) (b i : Nat) : Nat → Nat
  | 0 => i
  | fuel + 1 =>
    if i < b ∧ ¬ lessD d i (i - 1) then pisAdvance d b (i + 1) fuel else i

/-- Left-shifting loop of `partialInsertionSort`. -/
def pisLeftShift (d : List Task) : Nat → List Task
  | 0 => d
  | j + 1 =>
    if lessD d (j + 1) j then pisLeftShift (swapD d (j + 1) j) j else d

/-- Right-shifting loop of `partialInsertionSort`. -/
def pisRightShift (d : List Task) (b : Nat) (j : Nat) : Nat → List Task
  | 0 => d
  | fuel + 1 =>
    if j < b ∧ lessD d j (j - 1) then
      pisRightShift (swapD d j (j - 1)) b (j + 1) fuel
    else d

/-- The `maxSteps` iterations of `partialInsertionSort`
(`shortestShifting` is 50). -/
def pisSteps (d : List Task) (a b i : Nat) : Nat → List Task × Bool
  | 0 => (d, false)
  | steps + 1 =>
    let i1 := pisAdvance d b i (b - i)
    if i1 = b then (d, true)
    else if b - a < 50 then (d, false)
    else
      let d1 := swapD d i1 (i1 - 1)
      let d2 := if 2 ≤ i1 - a then pisLeftShift d1 (i1 - 1) else d1
      let d3 := if 2 ≤ b - i1 then pisRightShift d2 b (i1 + 1) (b - (i1 + 1)) else d2
      pisSteps d3 a b i1 steps

/-- `partialInsertionSort` of the sort package: the partially sorted data
and whether the range ended up sorted. -/
def partialInsertionSort (d : List Task) (a b : Nat) : List Task × Bool :=
  pisSteps d a b (a + 1) 5

/-- First skipping loop of `partition`: advance `i` over elements smaller
than the pivot (which sits at index `a`). -/
def partitionSkipLeft (d : List Task) (a j i : Nat) : Nat → Nat
  | 0 => i
  | fuel + 1 =>
    if i ≤ j ∧ lessD d i a then partitionSkipLeft d a j (i + 1) fuel else i

/-- Second skipping loop of `partition`: retreat `j` over elements not
smaller than the pivot. -/
def partitionSkipRight (d : List Task) (a i j : Nat) : Nat → Nat
  | 0 => j
  | fuel + 1 =>
    if i ≤ j ∧ ¬ lessD d j a then partitionSkipRight d a i (j - 1) fuel else j

/-- Main loop of `partition`, returning the data and the final `j`. -/
def partitionLoop (d : List Task) (a i j : Nat) : Nat → List Task × Nat
  | 0 => (d, j)
  | fuel + 1 =>
    let i1 := partitionSkipLeft d a j i (j + 1 - i)
    let j1 := partitionSkipRight d a i1 j (j + 1 - i1)
    if j1 < i1 then (d, j1)
    else partitionLoop (swapD d i1 j1) a (i1 + 1) (j1 - 1) fuel

/-- `partition` of the sort package: the data, the new pivot position, and
whether the range was already partitioned. -/
def partition (d : List Task) (a b pivot : Nat) : List Task × Nat × Bool :=
  let d0 := swapD d a pivot
  let i0 := a + 1
  let j0 := b - 1
  let i1 := partitionSkipLeft d0 a j0 i0 (j0 + 1 - i0)
  let j1 := partitionSkipRight d0 a i1 j0 (j0 + 1 - i1)
  if j1 < i1 then (swapD d0 j1 a, j1, true)
  else
    let d1 := swapD d0 i1 j1
    let r := partitionLoop d1 a (i1 + 1) (j1 - 1) b
    (swapD r.1 r.2 a, r.2, false)

/-- First skipping loop of `partitionEqual`: advance `i` over elements not
greater than the pivot. -/
def peqSkipLeft (d : List Task) (a j i : Nat) : Nat → Nat
  | 0 => i
  | fuel + 1 =>
    if i ≤ j ∧ ¬ lessD d a i then peqSkipLeft d a j (i + 1) fuel else i

/-- Second skipping loop of `partitionEqual`: retreat `j` over elements
greater than the pivot. -/
def peqSkipRight (d : List Task) (a i j : Nat) : Nat → Nat
  | 0 => j
  | fuel + 1 =>
    if i ≤ j ∧ lessD d a j then peqSkipRight d a i (j - 1) fuel else j

/-- Main loop of `partitionEqual`, returning the data and the final `i`. -/
def partitionEqualLoop (d : List Task) (a i j : Nat) : Nat → List Task × Nat
  | 0 => (d, i)
  | fuel + 1 =>
    let i1 := peqSkipLeft d a j i (j + 1 - i)
    let j1 := peqSkipRight d a i1 j (j + 1 - i1)
    if j1 < i1 then (d, i1)
    else partitionEqualLoop (swapD d i1 j1) a (i1 + 1) (j1 - 1) fuel

/-- `partitionEqual` of the sort package: the data and the first index of
the elements greater than the pivot. -/
def partitionEqual (d : List Task) (a b pivot : Nat) : List Task × Nat :=
  partitionEqualLoop (swapD d a pivot) a (a + 1) (b - 1) b

/-- `pdqsort` of the sort package on the range `[a, b)` (`maxInsertion` is
12); the outer loop and the recursion both run on the structural fuel,
which is sufficient whenever it is at least `b - a`. -/
def pdqsortLoop : Nat → List Task → Nat → Nat → Nat → Bool → Bool → List Task
  | 0, d, _, _, _, _, _ => d
  | fuel + 1, d, a, b, limit, wasBalanced, wasPartitioned =>
    let length := b - a
    if length ≤ 12 then insertionSortRange d a b
    else if limit = 0 then heapSortRange d a b
    else
      let d0 := if wasBalanced then d else breakPatterns d a b
      let limit1 := if wasBalanced then limit else limit - 1
      let cp := choosePivot d0 a b
      let d1 := if cp.2 = sortedHint.decreasingHint then reverseRange d0 a b else d0
      let pivot1 :=
        if cp.2 = sortedHint.decreasingHint then (b - 1) - (cp.1 - a) else cp.1
      let hint1 :=
        if cp.2 = sortedHint.decreasingHint then sortedHint.increasingHint else cp.2
      let cont : List Task → List Task := fun d2 =>
        if 0 < a ∧ ¬ lessD d2 (a - 1) pivot1 then
          let pe := partitionEqual d2 a b pivot1
          pdqsortLoop fuel pe.1 pe.2 b limit1 wasBalanced wasPartitioned
        else
          let pr := partition d2 a b pivot1
          let mid := pr.2.1
          let wasPartitioned1 := pr.2.2
          let leftLen := mid - a
          let rightLen := b - mid
          let balanceThreshold := length / 8
          let wasBalanced1 := decide (balanceThreshold ≤ min leftLen rightLen)
          if leftLen < rightLen then
            let d3 := pdqsortLoop fuel pr.1 a mid limit1 true true
            pdqsortLoop fuel d3 (mid + 1) b limit1 wasBalanced1 wasPartitioned1
          else
            let d3 := pdqsortLoop fuel pr.1 (mid + 1) b limit1 true true
            pdqsortLoop fuel d3 a mid limit1 wasBalanced1 wasPartitioned1
      if wasBalanced ∧ wasPartitioned ∧ hint1 = sortedHint.increasingHint then
        let pis := partialInsertionSort d1 a b
        if pis.2 then pis.1 else cont pis.1
      else cont d1

/-- `sort.Slice(tasks, less)` as called by `ListTasks`: `pdqsort` over the
whole list with the initial depth limit `bits.Len(length)`. -/
def sortSliceTasks (ts : List Task) : List Task :=
  pdqsortLoop ts.length ts 0 ts.length (bitsLen ts.length) true true

/-- Status filtering step of `ListTasks`. -/
def retainStatus (st : Option TaskStatus) (ts : List Task) : List Task :=
  match st with
  | none => ts
  | some v => ts.filter (fun t => t.status == v)

/-- Interpret an integer as a Go `int` (64-bit two,s-complement
wrap-around). -/
def wrap64 (x : Int) : Int := (x + 2 ^ 63) % 2 ^ 64 - 2 ^ 63

/-- Pagination step of `ListTasks`: defaulting of `page` and `pageSize`,
the window arithmetic on Go 64-bit ints, and the slice expression
`tasks[start:end]`; `none` models the Go runtime panic (slice bounds out
of range) that the expression raises when the computed bounds are invalid. -/
def paginate (page0 pageSize0 : Int) (ts : List Task) : Option (List Task) :=
  let page := if page0 ≤ 0 then 1 else page0
  let size := if pageSize0 ≤ 0 then 10 else pageSize0
  let start := wrap64 (wrap64 (page - 1) * size)
  if (ts.length : Int) ≤ start then some []
  else
    let e := wrap64 (start + size)
    let e2 := if (ts.length : Int) < e then (ts.length : Int) else e
    if 0 ≤ start ∧ start ≤ e2 then
      some ((ts.drop start.toNat).take (e2 - start).toNat)
    else none

/-- `ListTasks` after `ListAll`: filter, sort, paginate, over an arbitrary
sequence of tasks as the store yielded it. -/
def listTasksPipeline (filter : TaskFilter) (ts : List Task) :
    Option (List Task) :=
  paginate filter.page filter.pageSize (sortSliceTasks (retainStatus filter.status ts))

namespace taskService

/-- `ListTasks` of the service: never an error from the repository, so the
result is the pipeline over the stored tasks; `none` models a runtime
panic in the pagination slice expression. -/
def ListTasks (s : RepoState) (filter : TaskFilter) :
    Option (Except AppError (List Task)) :=
  (listTasksPipeline filter (InMemoryTaskRepository.ListAllVals s)).map .ok

/-- `DeleteTask`: delegates to the repository. -/
def DeleteTask (s : RepoState) (id : String) : RepoState × Option AppError :=
  InMemoryTaskRepository.Delete s id

end taskService

/-!
Specification-side definitions, named after the spec wording, for
comparison with the embedded code.
-/

/-- View of the repository contents: identifier and stored task value of
every entry, in insertion order. -/
def storeView (s : RepoState) : List (String × Task) :=
  s.tasks.map (fun e => (e.1, s.heap.load e.2))

/-- Well-formedness of a repository state: every stored pointer is a valid
heap index and every stored record carries its key as identifier. -/
def StoreWF (s : RepoState) : Prop :=
  ∀ e ∈ s.tasks, e.2 < s.heap.objs.length ∧ (s.heap.load e.2).id = e.1

/-- The data-model invariant of the spec for a single stored task:
non-empty identifier, non-empty title, valid status, non-zero due date. -/
def validTask (t : Task) : Prop :=
  t.id ≠ "" ∧ t.title ≠ "" ∧ isValidStatus t.status = true ∧ t.dueDate ≠ 0

/-- Spec-side statement of the CreateTask validation chain, in the order
the spec gives: title required, due date required, due date in the future,
status in the enumeration. -/
def createValidationSpec (now : Nat) (input : CreateTaskInput) :
    Option AppError :=
  if input.title = "" then some (NewValidationError ErrTitleRequired)
  else if input.dueDate = 0 then some (NewValidationError ErrDueDateRequired)
  else if input.dueDate ≤ now then some (NewValidationError ErrDueDatePast)
  else
    match input.status with
    | some st =>
      if isValidStatus st then none
      else some (NewValidationError ErrStatusInvalid)
    | none => none

/-- Spec-side merge of an update input into an existing task: every
unsupplied field keeps its stored value, every supplied field overwrites,
the identifier never changes. -/
def mergeTask (old : Task) (input : UpdateTaskInput) : Task :=
  { id := old.id,
    title := input.title.getD old.title,
    description := input.description.getD old.description,
    status := input.status.getD old.status,
    dueDate := input.dueDate.getD old.dueDate }

/-- Ascending due-date order of a task sequence, as the spec states it. -/
def DueSorted (l : List Task) : Prop :=
  l.Pairwise (fun t u => t.dueDate ≤ u.dueDate)

/-- The task value that `GetByID` hands back (through its freshly
allocated copy), or `none` on a NotFound error. -/
def getByIDValue (s : RepoState) (id : String) : Option Task :=
  match InMemoryTaskRepository.GetByID s id with
  | (_, .error _) => none
  | (s2, .ok p) => some (s2.heap.load p)

/-- The values of the index range `[a, b)` of the data (the slice the
sort operates on). -/
def subVals (d : List Task) (a b : Nat) : List Task :=
  (d.drop a).take (b - a)

/-- Adjacent-pairs ascending due-date order on the index range `[a, b)`. -/
def SortedRng (d : List Task) (a b : Nat) : Prop :=
  ∀ k, a ≤ k → k + 1 < b → keyAt d k ≤ keyAt d (k + 1)

/-- Relation between the data before and after a sort step that only
rearranges the index range `[a, b)`: the length is unchanged, every index
outside the range holds its old value, and the whole list is a
permutation of the old one. -/
def RangeOp (a b : Nat) (d e : List Task) : Prop :=
  e.length = d.length ∧
  (∀ k, k < a ∨ b ≤ k → e.getD k defTask = d.getD k defTask) ∧
  e.Perm d

/-- Heap ordering used by `siftDown` and `heapSort`, relative to the
offset `first`: every node `c < hi` whose parent index is at least `r`
has a key at most the key of its parent. -/
def HeapAbove (d : List Task) (first hi r : Nat) : Prop :=
  ∀ p c, r ≤ p → c < hi → (c = 2 * p + 1 ∨ c = 2 * p + 2) →
    keyAt d (first + c) ≤ keyAt d (first + p)

/-- Descendant relation of the implicit binary heap of `heapSort`
(children of `q` are `2q+1` and `2q+2`). -/
inductive Desc : Nat → Nat → Prop where
  | refl (r : Nat) : Desc r r
  | leftc (r q : Nat) : Desc r q → Desc r (2 * q + 1)
  | rightc (r q : Nat) : Desc r q → Desc r (2 * q + 2)

/-- One service operation (for runs of operation sequences). -/
inductive ServiceOp where
  | createOp (now : Nat) (input : CreateTaskInput)
  | updateOp (now : Nat) (id : String) (input : UpdateTaskInput)
  | deleteOp (id : String)

/-- Apply one service operation, keeping only the repository state. -/
def applyOp (s : RepoState) : ServiceOp → RepoState
  | .createOp now input => (taskService.CreateTask now s input).1
  | .updateOp now id input => (taskService.UpdateTask now s id input).1
  | .deleteOp id => (taskService.DeleteTask s id).1

/-- Run a sequence of service operations from the empty repository. -/
def runOps (ops : List ServiceOp) : RepoState :=
  ops.foldl applyOp emptyRepo

/-- Repeated repository `Create` over a list of input pointers. -/
def createAll (s : RepoState) (ps : List Ptr) : RepoState :=
  ps.foldl (fun st p => (InMemoryTaskRepository.Create st p).1) s

/-- The identifiers assigned by `count` successive `Create` calls starting
from state `s`. -/
def assignedIds (s : RepoState) (count : Nat) : List String :=
  (List.range count).map (fun k => uuidString (s.uuidSeed + k))

/-- A concrete stored task (for concrete instances of the list theorems):
pending status, empty description, the given title and due date. -/
def cexTask (title : String) (due : Nat) : Task :=
  ⟨title, title, "", StatusPending, due⟩

/-- Thirteen stored tasks whose due dates contain ties; the store yields
them in title order `t0 ... t12`. -/
def cexTasks : List Task :=
  [cexTask "t0" 12, cexTask "t1" 13, cexTask "t2" 11, cexTask "t3" 10,
    cexTask "t4" 12, cexTask "t5" 11, cexTask "t6" 10, cexTask "t7" 11,
    cexTask "t8" 12, cexTask "t9" 10, cexTask "t10" 10, cexTask "t11" 10,
    cexTask "t12" 11]

/-- Twenty-five stored tasks (the pagination instance of the spec). -/
def cex25 : List Task := List.replicate 25 (cexTask "p" 7)

/-!
Helper lemmas: heap, association map, UUID model.
-/

theorem Heap.load_store_self (h : Heap) (p : Ptr) (t : Task)
    (hp : p < h.objs.length) : (h.store p t).load p = t := by
  simp [Heap.load, Heap.store, List.getD_eq_getElem?_getD,
    List.getElem?_set_self hp]

theorem Heap.load_store_ne (h : Heap) (p q : Ptr) (t : Task) (hpq : p ≠ q) :
    (h.store p t).load q = h.load q := by
  simp [Heap.load, Heap.store, List.getD_eq_getElem?_getD,
    List.getElem?_set_ne hpq]

theorem Heap.length_store (h : Heap) (p : Ptr) (t : Task) :
    (h.store p t).objs.length = h.objs.length := by
  simp [Heap.store]

theorem Heap.load_alloc_old (h : Heap) (t : Task) (q : Ptr)
    (hq : q < h.objs.length) : (h.alloc t).2.load q = h.load q := by
  simp [Heap.load, Heap.alloc, List.getD_eq_getElem?_getD,
    List.getElem?_append_left hq]

theorem Heap.load_alloc_new (h : Heap) (t : Task) :
    (h.alloc t).2.load (h.alloc t).1 = t := by
  simp [Heap.load, Heap.alloc, List.getD_eq_getElem?_getD,
    List.getElem?_concat_length]

theorem Heap.length_alloc (h : Heap) (t : Task) :
    (h.alloc t).2.objs.length = h.objs.length + 1 := by
  simp [Heap.alloc]

theorem uuidString_injective : Function.Injective uuidString := by
  intro m n h
  have hd : List.replicate (m + 1) 'u' = List.replicate (n + 1) 'u' :=
    congrArg String.data h
  have := congrArg List.length hd
  simpa using this

theorem uuidString_ne_empty (n : Nat) : uuidString n ≠ "" := by
  intro h
  have hd : List.replicate (n + 1) 'u' = ([] : List Char) :=
    congrArg String.data h
  simp at hd

theorem mapLookup_insert_self (m : List (String × Ptr)) (k : String) (p : Ptr) :
    mapLookup (mapInsert m k p) k = some p := by
  induction m with
  | nil => simp [mapInsert, mapLookup]
  | cons e rest ih =>
    by_cases h : e.1 = k
    · simp [mapInsert, mapLookup, h]
    · simp [mapInsert, mapLookup, h, ih]

theorem mapLookup_insert_ne (m : List (String × Ptr)) (k k2 : String) (p : Ptr)
    (hk : k ≠ k2) : mapLookup (mapInsert m k p) k2 = mapLookup m k2 := by
  induction m with
  | nil => simp [mapInsert, mapLookup, hk]
  | cons e rest ih =>
    by_cases h : e.1 = k
    · simp [mapInsert, mapLookup, h, hk]
    · simp [mapInsert, mapLookup, h, ih]

theorem mapLookup_erase_self (m : List (String × Ptr)) (k : String) :
    mapLookup (mapErase m k) k = none := by
  induction m with
  | nil => simp [mapErase, mapLookup]
  | cons e rest ih =>
    by_cases h : e.1 = k
    · simp [mapErase, h, ih]
    · simp [mapErase, mapLookup, h, ih]

theorem mapLookup_erase_ne (m : List (String × Ptr)) (k k2 : String)
    (hk : k ≠ k2) : mapLookup (mapErase m k) k2 = mapLookup m k2 := by
  induction m with
  | nil => simp [mapErase, mapLookup]
  | cons e rest ih =>
    by_cases h : e.1 = k
    · simp [mapErase, mapLookup, h, ih, hk]
    · simp [mapErase, mapLookup, h, ih]

theorem mapLookup_mem (m : List (String × Ptr)) (k : String) (p : Ptr)
    (h : mapLookup m k = some p) : (k, p) ∈ m := by
  induction m with
  | nil => simp [mapLookup] at h
  | cons e rest ih =>
    by_cases he : e.1 = k
    · simp [mapLookup, he] at h
      subst h
      have he2 : (k, e.2) = e := by rw [← he]
      rw [he2]
      exact List.mem_cons_self _ _
    · simp [mapLookup, he] at h
      exact List.mem_cons_of_mem _ (ih h)

theorem mem_mapInsert (m : List (String × Ptr)) (k : String) (p : Ptr) (e : String × Ptr)
    (h : e ∈ mapInsert m k p) : e = (k, p) ∨ e ∈ m := by
  induction m with
  | nil => simpa [mapInsert] using h
  | cons f rest ih =>
    by_cases hf : f.1 = k
    · simp [mapInsert, hf] at h
      rcases h with h | h
      · exact Or.inl h
      · exact Or.inr (List.mem_cons_of_mem _ h)
    · simp [mapInsert, hf] at h
      rcases h with h | h
      · exact Or.inr (by simp [h])
      · rcases ih h with h2 | h2
        · exact Or.inl h2
        · exact Or.inr (List.mem_cons_of_mem _ h2)

theorem mem_mapErase (m : List (String × Ptr)) (k : String) (e : String × Ptr)
    (h : e ∈ mapErase m k) : e ∈ m := by
  induction m with
  | nil => simp [mapErase] at h
  | cons f rest ih =>
    by_cases hf : f.1 = k
    · simp [mapErase, hf] at h
      exact List.mem_cons_of_mem _ (ih h)
    · simp [mapErase, hf] at h
      rcases h with h | h
      · simp [h]
      · exact List.mem_cons_of_mem _ (ih h)


/-!
Claim C4: CreateTask validation order, messages, and status defaulting.
-/

/-- C4: `CreateTask` validates in the spec order with the exact messages:
empty title, zero due date, non-future due date, invalid supplied status;
otherwise it succeeds (returning the pointer of the freshly allocated
task) and the stored status defaults to PENDING when unsupplied. -/
theorem C4_createTask_validation (now : Nat) (s : RepoState)
    (input : CreateTaskInput) :
    (taskService.CreateTask now s input).2 =
      (match createValidationSpec now input with
        | some e => Except.error e
        | none => Except.ok s.heap.objs.length) ∧
    (createValidationSpec now input = none →
      ((taskService.CreateTask now s input).1.heap.load
          s.heap.objs.length).status = input.status.getD StatusPending ∧
      ((taskService.CreateTask now s input).1.heap.load
          s.heap.objs.length).title = input.title) := by
  rcases input with ⟨title, desc, stOpt, dd⟩
  by_cases h1 : title = ""
  · simp [taskService.CreateTask, createValidationSpec, h1]
  by_cases h2 : dd = 0
  · simp [taskService.CreateTask, createValidationSpec, h1, h2]
  by_cases h3 : dd ≤ now
  · simp [taskService.CreateTask, createValidationSpec, h1, h2, h3]
  rcases stOpt with _ | st
  · constructor
    · simp [taskService.CreateTask, createValidationSpec, h1, h2, h3,
        InMemoryTaskRepository.Create, Heap.alloc]
    · intro _
      have hload : ((taskService.CreateTask now s
          ⟨title, desc, none, dd⟩).1.heap.load s.heap.objs.length) =
          { id := uuidString s.uuidSeed, title := title, description := desc,
            status := StatusPending, dueDate := dd } := by
        simp only [taskService.CreateTask, createValidationSpec, h1, h2, h3,
          InMemoryTaskRepository.Create]
        simp [h1, h2, h3, Heap.alloc, Heap.load, Heap.store,
          List.getD_eq_getElem?_getD, List.getElem?_set_self,
          List.getElem?_concat_length]
      simp [hload]
  · by_cases h4 : isValidStatus st
    · constructor
      · simp [taskService.CreateTask, createValidationSpec, h1, h2, h3, h4,
          InMemoryTaskRepository.Create, Heap.alloc]
      · intro _
        have hload : ((taskService.CreateTask now s
            ⟨title, desc, some st, dd⟩).1.heap.load s.heap.objs.length) =
            { id := uuidString s.uuidSeed, title := title, description := desc,
              status := st, dueDate := dd } := by
          simp only [taskService.CreateTask, createValidationSpec, h1, h2, h3,
            h4, InMemoryTaskRepository.Create]
          simp [h1, h2, h3, h4, Heap.alloc, Heap.load, Heap.store,
            List.getD_eq_getElem?_getD, List.getElem?_set_self,
            List.getElem?_concat_length]
        simp [hload]
    · simp [taskService.CreateTask, createValidationSpec, h1, h2, h3, h4]

/-- C4 witness: concrete instances of the validation chain and of the
defaulting, obtained from the theorem at concrete inputs. -/
theorem C4_createTask_validation_witness :
    (taskService.CreateTask 5 emptyRepo ⟨"", "d", none, 9⟩).2 =
      Except.error (NewValidationError ErrTitleRequired) ∧
    (taskService.CreateTask 5 emptyRepo ⟨"Report", "", none, 9⟩).2 =
      Except.ok 0 ∧
    ((taskService.CreateTask 5 emptyRepo
        ⟨"Report", "", none, 9⟩).1.heap.load 0).status = StatusPending := by
  refine ⟨?_, ?_, ?_⟩
  · have h := (C4_createTask_validation 5 emptyRepo ⟨"", "d", none, 9⟩).1
    simpa [createValidationSpec, emptyRepo] using h
  · have h := (C4_createTask_validation 5 emptyRepo ⟨"Report", "", none, 9⟩).1
    simpa [createValidationSpec, emptyRepo] using h
  · have h := ((C4_createTask_validation 5 emptyRepo
      ⟨"Report", "", none, 9⟩).2 (by simp [createValidationSpec])).1
    simpa [emptyRepo] using h


/-!
Claim C7: not-found symmetry and unchanged propagation.
-/

/-- C7: on an identifier absent from the store, repository `GetByID`,
`Update` and `Delete` each fail with the NotFound error, and the service
`GetTask`, `UpdateTask` and `DeleteTask` return that very error unchanged
(no Validation error is substituted); the state is left unchanged. -/
theorem C7_notfound_propagation (s : RepoState) (id : String) (now : Nat)
    (input : UpdateTaskInput) (p : Ptr)
    (habs : mapLookup s.tasks id = none) :
    InMemoryTaskRepository.GetByID s id =
      (s, .error (NewNotFoundError "task not found")) ∧
    ((s.heap.load p).id = id →
      InMemoryTaskRepository.Update s p =
        (s, some (NewNotFoundError "task not found"))) ∧
    InMemoryTaskRepository.Delete s id =
      (s, some (NewNotFoundError "task not found")) ∧
    taskService.GetTask s id =
      (s, .error (NewNotFoundError "task not found")) ∧
    taskService.UpdateTask now s id input =
      (s, .error (NewNotFoundError "task not found")) ∧
    taskService.DeleteTask s id =
      (s, some (NewNotFoundError "task not found")) ∧
    IsNotFound (NewNotFoundError "task not found") = true ∧
    IsValidation (NewNotFoundError "task not found") = false := by
  refine ⟨?_, ?_, ?_, ?_, ?_, ?_, ?_, ?_⟩
  · simp [InMemoryTaskRepository.GetByID, habs]
  · intro hid
    simp [InMemoryTaskRepository.Update, hid, habs]
  · simp [InMemoryTaskRepository.Delete, habs]
  · simp [taskService.GetTask, InMemoryTaskRepository.GetByID, habs]
  · simp [taskService.UpdateTask, InMemoryTaskRepository.GetByID, habs]
  · simp [taskService.DeleteTask, InMemoryTaskRepository.Delete, habs]
  · simp [IsNotFound, NewNotFoundError, ErrTypeNotFound]
  · simp [IsValidation, NewNotFoundError, ErrTypeNotFound, ErrTypeValidation]

/-- C7 witness: the theorem at the empty repository and identifier `x`. -/
theorem C7_notfound_propagation_witness :
    taskService.GetTask emptyRepo "x" =
      (emptyRepo, .error (NewNotFoundError "task not found")) ∧
    taskService.UpdateTask 0 emptyRepo "x" ⟨none, none, none, none⟩ =
      (emptyRepo, .error (NewNotFoundError "task not found")) ∧
    taskService.DeleteTask emptyRepo "x" =
      (emptyRepo, some (NewNotFoundError "task not found")) := by
  have h := C7_notfound_propagation emptyRepo "x" 0 ⟨none, none, none, none⟩ 0
    (by simp [emptyRepo, mapLookup])
  exact ⟨h.2.2.2.1, h.2.2.2.2.1, h.2.2.2.2.2.1⟩


theorem Heap.load_alloc_self (h : Heap) (t : Task) :
    (h.alloc t).2.load h.objs.length = t :=
  Heap.load_alloc_new h t

/-!
Claim C9: Create then GetByID round-trip.
-/

/-- C9: after `Create` of the object at `p`, `GetByID` with the assigned
identifier succeeds, and the returned copy equals the created task in
every field except the identifier, which is the newly assigned one. -/
theorem C9_create_get_roundtrip (s : RepoState) (p : Ptr)
    (hp : p < s.heap.objs.length) :
    (InMemoryTaskRepository.GetByID (InMemoryTaskRepository.Create s p).1
        (uuidString s.uuidSeed)).2 =
      .ok (InMemoryTaskRepository.Create s p).1.heap.objs.length ∧
    (InMemoryTaskRepository.GetByID (InMemoryTaskRepository.Create s p).1
        (uuidString s.uuidSeed)).1.heap.load
        (InMemoryTaskRepository.Create s p).1.heap.objs.length =
      { s.heap.load p with id := uuidString s.uuidSeed } := by
  have hlk : mapLookup (InMemoryTaskRepository.Create s p).1.tasks
      (uuidString s.uuidSeed) = some p := by
    simp [InMemoryTaskRepository.Create, mapLookup_insert_self]
  have hload : (InMemoryTaskRepository.Create s p).1.heap.load p =
      { s.heap.load p with id := uuidString s.uuidSeed } := by
    simp [InMemoryTaskRepository.Create, Heap.load_store_self _ _ _ hp]
  constructor
  · simp [InMemoryTaskRepository.GetByID, hlk, Heap.alloc]
  · simp only [InMemoryTaskRepository.GetByID, hlk]
    simpa [Heap.load_alloc_self] using hload

/-- C9 witness: a one-task repository built from a concrete object. -/
theorem C9_create_get_roundtrip_witness :
    (InMemoryTaskRepository.GetByID
        (InMemoryTaskRepository.Create ⟨⟨[⟨"old", "T", "D", "PENDING", 7⟩]⟩, [], 3⟩ 0).1
        (uuidString 3)).1.heap.load 1 =
      ⟨uuidString 3, "T", "D", "PENDING", 7⟩ := by
  have h := (C9_create_get_roundtrip ⟨⟨[⟨"old", "T", "D", "PENDING", 7⟩]⟩, [], 3⟩ 0
    (by simp)).2
  simpa [InMemoryTaskRepository.Create, Heap.load, Heap.store, Heap.alloc] using h

/-!
Claim C6: identifier assignment by Create.
-/

/-- C6: the identifiers assigned by any sequence of `Create` calls are
pairwise distinct (the k-th call runs at counter `uuidSeed + k` and
assigns `uuidString` of it); `Create` overwrites whatever identifier the
input object carried with the fresh one, stores the object under the
fresh identifier, and never returns an error. -/
theorem C6_create_ids_unique (s : RepoState) (ps : List Ptr) :
    (assignedIds s ps.length).Nodup ∧
    (∀ (st : RepoState) (p : Ptr),
      (InMemoryTaskRepository.Create st p).2 = none) ∧
    (∀ (st : RepoState) (p : Ptr), p < st.heap.objs.length →
      ((InMemoryTaskRepository.Create st p).1.heap.load p).id =
          uuidString st.uuidSeed ∧
      mapLookup (InMemoryTaskRepository.Create st p).1.tasks
          (uuidString st.uuidSeed) = some p) ∧
    (∀ i, i ≤ ps.length →
      (createAll s (ps.take i)).uuidSeed = s.uuidSeed + i) := by
  refine ⟨?_, ?_, ?_, ?_⟩
  · apply List.Nodup.map
    · intro a b h
      have := uuidString_injective h
      omega
    · exact List.nodup_range _
  · intro st p
    simp [InMemoryTaskRepository.Create]
  · intro st p hp
    constructor
    · simp [InMemoryTaskRepository.Create, Heap.load_store_self _ _ _ hp]
    · simp [InMemoryTaskRepository.Create, mapLookup_insert_self]
  · intro i hi
    have hgen : ∀ (l : List Ptr) (st : RepoState),
        (createAll st l).uuidSeed = st.uuidSeed + l.length := by
      intro l
      induction l with
      | nil => intro st; simp [createAll]
      | cons q rest ih =>
        intro st
        have : createAll st (q :: rest) =
            createAll (InMemoryTaskRepository.Create st q).1 rest := by
          simp [createAll]
        rw [this, ih]
        simp [InMemoryTaskRepository.Create]
        omega
    rw [hgen]
    simp [List.length_take]
    omega

/-- C6 witness: two creates from a concrete state assign the distinct
identifiers of `assignedIds`, never failing. -/
theorem C6_create_ids_unique_witness :
    (assignedIds emptyRepo 2).Nodup ∧
    (InMemoryTaskRepository.Create ⟨⟨[defTask]⟩, [], 0⟩ 0).2 = none ∧
    ((InMemoryTaskRepository.Create ⟨⟨[⟨"mine", "T", "", "PENDING", 5⟩]⟩, [], 0⟩ 0).1.heap.load 0).id =
      uuidString 0 := by
  refine ⟨(C6_create_ids_unique emptyRepo [0, 0]).1,
    (C6_create_ids_unique emptyRepo []).2.1 _ _,
    ((C6_create_ids_unique emptyRepo []).2.2.1 _ 0 (by simp)).1⟩


/-!
Claim C1: the copy discipline of the repository.
-/

theorem GetByID_found (s : RepoState) (id : String) (p : Ptr)
    (hlk : mapLookup s.tasks id = some p) :
    InMemoryTaskRepository.GetByID s id =
      (RepoState.mk (s.heap.alloc (s.heap.load p)).2 s.tasks s.uuidSeed,
       .ok s.heap.objs.length) := by
  rcases s with ⟨h, tk, u⟩
  simp [InMemoryTaskRepository.GetByID, hlk, Heap.alloc]

theorem Update_found (s : RepoState) (q : Ptr) (p0 : Ptr)
    (hlk : mapLookup s.tasks (s.heap.load q).id = some p0) :
    InMemoryTaskRepository.Update s q =
      (RepoState.mk (s.heap.alloc (s.heap.load q)).2
        (mapInsert s.tasks (s.heap.load q).id s.heap.objs.length) s.uuidSeed,
       none) := by
  rcases s with ⟨h, tk, u⟩
  simp [InMemoryTaskRepository.Update, hlk, Heap.alloc]

theorem getByIDValue_found (s : RepoState) (id : String) (p : Ptr)
    (hlk : mapLookup s.tasks id = some p) :
    getByIDValue s id = some (s.heap.load p) := by
  rw [getByIDValue, GetByID_found s id p hlk]
  simp [Heap.load_alloc_self]

/-- C1 counterexample: the claim says mutating the object passed into (and
returned by) `CreateTask` never changes what a later `GetByID` returns; at
this concrete input it does. The created task is stored under pointer 0;
writing title `X` through that pointer after `CreateTask` returned changes
the task that `GetByID` subsequently hands back from title `T` to `X`. -/
theorem C1_counterexample :
    (taskService.CreateTask 0 emptyRepo ⟨"T", "", none, 5⟩).2 = .ok 0 ∧
    getByIDValue (taskService.CreateTask 0 emptyRepo ⟨"T", "", none, 5⟩).1
        (uuidString 0) =
      some ⟨uuidString 0, "T", "", StatusPending, 5⟩ ∧
    getByIDValue
        { (taskService.CreateTask 0 emptyRepo ⟨"T", "", none, 5⟩).1 with
          heap := (taskService.CreateTask 0 emptyRepo
              ⟨"T", "", none, 5⟩).1.heap.store 0
            { (taskService.CreateTask 0 emptyRepo
                ⟨"T", "", none, 5⟩).1.heap.load 0 with title := "X" } }
        (uuidString 0) =
      some ⟨uuidString 0, "X", "", StatusPending, 5⟩ ∧
    (some (⟨uuidString 0, "X", "", StatusPending, 5⟩ : Task) ≠
      some (⟨uuidString 0, "T", "", StatusPending, 5⟩ : Task)) :=
  ⟨rfl, rfl, rfl, by decide⟩

/-- C1 amended: after `Create` returns, the stored record and the object
passed in are the same object, so writing through that object is visible
to a later `GetByID` (part A); the aliasing ends at the next `Update` of
that identifier, which replaces the stored record by a fresh copy (part
B); and a copy returned by `GetByID` is decoupled: writing through it
never changes what a later `GetByID` returns (part C). -/
theorem C1_copy_discipline_amended :
    (∀ (s : RepoState) (p : Ptr) (t2 : Task), p < s.heap.objs.length →
      getByIDValue
        { (InMemoryTaskRepository.Create s p).1 with
          heap := (InMemoryTaskRepository.Create s p).1.heap.store p t2 }
        (uuidString s.uuidSeed) = some t2) ∧
    (∀ (s : RepoState) (p q : Ptr) (t2 : Task), p < s.heap.objs.length →
      ((InMemoryTaskRepository.Create s p).1.heap.load q).id =
          uuidString s.uuidSeed →
      getByIDValue
        { (InMemoryTaskRepository.Update
              (InMemoryTaskRepository.Create s p).1 q).1 with
          heap := (InMemoryTaskRepository.Update
              (InMemoryTaskRepository.Create s p).1 q).1.heap.store p t2 }
        (uuidString s.uuidSeed) =
      some ((InMemoryTaskRepository.Create s p).1.heap.load q)) ∧
    (∀ (s : RepoState) (id : String) (p : Ptr) (t2 : Task),
      mapLookup s.tasks id = some p → p < s.heap.objs.length →
      getByIDValue
        { (InMemoryTaskRepository.GetByID s id).1 with
          heap := (InMemoryTaskRepository.GetByID s id).1.heap.store
            s.heap.objs.length t2 }
        id = some (s.heap.load p)) := by
  refine ⟨?_, ?_, ?_⟩
  · intro s p t2 hp
    have hlk : mapLookup ({ (InMemoryTaskRepository.Create s p).1 with
        heap := (InMemoryTaskRepository.Create s p).1.heap.store p t2 }).tasks
        (uuidString s.uuidSeed) = some p := by
      simp [InMemoryTaskRepository.Create, mapLookup_insert_self]
    rw [getByIDValue_found _ _ _ hlk]
    have hp2 : p < ((InMemoryTaskRepository.Create s p).1.heap).objs.length := by
      simpa [InMemoryTaskRepository.Create, Heap.length_store] using hp
    simp [Heap.load_store_self _ _ _ hp2]
  · intro s p q t2 hp hid
    have hlk1 : mapLookup (InMemoryTaskRepository.Create s p).1.tasks
        ((InMemoryTaskRepository.Create s p).1.heap.load q).id = some p := by
      rw [hid]
      simp [InMemoryTaskRepository.Create, mapLookup_insert_self]
    rw [Update_found _ _ _ hlk1]
    have hlen1 : (InMemoryTaskRepository.Create s p).1.heap.objs.length
        = s.heap.objs.length := by
      simp [InMemoryTaskRepository.Create, Heap.length_store]
    have hlk2 : mapLookup ({ RepoState.mk
          ((InMemoryTaskRepository.Create s p).1.heap.alloc
            ((InMemoryTaskRepository.Create s p).1.heap.load q)).2
          (mapInsert (InMemoryTaskRepository.Create s p).1.tasks
            ((InMemoryTaskRepository.Create s p).1.heap.load q).id
            (InMemoryTaskRepository.Create s p).1.heap.objs.length)
          (InMemoryTaskRepository.Create s p).1.uuidSeed with
        heap := (RepoState.mk
          ((InMemoryTaskRepository.Create s p).1.heap.alloc
            ((InMemoryTaskRepository.Create s p).1.heap.load q)).2
          (mapInsert (InMemoryTaskRepository.Create s p).1.tasks
            ((InMemoryTaskRepository.Create s p).1.heap.load q).id
            (InMemoryTaskRepository.Create s p).1.heap.objs.length)
          (InMemoryTaskRepository.Create s p).1.uuidSeed).heap.store p t2 }).tasks
        (uuidString s.uuidSeed) =
        some (InMemoryTaskRepository.Create s p).1.heap.objs.length := by
      rw [hid]
      exact mapLookup_insert_self _ _ _
    rw [getByIDValue_found _ _ _ hlk2]
    have hne : (InMemoryTaskRepository.Create s p).1.heap.objs.length ≠ p := by
      rw [hlen1]; exact Nat.ne_of_gt hp
    simp only [Heap.load_store_ne _ _ _ _ (Ne.symm hne)]
    rw [Heap.load_alloc_self]
  · intro s id p t2 hlk hp
    rw [GetByID_found s id p hlk]
    have hlk2 : mapLookup ({ RepoState.mk (s.heap.alloc (s.heap.load p)).2
          s.tasks s.uuidSeed with
        heap := (RepoState.mk (s.heap.alloc (s.heap.load p)).2 s.tasks
          s.uuidSeed).heap.store s.heap.objs.length t2 }).tasks id = some p := hlk
    rw [getByIDValue_found _ _ _ hlk2]
    have hne : p ≠ s.heap.objs.length := Nat.ne_of_lt hp
    simp only [Heap.load_store_ne _ _ _ _ (Ne.symm hne)]
    rw [Heap.load_alloc_old _ _ _ hp]

/-- C1 amended witness: part A at a concrete one-object heap, part C at a
concrete one-entry store. -/
theorem C1_copy_discipline_amended_witness :
    getByIDValue
      { (InMemoryTaskRepository.Create ⟨⟨[defTask]⟩, [], 0⟩ 0).1 with
        heap := (InMemoryTaskRepository.Create
            ⟨⟨[defTask]⟩, [], 0⟩ 0).1.heap.store 0 ⟨"z", "Y", "", "DONE", 9⟩ }
      (uuidString 0) = some ⟨"z", "Y", "", "DONE", 9⟩ ∧
    getByIDValue
      { (InMemoryTaskRepository.GetByID
            ⟨⟨[⟨"k", "T", "", "PENDING", 5⟩]⟩, [("k", 0)], 1⟩ "k").1 with
        heap := (InMemoryTaskRepository.GetByID
            ⟨⟨[⟨"k", "T", "", "PENDING", 5⟩]⟩, [("k", 0)], 1⟩ "k").1.heap.store 1
          ⟨"k", "MUT", "", "PENDING", 5⟩ }
      "k" = some ⟨"k", "T", "", "PENDING", 5⟩ := by
  constructor
  · exact C1_copy_discipline_amended.1 ⟨⟨[defTask]⟩, [], 0⟩ 0
      ⟨"z", "Y", "", "DONE", 9⟩ (by simp)
  · exact C1_copy_discipline_amended.2.2 ⟨⟨[⟨"k", "T", "", "PENDING", 5⟩]⟩,
      [("k", 0)], 1⟩ "k" 0 ⟨"k", "MUT", "", "PENDING", 5⟩
      (by simp [mapLookup]) (by simp)


/-!
UpdateTask block lemmas: each statement block of `UpdateTask` operates on
the fresh local copy at pointer `c` (allocated by `GetByID` on top of the
base state `s0`), so it preserves the stored entries and their values;
on success the merged copy is persisted wholesale.
-/

theorem UpdateTaskPersist_spec (s0 s : RepoState) (c : Ptr)
    (htasks : s.tasks = s0.tasks) (hseed : s.uuidSeed = s0.uuidSeed)
    (hlen : s.heap.objs.length = s0.heap.objs.length + 1)
    (hc : c = s0.heap.objs.length)
    (hold : ∀ q, q < s0.heap.objs.length → s.heap.load q = s0.heap.load q) :
    (taskService.UpdateTaskPersist s c).1.uuidSeed = s0.uuidSeed ∧
    (∀ q, q < s0.heap.objs.length →
      (taskService.UpdateTaskPersist s c).1.heap.load q = s0.heap.load q) ∧
    ((mapLookup s0.tasks ((s.heap.load c).id)).isSome = true →
      (taskService.UpdateTaskPersist s c).2 = .ok c ∧
      (taskService.UpdateTaskPersist s c).1.tasks =
        mapInsert s0.tasks ((s.heap.load c).id) (s0.heap.objs.length + 1) ∧
      (taskService.UpdateTaskPersist s c).1.heap.load
        (s0.heap.objs.length + 1) = s.heap.load c ∧
      (taskService.UpdateTaskPersist s c).1.heap.load c = s.heap.load c ∧
      (taskService.UpdateTaskPersist s c).1.heap.objs.length =
        s0.heap.objs.length + 2) ∧
    (¬ (mapLookup s0.tasks ((s.heap.load c).id)).isSome = true →
      (∃ e, (taskService.UpdateTaskPersist s c).2 = .error e) ∧
      (taskService.UpdateTaskPersist s c).1.tasks = s0.tasks ∧
      (taskService.UpdateTaskPersist s c).1.heap.objs.length =
        s0.heap.objs.length + 1) := by
  by_cases hfound : (mapLookup s0.tasks ((s.heap.load c).id)).isSome = true
  · rw [Option.isSome_iff_exists] at hfound
    obtain ⟨p0, hp0⟩ := hfound
    have hlk : mapLookup s.tasks ((s.heap.load c).id) = some p0 := by
      rw [htasks]; exact hp0
    have hupd := Update_found s c p0 hlk
    refine ⟨?_, ?_, ?_, ?_⟩
    · simp [taskService.UpdateTaskPersist, hupd, hseed]
    · intro q hq
      simp only [taskService.UpdateTaskPersist, hupd]
      have hq2 : q < s.heap.objs.length := by omega
      exact (Heap.load_alloc_old _ _ _ hq2).trans (hold q hq)
    · intro _
      refine ⟨?_, ?_, ?_, ?_, ?_⟩
      · simp [taskService.UpdateTaskPersist, hupd]
      · simp [taskService.UpdateTaskPersist, hupd, htasks, hlen]
      · simp only [taskService.UpdateTaskPersist, hupd]
        rw [← hlen]
        exact Heap.load_alloc_self _ _
      · simp only [taskService.UpdateTaskPersist, hupd]
        have hc2 : c < s.heap.objs.length := by
          rw [hc, hlen]; exact Nat.lt_succ_self _
        exact Heap.load_alloc_old _ _ _ hc2
      · simp only [taskService.UpdateTaskPersist, hupd]
        rw [Heap.length_alloc, hlen]
    · intro h
      exact absurd (by rw [Option.isSome_iff_exists]; exact ⟨p0, hp0⟩) h
  · have hlk : mapLookup s.tasks ((s.heap.load c).id) = none := by
      rw [htasks]
      rcases h : mapLookup s0.tasks ((s.heap.load c).id) with _ | p0
      · rfl
      · exact absurd (by rw [Option.isSome_iff_exists]; exact ⟨p0, h⟩) hfound
    have hupd : InMemoryTaskRepository.Update s c =
        (s, some (NewNotFoundError "task not found")) := by
      simp [InMemoryTaskRepository.Update, hlk]
    refine ⟨?_, ?_, ?_, ?_⟩
    · simp [taskService.UpdateTaskPersist, hupd, hseed]
    · intro q hq
      simp only [taskService.UpdateTaskPersist, hupd]
      exact hold q hq
    · intro h
      exact absurd h hfound
    · intro _
      exact ⟨⟨NewNotFoundError "task not found", by
        simp [taskService.UpdateTaskPersist, hupd]⟩, by
        simp [taskService.UpdateTaskPersist, hupd, htasks], by
        simp [taskService.UpdateTaskPersist, hupd, hlen]⟩


theorem store_copy_hyps (s0 s : RepoState) (c : Ptr) (t : Task)
    (htasks : s.tasks = s0.tasks) (hseed : s.uuidSeed = s0.uuidSeed)
    (hlen : s.heap.objs.length = s0.heap.objs.length + 1)
    (hc : c = s0.heap.objs.length)
    (hold : ∀ q, q < s0.heap.objs.length → s.heap.load q = s0.heap.load q) :
    ({ s with heap := s.heap.store c t }).tasks = s0.tasks ∧
    ({ s with heap := s.heap.store c t }).uuidSeed = s0.uuidSeed ∧
    ({ s with heap := s.heap.store c t }).heap.objs.length =
      s0.heap.objs.length + 1 ∧
    (∀ q, q < s0.heap.objs.length →
      ({ s with heap := s.heap.store c t }).heap.load q = s0.heap.load q) ∧
    ({ s with heap := s.heap.store c t }).heap.load c = t := by
  refine ⟨htasks, hseed, by rw [Heap.length_store]; exact hlen, ?_, ?_⟩
  · intro q hq
    have hne : c ≠ q := by rw [hc]; exact Nat.ne_of_gt hq
    rw [Heap.load_store_ne _ _ _ _ hne]
    exact hold q hq
  · have hc2 : c < s.heap.objs.length := by
      rw [hc, hlen]; exact Nat.lt_succ_self _
    exact Heap.load_store_self _ _ _ hc2

theorem UpdateTaskFromDueDate_spec (now : Nat) (s0 s : RepoState) (c : Ptr)
    (input : UpdateTaskInput)
    (htasks : s.tasks = s0.tasks) (hseed : s.uuidSeed = s0.uuidSeed)
    (hlen : s.heap.objs.length = s0.heap.objs.length + 1)
    (hc : c = s0.heap.objs.length)
    (hold : ∀ q, q < s0.heap.objs.length → s.heap.load q = s0.heap.load q) :
    (taskService.UpdateTaskFromDueDate now s c input).1.uuidSeed = s0.uuidSeed ∧
    (∀ q, q < s0.heap.objs.length →
      (taskService.UpdateTaskFromDueDate now s c input).1.heap.load q =
        s0.heap.load q) ∧
    ((∀ dd, input.dueDate = some dd → dd ≠ 0 ∧ now < dd) →
      (mapLookup s0.tasks ((s.heap.load c).id)).isSome = true →
      (taskService.UpdateTaskFromDueDate now s c input).2 = .ok c ∧
      (taskService.UpdateTaskFromDueDate now s c input).1.tasks =
        mapInsert s0.tasks ((s.heap.load c).id) (s0.heap.objs.length + 1) ∧
      (taskService.UpdateTaskFromDueDate now s c input).1.heap.load
        (s0.heap.objs.length + 1) =
        { s.heap.load c with
          dueDate := input.dueDate.getD (s.heap.load c).dueDate } ∧
      (taskService.UpdateTaskFromDueDate now s c input).1.heap.load c =
        { s.heap.load c with
          dueDate := input.dueDate.getD (s.heap.load c).dueDate } ∧
      (taskService.UpdateTaskFromDueDate now s c input).1.heap.objs.length =
        s0.heap.objs.length + 2) ∧
    (¬ ((∀ dd, input.dueDate = some dd → dd ≠ 0 ∧ now < dd) ∧
        (mapLookup s0.tasks ((s.heap.load c).id)).isSome = true) →
      (∃ e, (taskService.UpdateTaskFromDueDate now s c input).2 = .error e) ∧
      (taskService.UpdateTaskFromDueDate now s c input).1.tasks = s0.tasks ∧
      (taskService.UpdateTaskFromDueDate now s c input).1.heap.objs.length =
        s0.heap.objs.length + 1) := by
  rcases hdd : input.dueDate with _ | dd
  · have hred : taskService.UpdateTaskFromDueDate now s c input =
        taskService.UpdateTaskPersist s c := by
      simp [taskService.UpdateTaskFromDueDate, hdd]
    have hP := UpdateTaskPersist_spec s0 s c htasks hseed hlen hc hold
    rw [hred]
    refine ⟨hP.1, hP.2.1, ?_, ?_⟩
    · intro _ hfound
      have h := hP.2.2.1 hfound
      refine ⟨h.1, h.2.1, ?_, ?_, h.2.2.2.2⟩
      · rw [h.2.2.1]; rfl
      · rw [h.2.2.2.1]; rfl
    · intro hbad
      rcases Decidable.em ((mapLookup s0.tasks ((s.heap.load c).id)).isSome = true) with hf | hf
      · have hdok : ∀ dd2, (none : Option Nat) = some dd2 → dd2 ≠ 0 ∧ now < dd2 := by
          intro dd2 h
          cases h
        exact absurd ⟨hdok, hf⟩ hbad
      · exact hP.2.2.2 hf
  · by_cases h0 : dd = 0
    · have hred : taskService.UpdateTaskFromDueDate now s c input =
          (s, .error (NewValidationError ErrDueDateRequired)) := by
        simp [taskService.UpdateTaskFromDueDate, hdd, h0]
      rw [hred]
      refine ⟨hseed, fun q hq => hold q hq, ?_, ?_⟩
      · intro hok _
        exact absurd (hok dd rfl).1 (by simp [h0])
      · intro _
        exact ⟨⟨_, rfl⟩, htasks, hlen⟩
    · by_cases hpast : dd ≤ now
      · have hred : taskService.UpdateTaskFromDueDate now s c input =
            (s, .error (NewValidationError ErrDueDatePast)) := by
          simp [taskService.UpdateTaskFromDueDate, hdd, h0, hpast]
        rw [hred]
        refine ⟨hseed, fun q hq => hold q hq, ?_, ?_⟩
        · intro hok _
          exact absurd (hok dd rfl).2 (by omega)
        · intro _
          exact ⟨⟨_, rfl⟩, htasks, hlen⟩
      · have hred : taskService.UpdateTaskFromDueDate now s c input =
            taskService.UpdateTaskPersist
              { s with
                heap := s.heap.store c { s.heap.load c with dueDate := dd } }
              c := by
          simp [taskService.UpdateTaskFromDueDate, hdd, h0, hpast]
        have hs2 := store_copy_hyps s0 s c ({ s.heap.load c with dueDate := dd })
          htasks hseed hlen hc hold
        have hP := UpdateTaskPersist_spec s0 _ c hs2.1 hs2.2.1 hs2.2.2.1 hc
          hs2.2.2.2.1
        rw [hred]
        have hidkeep : (({ s with
            heap := s.heap.store c { s.heap.load c with dueDate := dd } }).heap.load
              c).id = (s.heap.load c).id := by
          rw [hs2.2.2.2.2]
        refine ⟨hP.1, hP.2.1, ?_, ?_⟩
        · intro _ hfound
          have h := hP.2.2.1 (by rw [hidkeep]; exact hfound)
          refine ⟨h.1, by rw [h.2.1, hidkeep], ?_, ?_, h.2.2.2.2⟩
          · rw [h.2.2.1, hs2.2.2.2.2]; rfl
          · rw [h.2.2.2.1, hs2.2.2.2.2]; rfl
        · intro hbad
          rcases Decidable.em
              ((mapLookup s0.tasks ((s.heap.load c).id)).isSome = true) with hf | hf
          · have hdok : ∀ dd2, some dd = some dd2 → dd2 ≠ 0 ∧ now < dd2 := by
              intro dd2 h
              cases h
              exact ⟨h0, by omega⟩
            exact absurd ⟨hdok, hf⟩ hbad
          · have h := hP.2.2.2 (by rw [hidkeep]; exact hf)
            exact h


theorem UpdateTaskFromStatus_spec (now : Nat) (s0 s : RepoState) (c : Ptr)
    (input : UpdateTaskInput)
    (htasks : s.tasks = s0.tasks) (hseed : s.uuidSeed = s0.uuidSeed)
    (hlen : s.heap.objs.length = s0.heap.objs.length + 1)
    (hc : c = s0.heap.objs.length)
    (hold : ∀ q, q < s0.heap.objs.length → s.heap.load q = s0.heap.load q) :
    (taskService.UpdateTaskFromStatus now s c input).1.uuidSeed = s0.uuidSeed ∧
    (∀ q, q < s0.heap.objs.length →
      (taskService.UpdateTaskFromStatus now s c input).1.heap.load q =
        s0.heap.load q) ∧
    ((∀ st, input.status = some st → isValidStatus st = true) →
      (∀ dd, input.dueDate = some dd → dd ≠ 0 ∧ now < dd) →
      (mapLookup s0.tasks ((s.heap.load c).id)).isSome = true →
      (taskService.UpdateTaskFromStatus now s c input).2 = .ok c ∧
      (taskService.UpdateTaskFromStatus now s c input).1.tasks =
        mapInsert s0.tasks ((s.heap.load c).id) (s0.heap.objs.length + 1) ∧
      (taskService.UpdateTaskFromStatus now s c input).1.heap.load
        (s0.heap.objs.length + 1) =
        { s.heap.load c with
          status := input.status.getD (s.heap.load c).status,
          dueDate := input.dueDate.getD (s.heap.load c).dueDate } ∧
      (taskService.UpdateTaskFromStatus now s c input).1.heap.load c =
        { s.heap.load c with
          status := input.status.getD (s.heap.load c).status,
          dueDate := input.dueDate.getD (s.heap.load c).dueDate } ∧
      (taskService.UpdateTaskFromStatus now s c input).1.heap.objs.length =
        s0.heap.objs.length + 2) ∧
    (¬ ((∀ st, input.status = some st → isValidStatus st = true) ∧
        (∀ dd, input.dueDate = some dd → dd ≠ 0 ∧ now < dd) ∧
        (mapLookup s0.tasks ((s.heap.load c).id)).isSome = true) →
      (∃ e, (taskService.UpdateTaskFromStatus now s c input).2 = .error e) ∧
      (taskService.UpdateTaskFromStatus now s c input).1.tasks = s0.tasks ∧
      (taskService.UpdateTaskFromStatus now s c input).1.heap.objs.length =
        s0.heap.objs.length + 1) := by
  rcases hst : input.status with _ | st
  · have hred : taskService.UpdateTaskFromStatus now s c input =
        taskService.UpdateTaskFromDueDate now s c input := by
      simp [taskService.UpdateTaskFromStatus, hst]
    have hP := UpdateTaskFromDueDate_spec now s0 s c input htasks hseed hlen
      hc hold
    rw [hred]
    refine ⟨hP.1, hP.2.1, ?_, ?_⟩
    · intro _ hddok hfound
      have h := hP.2.2.1 hddok hfound
      exact ⟨h.1, h.2.1, h.2.2.1, h.2.2.2.1, h.2.2.2.2⟩
    · intro hbad
      apply hP.2.2.2
      intro hin
      apply hbad
      have hstok : ∀ st2, (none : Option TaskStatus) = some st2 →
          isValidStatus st2 = true := by
        intro st2 h
        cases h
      exact ⟨hstok, hin.1, hin.2⟩
  · by_cases hv : isValidStatus st
    · have hred : taskService.UpdateTaskFromStatus now s c input =
          taskService.UpdateTaskFromDueDate now
            { s with
              heap := s.heap.store c { s.heap.load c with status := st } }
            c input := by
        simp [taskService.UpdateTaskFromStatus, hst, hv]
      have hs2 := store_copy_hyps s0 s c ({ s.heap.load c with status := st })
        htasks hseed hlen hc hold
      have hP := UpdateTaskFromDueDate_spec now s0 _ c input hs2.1 hs2.2.1
        hs2.2.2.1 hc hs2.2.2.2.1
      rw [hred]
      have hidkeep : (({ s with
          heap := s.heap.store c { s.heap.load c with status := st } }).heap.load
            c).id = (s.heap.load c).id := by
        rw [hs2.2.2.2.2]
      refine ⟨hP.1, hP.2.1, ?_, ?_⟩
      · intro _ hddok hfound
        have h := hP.2.2.1 hddok (by rw [hidkeep]; exact hfound)
        refine ⟨h.1, by rw [h.2.1, hidkeep], ?_, ?_, h.2.2.2.2⟩
        · rw [h.2.2.1, hs2.2.2.2.2]; rfl
        · rw [h.2.2.2.1, hs2.2.2.2.2]; rfl
      · intro hbad
        have h := hP.2.2.2 ?_
        · exact h
        · intro hin
          apply hbad
          have hstok : ∀ st2, some st = some st2 → isValidStatus st2 = true := by
            intro st2 h2
            cases h2
            exact hv
          rw [hidkeep] at hin
          exact ⟨hstok, hin.1, hin.2⟩
    · have hred : taskService.UpdateTaskFromStatus now s c input =
          (s, .error (NewValidationError ErrStatusInvalid)) := by
        simp [taskService.UpdateTaskFromStatus, hst, hv]
      rw [hred]
      refine ⟨hseed, fun q hq => hold q hq, ?_, ?_⟩
      · intro hstok _ _
        exact absurd (hstok st rfl) (by simp [hv])
      · intro _
        exact ⟨⟨_, rfl⟩, htasks, hlen⟩

theorem UpdateTaskFromDescription_spec (now : Nat) (s0 s : RepoState)
    (c : Ptr) (input : UpdateTaskInput)
    (htasks : s.tasks = s0.tasks) (hseed : s.uuidSeed = s0.uuidSeed)
    (hlen : s.heap.objs.length = s0.heap.objs.length + 1)
    (hc : c = s0.heap.objs.length)
    (hold : ∀ q, q < s0.heap.objs.length → s.heap.load q = s0.heap.load q) :
    (taskService.UpdateTaskFromDescription now s c input).1.uuidSeed =
      s0.uuidSeed ∧
    (∀ q, q < s0.heap.objs.length →
      (taskService.UpdateTaskFromDescription now s c input).1.heap.load q =
        s0.heap.load q) ∧
    ((∀ st, input.status = some st → isValidStatus st = true) →
      (∀ dd, input.dueDate = some dd → dd ≠ 0 ∧ now < dd) →
      (mapLookup s0.tasks ((s.heap.load c).id)).isSome = true →
      (taskService.UpdateTaskFromDescription now s c input).2 = .ok c ∧
      (taskService.UpdateTaskFromDescription now s c input).1.tasks =
        mapInsert s0.tasks ((s.heap.load c).id) (s0.heap.objs.length + 1) ∧
      (taskService.UpdateTaskFromDescription now s c input).1.heap.load
        (s0.heap.objs.length + 1) =
        { s.heap.load c with
          description :=
            input.description.getD (s.heap.load c).description,
          status := input.status.getD (s.heap.load c).status,
          dueDate := input.dueDate.getD (s.heap.load c).dueDate } ∧
      (taskService.UpdateTaskFromDescription now s c input).1.heap.load c =
        { s.heap.load c with
          description :=
            input.description.getD (s.heap.load c).description,
          status := input.status.getD (s.heap.load c).status,
          dueDate := input.dueDate.getD (s.heap.load c).dueDate } ∧
      (taskService.UpdateTaskFromDescription now s c
          input).1.heap.objs.length = s0.heap.objs.length + 2) ∧
    (¬ ((∀ st, input.status = some st → isValidStatus st = true) ∧
        (∀ dd, input.dueDate = some dd → dd ≠ 0 ∧ now < dd) ∧
        (mapLookup s0.tasks ((s.heap.load c).id)).isSome = true) →
      (∃ e, (taskService.UpdateTaskFromDescription now s c input).2 =
        .error e) ∧
      (taskService.UpdateTaskFromDescription now s c input).1.tasks =
        s0.tasks ∧
      (taskService.UpdateTaskFromDescription now s c
          input).1.heap.objs.length = s0.heap.objs.length + 1) := by
  rcases hd : input.description with _ | d
  · have hred : taskService.UpdateTaskFromDescription now s c input =
        taskService.UpdateTaskFromStatus now s c input := by
      simp [taskService.UpdateTaskFromDescription, hd]
    have hP := UpdateTaskFromStatus_spec now s0 s c input htasks hseed hlen
      hc hold
    rw [hred]
    refine ⟨hP.1, hP.2.1, ?_, hP.2.2.2⟩
    intro hstok hddok hfound
    have h := hP.2.2.1 hstok hddok hfound
    exact ⟨h.1, h.2.1, h.2.2.1, h.2.2.2.1, h.2.2.2.2⟩
  · have hred : taskService.UpdateTaskFromDescription now s c input =
        taskService.UpdateTaskFromStatus now
          { s with
            heap := s.heap.store c { s.heap.load c with description := d } }
          c input := by
      simp [taskService.UpdateTaskFromDescription, hd]
    have hs2 := store_copy_hyps s0 s c
      ({ s.heap.load c with description := d }) htasks hseed hlen hc hold
    have hP := UpdateTaskFromStatus_spec now s0 _ c input hs2.1 hs2.2.1
      hs2.2.2.1 hc hs2.2.2.2.1
    rw [hred]
    have hidkeep : (({ s with
        heap := s.heap.store c
          { s.heap.load c with description := d } }).heap.load c).id =
        (s.heap.load c).id := by
      rw [hs2.2.2.2.2]
    refine ⟨hP.1, hP.2.1, ?_, ?_⟩
    · intro hstok hddok hfound
      have h := hP.2.2.1 hstok hddok (by rw [hidkeep]; exact hfound)
      refine ⟨h.1, by rw [h.2.1, hidkeep], ?_, ?_, h.2.2.2.2⟩
      · rw [h.2.2.1, hs2.2.2.2.2]; rfl
      · rw [h.2.2.2.1, hs2.2.2.2.2]; rfl
    · intro hbad
      apply hP.2.2.2
      intro hin
      apply hbad
      rw [hidkeep] at hin
      exact hin


theorem UpdateTask_spec (now : Nat) (s : RepoState) (id : String)
    (input : UpdateTaskInput) (p : Ptr)
    (hlk : mapLookup s.tasks id = some p) (hp : p < s.heap.objs.length) :
    (taskService.UpdateTask now s id input).1.uuidSeed = s.uuidSeed ∧
    (∀ q, q < s.heap.objs.length →
      (taskService.UpdateTask now s id input).1.heap.load q =
        s.heap.load q) ∧
    ((∀ t, input.title = some t → t ≠ "") →
      (∀ st, input.status = some st → isValidStatus st = true) →
      (∀ dd, input.dueDate = some dd → dd ≠ 0 ∧ now < dd) →
      (mapLookup s.tasks ((s.heap.load p).id)).isSome = true →
      (taskService.UpdateTask now s id input).2 = .ok s.heap.objs.length ∧
      (taskService.UpdateTask now s id input).1.tasks =
        mapInsert s.tasks ((s.heap.load p).id) (s.heap.objs.length + 1) ∧
      (taskService.UpdateTask now s id input).1.heap.load
        (s.heap.objs.length + 1) = mergeTask (s.heap.load p) input ∧
      (taskService.UpdateTask now s id input).1.heap.load
        s.heap.objs.length = mergeTask (s.heap.load p) input ∧
      (taskService.UpdateTask now s id input).1.heap.objs.length =
        s.heap.objs.length + 2) ∧
    (¬ ((∀ t, input.title = some t → t ≠ "") ∧
        (∀ st, input.status = some st → isValidStatus st = true) ∧
        (∀ dd, input.dueDate = some dd → dd ≠ 0 ∧ now < dd) ∧
        (mapLookup s.tasks ((s.heap.load p).id)).isSome = true) →
      (∃ e, (taskService.UpdateTask now s id input).2 = .error e) ∧
      (taskService.UpdateTask now s id input).1.tasks = s.tasks ∧
      (taskService.UpdateTask now s id input).1.heap.objs.length =
        s.heap.objs.length + 1) := by
  have hget := GetByID_found s id p hlk
  have hs1tasks : (RepoState.mk (s.heap.alloc (s.heap.load p)).2 s.tasks
      s.uuidSeed).tasks = s.tasks := rfl
  have hs1seed : (RepoState.mk (s.heap.alloc (s.heap.load p)).2 s.tasks
      s.uuidSeed).uuidSeed = s.uuidSeed := rfl
  have hs1len : (RepoState.mk (s.heap.alloc (s.heap.load p)).2 s.tasks
      s.uuidSeed).heap.objs.length = s.heap.objs.length + 1 :=
    Heap.length_alloc _ _
  have hs1old : ∀ q, q < s.heap.objs.length →
      (RepoState.mk (s.heap.alloc (s.heap.load p)).2 s.tasks
        s.uuidSeed).heap.load q = s.heap.load q := by
    intro q hq
    exact Heap.load_alloc_old _ _ _ hq
  have hs1c : (RepoState.mk (s.heap.alloc (s.heap.load p)).2 s.tasks
      s.uuidSeed).heap.load s.heap.objs.length = s.heap.load p :=
    Heap.load_alloc_self _ _
  rcases ht : input.title with _ | t
  · have hred : taskService.UpdateTask now s id input =
        taskService.UpdateTaskFromDescription now
          (RepoState.mk (s.heap.alloc (s.heap.load p)).2 s.tasks s.uuidSeed)
          s.heap.objs.length input := by
      simp [taskService.UpdateTask, hget, ht]
    have hP := UpdateTaskFromDescription_spec now s _ s.heap.objs.length
      input hs1tasks hs1seed hs1len rfl hs1old
    rw [hred]
    refine ⟨hP.1, hP.2.1, ?_, ?_⟩
    · intro _ hstok hddok hfound
      have h := hP.2.2.1 hstok hddok (by rw [hs1c]; exact hfound)
      refine ⟨h.1, by rw [h.2.1, hs1c], ?_, ?_, h.2.2.2.2⟩
      · rw [h.2.2.1, hs1c]; simp [mergeTask, ht]
      · rw [h.2.2.2.1, hs1c]; simp [mergeTask, ht]
    · intro hbad
      apply hP.2.2.2
      intro hin
      apply hbad
      rw [hs1c] at hin
      have httok : ∀ t2, (none : Option String) = some t2 → t2 ≠ "" := by
        intro t2 h2
        cases h2
      exact ⟨httok, hin.1, hin.2.1, hin.2.2⟩
  · by_cases hte : t = ""
    · have hred : taskService.UpdateTask now s id input =
          (RepoState.mk (s.heap.alloc (s.heap.load p)).2 s.tasks s.uuidSeed,
           .error (NewValidationError ErrTitleRequired)) := by
        simp [taskService.UpdateTask, hget, ht, hte]
      rw [hred]
      refine ⟨rfl, hs1old, ?_, ?_⟩
      · intro httok _ _ _
        exact absurd (httok t rfl) (by simp [hte])
      · intro _
        exact ⟨⟨_, rfl⟩, rfl, Heap.length_alloc _ _⟩
    · have hred : taskService.UpdateTask now s id input =
          taskService.UpdateTaskFromDescription now
            { RepoState.mk (s.heap.alloc (s.heap.load p)).2 s.tasks
                s.uuidSeed with
              heap := (RepoState.mk (s.heap.alloc (s.heap.load p)).2 s.tasks
                s.uuidSeed).heap.store s.heap.objs.length
                  { (RepoState.mk (s.heap.alloc (s.heap.load p)).2 s.tasks
                      s.uuidSeed).heap.load s.heap.objs.length with
                    title := t } }
            s.heap.objs.length input := by
        simp [taskService.UpdateTask, hget, ht, hte]
      have hs2 := store_copy_hyps s (RepoState.mk
          (s.heap.alloc (s.heap.load p)).2 s.tasks s.uuidSeed)
        s.heap.objs.length
        ({ (RepoState.mk (s.heap.alloc (s.heap.load p)).2 s.tasks
            s.uuidSeed).heap.load s.heap.objs.length with title := t })
        hs1tasks hs1seed hs1len rfl hs1old
      have hP := UpdateTaskFromDescription_spec now s _ s.heap.objs.length
        input hs2.1 hs2.2.1 hs2.2.2.1 rfl hs2.2.2.2.1
      rw [hred]
      have hldc : ({ RepoState.mk (s.heap.alloc (s.heap.load p)).2 s.tasks
            s.uuidSeed with
          heap := (RepoState.mk (s.heap.alloc (s.heap.load p)).2 s.tasks
            s.uuidSeed).heap.store s.heap.objs.length
              { (RepoState.mk (s.heap.alloc (s.heap.load p)).2 s.tasks
                  s.uuidSeed).heap.load s.heap.objs.length with
                title := t } }).heap.load s.heap.objs.length =
          { s.heap.load p with title := t } := by
        rw [hs2.2.2.2.2, hs1c]
      refine ⟨hP.1, hP.2.1, ?_, ?_⟩
      · intro _ hstok hddok hfound
        have h := hP.2.2.1 hstok hddok (by rw [hldc]; exact hfound)
        refine ⟨h.1, by rw [h.2.1, hldc], ?_, ?_, h.2.2.2.2⟩
        · rw [h.2.2.1, hldc]; simp [mergeTask, ht]
        · rw [h.2.2.2.1, hldc]; simp [mergeTask, ht]
      · intro hbad
        apply hP.2.2.2
        intro hin
        apply hbad
        rw [hldc] at hin
        have httok : ∀ t2, some t = some t2 → t2 ≠ "" := by
          intro t2 h2
          cases h2
          exact hte
        exact ⟨httok, hin.1, hin.2.1, hin.2.2⟩


/-!
Claim C8: UpdateTask is a partial merge framing unsupplied fields.
-/

/-- C8: on an existing task, with each supplied field passing its
validation rule, `UpdateTask` succeeds; the stored record, the returned
task and a subsequent `GetByID` all equal the merge of the old task with
the input, where every unsupplied field keeps its stored value, every
supplied field overwrites (description unconditionally, empty allowed),
and the identifier never changes. -/
theorem C8_updateTask_merge (now : Nat) (s : RepoState) (id : String)
    (input : UpdateTaskInput) (p : Ptr)
    (hlk : mapLookup s.tasks id = some p) (hp : p < s.heap.objs.length)
    (hid : (s.heap.load p).id = id)
    (htt : ∀ t, input.title = some t → t ≠ "")
    (hss : ∀ st, input.status = some st → isValidStatus st = true)
    (hdd : ∀ dd, input.dueDate = some dd → dd ≠ 0 ∧ now < dd) :
    (taskService.UpdateTask now s id input).2 = .ok s.heap.objs.length ∧
    (taskService.UpdateTask now s id input).1.heap.load s.heap.objs.length =
      mergeTask (s.heap.load p) input ∧
    getByIDValue (taskService.UpdateTask now s id input).1 id =
      some (mergeTask (s.heap.load p) input) ∧
    (mergeTask (s.heap.load p) input).id = id ∧
    (input.title = none →
      (mergeTask (s.heap.load p) input).title = (s.heap.load p).title) ∧
    (∀ v, input.title = some v →
      (mergeTask (s.heap.load p) input).title = v) ∧
    (input.description = none →
      (mergeTask (s.heap.load p) input).description =
        (s.heap.load p).description) ∧
    (∀ v, input.description = some v →
      (mergeTask (s.heap.load p) input).description = v) ∧
    (input.status = none →
      (mergeTask (s.heap.load p) input).status = (s.heap.load p).status) ∧
    (∀ v, input.status = some v →
      (mergeTask (s.heap.load p) input).status = v) ∧
    (input.dueDate = none →
      (mergeTask (s.heap.load p) input).dueDate = (s.heap.load p).dueDate) ∧
    (∀ v, input.dueDate = some v →
      (mergeTask (s.heap.load p) input).dueDate = v) := by
  have hfound : (mapLookup s.tasks ((s.heap.load p).id)).isSome = true := by
    rw [hid, hlk]; rfl
  have h := (UpdateTask_spec now s id input p hlk hp).2.2.1 htt hss hdd hfound
  refine ⟨h.1, h.2.2.2.1, ?_, by simp [mergeTask, hid], ?_, ?_, ?_, ?_, ?_,
    ?_, ?_, ?_⟩
  · have hlk2 : mapLookup (taskService.UpdateTask now s id input).1.tasks id =
        some (s.heap.objs.length + 1) := by
      rw [h.2.1, hid]
      exact mapLookup_insert_self _ _ _
    rw [getByIDValue_found _ _ _ hlk2, h.2.2.1]
  · intro hv; simp [mergeTask, hv]
  · intro v hv; simp [mergeTask, hv]
  · intro hv; simp [mergeTask, hv]
  · intro v hv; simp [mergeTask, hv]
  · intro hv; simp [mergeTask, hv]
  · intro v hv; simp [mergeTask, hv]
  · intro hv; simp [mergeTask, hv]
  · intro v hv; simp [mergeTask, hv]

/-- C8 witness: a concrete partial update (new title and status, due date
and description unsupplied) on a one-task store. -/
theorem C8_updateTask_merge_witness :
    (taskService.UpdateTask 0 ⟨⟨[⟨"k", "Old", "D", "PENDING", 9⟩]⟩,
        [("k", 0)], 1⟩ "k" ⟨some "New", none, some "IN_PROGRESS", none⟩).2 =
      .ok 1 ∧
    getByIDValue (taskService.UpdateTask 0
        ⟨⟨[⟨"k", "Old", "D", "PENDING", 9⟩]⟩, [("k", 0)], 1⟩ "k"
        ⟨some "New", none, some "IN_PROGRESS", none⟩).1 "k" =
      some ⟨"k", "New", "D", "IN_PROGRESS", 9⟩ := by
  have h := C8_updateTask_merge 0
    ⟨⟨[⟨"k", "Old", "D", "PENDING", 9⟩]⟩, [("k", 0)], 1⟩ "k"
    ⟨some "New", none, some "IN_PROGRESS", none⟩ 0
    (by simp [mapLookup]) (by simp) (by simp [Heap.load])
    (by intro t ht; cases ht; simp)
    (by intro st hst; cases hst; simp [isValidStatus, StatusInProgress])
    (by intro dd hdd; cases hdd)
  refine ⟨h.1, ?_⟩
  rw [h.2.2.1]
  simp [mergeTask, Heap.load]

theorem storeView_congr (s s2 : RepoState) (ht : s2.tasks = s.tasks)
    (hb : ∀ e ∈ s.tasks, e.2 < s.heap.objs.length)
    (hl : ∀ q, q < s.heap.objs.length → s2.heap.load q = s.heap.load q) :
    storeView s2 = storeView s := by
  rw [storeView, storeView, ht]
  apply List.map_congr_left
  intro e he
  rw [hl e.2 (hb e he)]

/-!
Claim C10: UpdateTask is atomic on error.
-/

/-- C10: whenever `UpdateTask` returns an error (NotFound or any
Validation error, including one raised after earlier supplied fields were
merged into the working copy), the repository contents are exactly what
they were before the call: partial merges are never visible, because the
validation mutates only the local copy obtained from `GetByID` and the
repository `Update` runs only after every check passes. -/
theorem C10_update_atomic_on_error (now : Nat) (s : RepoState) (id : String)
    (input : UpdateTaskInput)
    (hb : ∀ e ∈ s.tasks, e.2 < s.heap.objs.length) :
    ∀ err, (taskService.UpdateTask now s id input).2 = .error err →
      storeView (taskService.UpdateTask now s id input).1 = storeView s := by
  intro err herr
  rcases hl : mapLookup s.tasks id with _ | p
  · have hred : taskService.UpdateTask now s id input =
        (s, .error (NewNotFoundError "task not found")) := by
      simp [taskService.UpdateTask, InMemoryTaskRepository.GetByID, hl]
    rw [hred]
  · have hspec := UpdateTask_spec now s id input p hl (hb _ (mapLookup_mem _ _ _ hl))
    by_cases hok : (∀ t, input.title = some t → t ≠ "") ∧
        (∀ st, input.status = some st → isValidStatus st = true) ∧
        (∀ dd, input.dueDate = some dd → dd ≠ 0 ∧ now < dd) ∧
        (mapLookup s.tasks ((s.heap.load p).id)).isSome = true
    · have h := hspec.2.2.1 hok.1 hok.2.1 hok.2.2.1 hok.2.2.2
      rw [h.1] at herr
      cases herr
    · have h := hspec.2.2.2 hok
      exact storeView_congr s _ h.2.1 hb hspec.2.1

/-- C10 witness: a failing update (invalid status supplied after a new
title was already merged into the working copy) leaves the store view of
a concrete one-task repository unchanged. -/
theorem C10_update_atomic_on_error_witness :
    storeView (taskService.UpdateTask 0
        ⟨⟨[⟨"k", "Old", "D", "PENDING", 9⟩]⟩, [("k", 0)], 1⟩ "k"
        ⟨some "New", none, some "BOGUS", none⟩).1 =
      storeView ⟨⟨[⟨"k", "Old", "D", "PENDING", 9⟩]⟩, [("k", 0)], 1⟩ := by
  exact C10_update_atomic_on_error 0
    ⟨⟨[⟨"k", "Old", "D", "PENDING", 9⟩]⟩, [("k", 0)], 1⟩ "k"
    ⟨some "New", none, some "BOGUS", none⟩
    (by intro e he; simp at he; simp [he])
    (NewValidationError ErrStatusInvalid) (by rfl)


/-!
Claim C5: the stored-task data-model invariant under service operations.
-/

theorem CreateTask_state_err (now : Nat) (s : RepoState)
    (input : CreateTaskInput) (h : createValidationSpec now input ≠ none) :
    (taskService.CreateTask now s input).1 = s := by
  rcases input with ⟨title, desc, stOpt, dd⟩
  by_cases h1 : title = ""
  · simp [taskService.CreateTask, h1]
  by_cases h2 : dd = 0
  · simp [taskService.CreateTask, h1, h2]
  by_cases h3 : dd ≤ now
  · simp [taskService.CreateTask, h1, h2, h3]
  rcases stOpt with _ | st
  · exact absurd (by simp [createValidationSpec, h1, h2, h3]) h
  · by_cases h4 : isValidStatus st
    · exact absurd (by simp [createValidationSpec, h1, h2, h3, h4]) h
    · simp [taskService.CreateTask, h1, h2, h3, h4]

theorem CreateTask_ok_obs (now : Nat) (s : RepoState)
    (input : CreateTaskInput) (h : createValidationSpec now input = none) :
    (taskService.CreateTask now s input).1.tasks =
      mapInsert s.tasks (uuidString s.uuidSeed) s.heap.objs.length ∧
    (taskService.CreateTask now s input).1.heap.load s.heap.objs.length =
      ⟨uuidString s.uuidSeed, input.title, input.description,
        input.status.getD StatusPending, input.dueDate⟩ ∧
    (taskService.CreateTask now s input).1.heap.objs.length =
      s.heap.objs.length + 1 ∧
    (∀ q, q < s.heap.objs.length →
      (taskService.CreateTask now s input).1.heap.load q = s.heap.load q) ∧
    input.title ≠ "" ∧ input.dueDate ≠ 0 ∧
    isValidStatus (input.status.getD StatusPending) = true := by
  rcases input with ⟨title, desc, stOpt, dd⟩
  by_cases h1 : title = ""
  · rw [createValidationSpec] at h
    simp [h1] at h
  by_cases h2 : dd = 0
  · rw [createValidationSpec] at h
    simp [h1, h2] at h
  by_cases h3 : dd ≤ now
  · rw [createValidationSpec] at h
    simp [h1, h2, h3] at h
  have hst : isValidStatus (stOpt.getD StatusPending) = true := by
    rcases stOpt with _ | st
    · simp [isValidStatus, StatusPending]
    · rw [createValidationSpec] at h
      by_cases h4 : isValidStatus st
      · simpa using h4
      · simp [h1, h2, h3, h4] at h
  have hred : taskService.CreateTask now s ⟨title, desc, stOpt, dd⟩ =
      (RepoState.mk
        ((s.heap.alloc ⟨"", title, desc, stOpt.getD StatusPending, dd⟩).2.store
          s.heap.objs.length
          ⟨uuidString s.uuidSeed, title, desc, stOpt.getD StatusPending, dd⟩)
        (mapInsert s.tasks (uuidString s.uuidSeed) s.heap.objs.length)
        (s.uuidSeed + 1),
       .ok s.heap.objs.length) := by
    rcases stOpt with _ | st
    · simp [taskService.CreateTask, h1, h2, h3,
        InMemoryTaskRepository.Create, Heap.alloc, Heap.load_alloc_self,
        Heap.load, Heap.store, List.getD_eq_getElem?_getD,
        List.getElem?_concat_length]
    · have h4 : isValidStatus st = true := by simpa using hst
      simp [taskService.CreateTask, h1, h2, h3, h4,
        InMemoryTaskRepository.Create, Heap.alloc, Heap.load_alloc_self,
        Heap.load, Heap.store, List.getD_eq_getElem?_getD,
        List.getElem?_concat_length]
  rw [hred]
  refine ⟨rfl, ?_, ?_, ?_, h1, h2, hst⟩
  · exact Heap.load_store_self _ _ _
      (by rw [Heap.length_alloc]; exact Nat.lt_succ_self _)
  · rw [Heap.length_store, Heap.length_alloc]
  · intro q hq
    rw [Heap.load_store_ne _ _ _ _ (Nat.ne_of_gt hq)]
    exact Heap.load_alloc_old _ _ _ hq

theorem applyOp_inv (s : RepoState) (op : ServiceOp)
    (hInv : ∀ e ∈ s.tasks, e.2 < s.heap.objs.length ∧
      validTask (s.heap.load e.2)) :
    ∀ e ∈ (applyOp s op).tasks, e.2 < (applyOp s op).heap.objs.length ∧
      validTask ((applyOp s op).heap.load e.2) := by
  rcases op with ⟨now, input⟩ | ⟨now, id, input⟩ | id
  · simp only [applyOp]
    by_cases hv : createValidationSpec now input = none
    · have obs := CreateTask_ok_obs now s input hv
      intro e he
      rw [obs.1] at he
      rcases mem_mapInsert _ _ _ _ he with he2 | he2
      · subst he2
        refine ⟨by rw [obs.2.2.1]; exact Nat.lt_succ_self _, ?_⟩
        rw [obs.2.1]
        refine ⟨uuidString_ne_empty _, obs.2.2.2.2.1, obs.2.2.2.2.2.2, obs.2.2.2.2.2.1⟩
      · have hb := (hInv e he2).1
        refine ⟨by rw [obs.2.2.1]; exact Nat.lt_succ_of_lt hb, ?_⟩
        rw [obs.2.2.2.1 e.2 hb]
        exact (hInv e he2).2
    · rw [CreateTask_state_err now s input hv]
      exact hInv
  · simp only [applyOp]
    rcases hl : mapLookup s.tasks id with _ | p
    · have hred : taskService.UpdateTask now s id input =
          (s, .error (NewNotFoundError "task not found")) := by
        simp [taskService.UpdateTask, InMemoryTaskRepository.GetByID, hl]
      rw [hred]
      exact hInv
    · have hmem := mapLookup_mem _ _ _ hl
      have hspec := UpdateTask_spec now s id input p hl (hInv _ hmem).1
      have hvold := (hInv _ hmem).2
      by_cases hok : (∀ t, input.title = some t → t ≠ "") ∧
          (∀ st, input.status = some st → isValidStatus st = true) ∧
          (∀ dd, input.dueDate = some dd → dd ≠ 0 ∧ now < dd) ∧
          (mapLookup s.tasks ((s.heap.load p).id)).isSome = true
      · have h := hspec.2.2.1 hok.1 hok.2.1 hok.2.2.1 hok.2.2.2
        intro e he
        rw [h.2.1] at he
        rcases mem_mapInsert _ _ _ _ he with he2 | he2
        · subst he2
          refine ⟨by rw [h.2.2.2.2]; exact Nat.lt_succ_self _, ?_⟩
          rw [h.2.2.1]
          refine ⟨by simpa [mergeTask] using hvold.1, ?_, ?_, ?_⟩
          · rcases ht : input.title with _ | t
            · simpa [mergeTask, ht] using hvold.2.1
            · simpa [mergeTask, ht] using hok.1 t ht
          · rcases hs : input.status with _ | st
            · simpa [mergeTask, hs] using hvold.2.2.1
            · simpa [mergeTask, hs] using hok.2.1 st hs
          · rcases hd : input.dueDate with _ | dd
            · simpa [mergeTask, hd] using hvold.2.2.2
            · simpa [mergeTask, hd] using (hok.2.2.1 dd hd).1
        · have hb := (hInv e he2).1
          have hb12 : e.2 < s.heap.objs.length + 2 :=
            Nat.lt_succ_of_lt (Nat.lt_succ_of_lt hb)
          refine ⟨by rw [h.2.2.2.2]; exact hb12, ?_⟩
          rw [hspec.2.1 e.2 hb]
          exact (hInv e he2).2
      · have h := hspec.2.2.2 hok
        intro e he
        rw [h.2.1] at he
        have hb := (hInv e he).1
        refine ⟨by rw [h.2.2]; exact Nat.lt_succ_of_lt hb, ?_⟩
        rw [hspec.2.1 e.2 hb]
        exact (hInv e he).2
  · simp only [applyOp]
    rcases hl : mapLookup s.tasks id with _ | p
    · have hred : taskService.DeleteTask s id =
          (s, some (NewNotFoundError "task not found")) := by
        simp [taskService.DeleteTask, InMemoryTaskRepository.Delete, hl]
      rw [hred]
      exact hInv
    · have hred : taskService.DeleteTask s id =
          ({ s with tasks := mapErase s.tasks id }, none) := by
        simp [taskService.DeleteTask, InMemoryTaskRepository.Delete, hl]
      rw [hred]
      intro e he
      exact hInv e (mem_mapErase _ _ _ he)

/-- C5: after every sequence of service operations from the empty store,
every task held in the repository has a non-empty identifier, a non-empty
title, a status in the closed enumeration, and a non-zero due date. -/
theorem C5_stored_tasks_valid (ops : List ServiceOp) :
    ∀ e ∈ (runOps ops).tasks, validTask ((runOps ops).heap.load e.2) := by
  have hrun : ∀ (l : List ServiceOp) (s : RepoState),
      (∀ e ∈ s.tasks, e.2 < s.heap.objs.length ∧
        validTask (s.heap.load e.2)) →
      ∀ e ∈ (l.foldl applyOp s).tasks,
        e.2 < (l.foldl applyOp s).heap.objs.length ∧
        validTask ((l.foldl applyOp s).heap.load e.2) := by
    intro l
    induction l with
    | nil => intro s h; simpa using h
    | cons op rest ih =>
      intro s h
      simpa using ih (applyOp s op) (applyOp_inv s op h)
  intro e he
  exact (hrun ops emptyRepo (by simp [emptyRepo]) e he).2

/-- C5 witness: after a concrete run (create, partial update, create with a
failing validation) the store holds exactly the entry at address 2, and the
task there is valid. -/
theorem C5_stored_tasks_valid_witness :
    validTask ((runOps [.createOp 0 ⟨"Report", "", none, 5⟩,
        .updateOp 0 (uuidString 0) ⟨none, some "notes", none, none⟩,
        .createOp 0 ⟨"", "", none, 5⟩]).heap.load 2) :=
  C5_stored_tasks_valid [.createOp 0 ⟨"Report", "", none, 5⟩,
        .updateOp 0 (uuidString 0) ⟨none, some "notes", none, none⟩,
        .createOp 0 ⟨"", "", none, 5⟩] (uuidString 0, 2) (by decide)


/-!
Sorting lemmas, part 1: swaps, frames, permutations of the slice.
-/

theorem length_swapD (d : List Task) (i j : Nat) :
    (swapD d i j).length = d.length := by
  rw [swapD]
  split
  · simp
  · rfl

theorem getD_swapD_fst (d : List Task) (i j : Nat) (hi : i < d.length)
    (hj : j < d.length) :
    (swapD d i j).getD i defTask = d.getD j defTask := by
  rw [swapD, if_pos ⟨hi, hj⟩]
  by_cases hij : j = i
  · subst hij
    simp [List.getD_eq_getElem?_getD, List.getElem?_set_self,
      List.length_set, hj]
  · simp [List.getD_eq_getElem?_getD, List.getElem?_set_ne hij,
      List.getElem?_set_self hi]

theorem getD_swapD_snd (d : List Task) (i j : Nat) (hi : i < d.length)
    (hj : j < d.length) :
    (swapD d i j).getD j defTask = d.getD i defTask := by
  rw [swapD, if_pos ⟨hi, hj⟩]
  simp [List.getD_eq_getElem?_getD, List.getElem?_set_self,
    List.length_set, hj]

theorem getD_swapD_ne (d : List Task) (i j k : Nat) (hki : k ≠ i)
    (hkj : k ≠ j) : (swapD d i j).getD k defTask = d.getD k defTask := by
  rw [swapD]
  split
  · simp [List.getD_eq_getElem?_getD, List.getElem?_set_ne (Ne.symm hkj),
      List.getElem?_set_ne (Ne.symm hki)]
  · rfl

theorem cons_getD_set_perm (l : List Task) (j : Nat) (x : Task)
    (hj : j < l.length) :
    (l.getD j defTask :: l.set j x).Perm (x :: l) := by
  induction l generalizing j with
  | nil => simp at hj
  | cons y t ih =>
    rcases j with _ | j
    · simpa using List.Perm.swap x y t
    · have hj2 : j < t.length := by simpa using hj
      have h1 : (y :: t).getD (j + 1) defTask = t.getD j defTask := rfl
      have h2 : (y :: t).set (j + 1) x = y :: t.set j x := rfl
      rw [h1, h2]
      exact (List.Perm.swap y (t.getD j defTask) (t.set j x)).trans
        (((ih j hj2).cons y).trans (List.Perm.swap x y t))

theorem set_set_perm (l : List Task) (i j : Nat) (hi : i < l.length)
    (hj : j < l.length) :
    ((l.set i (l.getD j defTask)).set j (l.getD i defTask)).Perm l := by
  induction l generalizing i j with
  | nil => simp at hi
  | cons x t ih =>
    rcases i with _ | i
    · rcases j with _ | j
      · show (x :: t).Perm (x :: t)
        exact List.Perm.refl _
      · have hj2 : j < t.length := by simpa using hj
        show (t.getD j defTask :: t.set j x).Perm (x :: t)
        exact cons_getD_set_perm t j x hj2
    · rcases j with _ | j
      · have hi2 : i < t.length := by simpa using hi
        show (t.getD i defTask :: t.set i x).Perm (x :: t)
        exact cons_getD_set_perm t i x hi2
      · have hi2 : i < t.length := by simpa using hi
        have hj2 : j < t.length := by simpa using hj
        show (x :: (t.set i (t.getD j defTask)).set j
          (t.getD i defTask)).Perm (x :: t)
        exact (ih i j hi2 hj2).cons x

theorem perm_swapD (d : List Task) (i j : Nat) : (swapD d i j).Perm d := by
  rw [swapD]
  split
  · next h => exact set_set_perm d i j h.1 h.2
  · exact List.Perm.refl d

theorem swapD_self (d : List Task) (i : Nat) : swapD d i i = d := by
  rw [swapD]
  split
  · next h =>
    rw [List.set_set]
    refine List.ext_getElem? (fun n => ?_)
    by_cases hn : n = i
    · subst hn
      rw [List.getElem?_set_self h.1,
        List.getElem?_eq_getElem h.1]
      simp [List.getD_eq_getElem?_getD, List.getElem?_eq_getElem h.1]
    · exact List.getElem?_set_ne (fun he => hn he.symm)
  · rfl

/-!
RangeOp: composition, widening, swaps, and transport of permutations,
bounds, and sentinels across a range-local rearrangement.
-/

theorem RangeOp.rfl (a b : Nat) (d : List Task) : RangeOp a b d d :=
  ⟨Eq.refl _, fun _ _ => Eq.refl _, List.Perm.refl d⟩

theorem RangeOp.trans {a b : Nat} {d e f : List Task} (h1 : RangeOp a b d e)
    (h2 : RangeOp a b e f) : RangeOp a b d f :=
  ⟨h2.1.trans h1.1, fun k hk => (h2.2.1 k hk).trans (h1.2.1 k hk),
    h2.2.2.trans h1.2.2⟩

theorem RangeOp.mono {a b a2 b2 : Nat} {d e : List Task} (ha : a2 ≤ a)
    (hb : b ≤ b2) (h : RangeOp a b d e) : RangeOp a2 b2 d e :=
  ⟨h.1, fun k hk => h.2.1 k (by omega), h.2.2⟩

theorem swapD_rangeOp {a b : Nat} (d : List Task) (i j : Nat)
    (hai : a ≤ i) (hib : i < b) (haj : a ≤ j) (hjb : j < b) :
    RangeOp a b d (swapD d i j) :=
  ⟨length_swapD d i j,
    fun k hk => getD_swapD_ne d i j k (by omega) (by omega),
    perm_swapD d i j⟩

theorem getElem?_eq_some_getD {d : List Task} {k : Nat} (h : k < d.length) :
    d[k]? = some (d.getD k defTask) := by
  simp [List.getD_eq_getElem?_getD, List.getElem?_eq_getElem h]

theorem getD_frame_getElem? {d e : List Task} {k : Nat}
    (hlen : e.length = d.length)
    (h : e.getD k defTask = d.getD k defTask) : e[k]? = d[k]? := by
  by_cases hk : k < d.length
  · rw [getElem?_eq_some_getD hk, getElem?_eq_some_getD (by omega), h]
  · rw [List.getElem?_eq_none (by omega), List.getElem?_eq_none (by omega)]

theorem length_subVals (d : List Task) (a b : Nat) :
    (subVals d a b).length = min (b - a) (d.length - a) := by
  simp [subVals]

theorem getElem?_subVals (d : List Task) (a b k : Nat) (h : k < b - a) :
    (subVals d a b)[k]? = d[a + k]? := by
  rw [subVals, List.getElem?_take_of_lt h, List.getElem?_drop]

theorem getD_mem_subVals {d : List Task} {a b k : Nat} (hak : a ≤ k)
    (hkb : k < b) (hkd : k < d.length) :
    d.getD k defTask ∈ subVals d a b := by
  have h1 : (subVals d a b)[k - a]? = d[a + (k - a)]? :=
    getElem?_subVals d a b (k - a) (by omega)
  have h2 : a + (k - a) = k := by omega
  rw [h2] at h1
  exact List.getElem?_mem (h1.trans (getElem?_eq_some_getD hkd))

theorem mem_subVals {d : List Task} {a b : Nat} {x : Task}
    (h : x ∈ subVals d a b) :
    ∃ k, a ≤ k ∧ k < b ∧ k < d.length ∧ d.getD k defTask = x := by
  obtain ⟨n, hn, hx⟩ := List.getElem_of_mem h
  have hlen := length_subVals d a b
  have hnb : n < b - a := by omega
  have hnd : a + n < d.length := by omega
  have h1 : (subVals d a b)[n]? = d[a + n]? := getElem?_subVals d a b n hnb
  rw [List.getElem?_eq_getElem hn, List.getElem?_eq_getElem hnd] at h1
  refine ⟨a + n, by omega, by omega, hnd, ?_⟩
  have h2 : d[a + n] = x := by
    have := Option.some.inj h1
    rw [← this, hx]
  rw [← h2]
  simp [List.getD_eq_getElem?_getD, List.getElem?_eq_getElem hnd]

theorem subVals_decomp {a b : Nat} (d : List Task) (hab : a ≤ b) :
    d = d.take a ++ (subVals d a b ++ d.drop b) := by
  conv_lhs => rw [← List.take_append_drop a d]
  congr 1
  conv_lhs => rw [← List.take_append_drop (b - a) (d.drop a)]
  congr 1
  rw [List.drop_drop]
  congr 1
  omega

theorem rangeOp_subVals_perm {a b : Nat} {d e : List Task}
    (h : RangeOp a b d e) : (subVals e a b).Perm (subVals d a b) := by
  rcases h with ⟨hlen, hframe, hperm⟩
  by_cases hab : a ≤ b
  · have hT : e.take a = d.take a := by
      refine List.ext_getElem? (fun k => ?_)
      by_cases hk : k < a
      · rw [List.getElem?_take_of_lt hk, List.getElem?_take_of_lt hk]
        exact getD_frame_getElem? hlen (hframe k (Or.inl hk))
      · rw [List.getElem?_eq_none (by simp [List.length_take]; omega),
          List.getElem?_eq_none (by simp [List.length_take]; omega)]
    have hR : e.drop b = d.drop b := by
      refine List.ext_getElem? (fun k => ?_)
      rw [List.getElem?_drop, List.getElem?_drop]
      exact getD_frame_getElem? hlen (hframe (b + k) (Or.inr (by omega)))
    have hp2 := hperm
    rw [subVals_decomp d hab, subVals_decomp e hab, hT, hR] at hp2
    have hp3 := (List.perm_append_left_iff (d.take a)).mp hp2
    exact (List.perm_append_right_iff (d.drop b)).mp hp3
  · have hba : b - a = 0 := by omega
    simp [subVals, hba]

theorem rangeOp_key_mem {a b k : Nat} {d e : List Task}
    (h : RangeOp a b d e) (hb : b ≤ d.length) (hak : a ≤ k) (hkb : k < b) :
    ∃ m, a ≤ m ∧ m < b ∧ m < d.length ∧ keyAt e k = keyAt d m := by
  have hkd : k < e.length := by rw [h.1]; omega
  have hmem : e.getD k defTask ∈ subVals e a b := getD_mem_subVals hak hkb hkd
  have hmem2 : e.getD k defTask ∈ subVals d a b :=
    (rangeOp_subVals_perm h).subset hmem
  obtain ⟨m, h1, h2, h3, h4⟩ := mem_subVals hmem2
  exact ⟨m, h1, h2, h3, by rw [keyAt, keyAt, h4]⟩

theorem rangeOp_key_bound {a b k B : Nat} {d e : List Task}
    (h : RangeOp a b d e) (hb : b ≤ d.length)
    (hB : ∀ m, a ≤ m → m < b → keyAt d m ≤ B) (hak : a ≤ k) (hkb : k < b) :
    keyAt e k ≤ B := by
  obtain ⟨m, h1, h2, _, h4⟩ := rangeOp_key_mem h hb hak hkb
  rw [h4]
  exact hB m h1 h2

theorem rangeOp_keyAt_frame {a b k : Nat} {d e : List Task}
    (h : RangeOp a b d e) (hk : k < a ∨ b ≤ k) : keyAt e k = keyAt d k := by
  rw [keyAt, keyAt, h.2.1 k hk]

theorem rangeOp_sentinel {a b : Nat} {d e : List Task} (ha : 0 < a)
    (h : RangeOp a b d e) (hb : b ≤ d.length)
    (hs : ∀ k, a ≤ k → k < b → keyAt d (a - 1) ≤ keyAt d k) :
    ∀ k, a ≤ k → k < b → keyAt e (a - 1) ≤ keyAt e k := by
  intro k hak hkb
  rw [rangeOp_keyAt_frame h (Or.inl (by omega))]
  obtain ⟨m, h1, h2, _, h4⟩ := rangeOp_key_mem h hb hak hkb
  rw [h4]
  exact hs m h1 h2

theorem sortedRng_le {d : List Task} {a b k m : Nat} (h : SortedRng d a b)
    (hak : a ≤ k) (hkm : k ≤ m) (hmb : m < b) : keyAt d k ≤ keyAt d m := by
  induction m with
  | zero =>
    have hk0 : k = 0 := by omega
    rw [hk0]
  | succ m ih =>
    by_cases hk : k = m + 1
    · rw [hk]
    · exact (ih (by omega) (by omega)).trans (h m (by omega) hmb)

theorem sortedRng_restrict {d : List Task} {a b b2 : Nat}
    (h : SortedRng d a b) (hb : b2 ≤ b) : SortedRng d a b2 :=
  fun k hak hkb => h k hak (by omega)

theorem sortedRng_vacuous {d : List Task} {a b : Nat} (hba : b ≤ a + 1) :
    SortedRng d a b :=
  fun _ hak hkb => absurd hkb (by omega)

theorem keyAt_swapD_ne {d : List Task} {i j k : Nat} (hki : k ≠ i)
    (hkj : k ≠ j) : keyAt (swapD d i j) k = keyAt d k := by
  rw [keyAt, keyAt, getD_swapD_ne d i j k hki hkj]

theorem keyAt_swapD_ne2 (d : List Task) (i j k : Nat) (hki : k ≠ i)
    (hkj : k ≠ j) : keyAt (swapD d i j) k = keyAt d k :=
  keyAt_swapD_ne hki hkj

theorem keyAt_swapD_fst {d : List Task} {i j : Nat} (hi : i < d.length)
    (hj : j < d.length) : keyAt (swapD d i j) i = keyAt d j := by
  rw [keyAt, keyAt, getD_swapD_fst d i j hi hj]

theorem keyAt_swapD_snd {d : List Task} {i j : Nat} (hi : i < d.length)
    (hj : j < d.length) : keyAt (swapD d i j) j = keyAt d i := by
  rw [keyAt, keyAt, getD_swapD_snd d i j hi hj]

/-!
`insertionSort`: permutes the range and leaves it sorted.
-/

theorem insertionSortInner_spec (a : Nat) : ∀ (j : Nat) (d : List Task),
    j < d.length → SortedRng d a j →
    RangeOp a (j + 1) d (insertionSortInner d a j) ∧
    SortedRng (insertionSortInner d a j) a (j + 1) := by
  intro j
  induction j with
  | zero =>
    intro d _ _
    rw [insertionSortInner]
    exact ⟨RangeOp.rfl _ _ _, sortedRng_vacuous (by omega)⟩
  | succ j ih =>
    intro d hlen hs
    rw [insertionSortInner]
    by_cases hcond : a < j + 1 ∧ lessD d (j + 1) j
    · rw [if_pos hcond]
      have hjlen : j < d.length := by omega
      have hlen1 : j < (swapD d (j + 1) j).length := by
        rw [length_swapD]; omega
      have hs1 : SortedRng (swapD d (j + 1) j) a j := by
        intro k hak hkb
        rw [keyAt_swapD_ne (by omega) (by omega),
          keyAt_swapD_ne (by omega) (by omega)]
        exact hs k hak (by omega)
      obtain ⟨hro, hsr⟩ := ih (swapD d (j + 1) j) hlen1 hs1
      refine ⟨?_, ?_⟩
      · exact (swapD_rangeOp d (j + 1) j (by omega) (by omega) (by omega)
          (by omega)).trans (hro.mono le_rfl (by omega))
      · intro k hak hkb
        by_cases hk : k + 1 < j + 1
        · exact hsr k hak hk
        · have hkj : k = j := by omega
          rw [hkj]
          have h1 : keyAt (insertionSortInner (swapD d (j + 1) j) a j)
              (j + 1) = keyAt d j := by
            rw [rangeOp_keyAt_frame hro (Or.inr (by omega)),
              keyAt_swapD_fst hlen hjlen]
          rw [h1]
          refine rangeOp_key_bound hro (by rw [length_swapD]; omega)
            (fun m ham hmj => ?_) (by omega) (by omega)
          by_cases hmj2 : m = j
          · subst hmj2
            rw [keyAt_swapD_snd hlen hjlen]
            exact Nat.le_of_lt hcond.2
          · rw [keyAt_swapD_ne (by omega) (by omega)]
            exact sortedRng_le hs ham (by omega) (by omega)
    · rw [if_neg hcond]
      refine ⟨RangeOp.rfl _ _ _, fun k hak hkb => ?_⟩
      by_cases hk : k + 1 < j + 1
      · exact hs k hak hk
      · have hkj : k = j := by omega
        rw [hkj]
        have hna : a < j + 1 := by omega
        have hnl : ¬ lessD d (j + 1) j := fun hl => hcond ⟨hna, hl⟩
        exact Nat.le_of_not_lt hnl

theorem insertionSortLoop_spec (a : Nat) : ∀ (n : Nat) (d : List Task)
    (i : Nat), a < i → i + n ≤ d.length → SortedRng d a i →
    RangeOp a (i + n) d (insertionSortLoop d a i n) ∧
    SortedRng (insertionSortLoop d a i n) a (i + n) := by
  intro n
  induction n with
  | zero =>
    intro d i _ _ hs
    rw [insertionSortLoop]
    exact ⟨RangeOp.rfl _ _ _, hs⟩
  | succ n ih =>
    intro d i hai hlen hs
    rw [insertionSortLoop]
    obtain ⟨h1, h2⟩ := insertionSortInner_spec a i d (by omega) hs
    obtain ⟨h3, h4⟩ := ih (insertionSortInner d a i) (i + 1) (by omega)
      (by rw [h1.1]; omega) h2
    have he : i + (n + 1) = i + 1 + n := by omega
    rw [he]
    exact ⟨(h1.mono le_rfl (by omega)).trans h3, h4⟩

theorem insertionSortRange_spec {d : List Task} {a b : Nat}
    (hb : b ≤ d.length) :
    RangeOp a b d (insertionSortRange d a b) ∧
    SortedRng (insertionSortRange d a b) a b := by
  rw [insertionSortRange]
  by_cases hab : a + 1 ≤ b
  · have he : a + 1 + (b - (a + 1)) = b := by omega
    obtain ⟨h1, h2⟩ := insertionSortLoop_spec a (b - (a + 1)) d (a + 1)
      (by omega) (by omega) (sortedRng_vacuous (by omega))
    rw [he] at h1 h2
    exact ⟨h1, h2⟩
  · have hz : b - (a + 1) = 0 := by omega
    rw [hz, insertionSortLoop]
    exact ⟨RangeOp.rfl _ _ _, sortedRng_vacuous (by omega)⟩

/-!
`reverseRange` and `breakPatterns`: range-local rearrangements.
-/

theorem reverseRangeLoop_rangeOp {a b : Nat} : ∀ (fuel : Nat)
    (d : List Task) (i j : Nat), a ≤ i → j < b →
    RangeOp a b d (reverseRangeLoop d i j fuel) := by
  intro fuel
  induction fuel with
  | zero => intro d i j _ _; exact RangeOp.rfl _ _ _
  | succ fuel ih =>
    intro d i j hai hjb
    rw [reverseRangeLoop]
    by_cases hij : i < j
    · rw [if_pos hij]
      exact (swapD_rangeOp d i j hai (by omega) (by omega) hjb).trans
        (ih _ (i + 1) (j - 1) (by omega) (by omega))
    · rw [if_neg hij]
      exact RangeOp.rfl _ _ _

theorem reverseRange_rangeOp {a b : Nat} (d : List Task) (hab : a < b) :
    RangeOp a b d (reverseRange d a b) :=
  reverseRangeLoop_rangeOp b d a (b - 1) le_rfl (by omega)

theorem bitsLenAux_zero : ∀ fuel, bitsLenAux fuel 0 = 0 := by
  intro fuel
  cases fuel <;> simp [bitsLenAux]

theorem bitsLenAux_bounds : ∀ (fuel n : Nat), n ≤ fuel →
    n < 2 ^ bitsLenAux fuel n ∧ (1 ≤ n → 2 ^ bitsLenAux fuel n ≤ 2 * n) := by
  intro fuel
  induction fuel with
  | zero =>
    intro n hn
    have h0 : n = 0 := by omega
    subst h0
    simp [bitsLenAux]
  | succ fuel ih =>
    intro n hn
    rw [bitsLenAux]
    by_cases h0 : n = 0
    · subst h0
      simp
    · rw [if_neg h0]
      obtain ⟨ih1, ih2⟩ := ih (n / 2) (by omega)
      rw [pow_succ]
      constructor
      · omega
      · intro _
        by_cases h2 : 1 ≤ n / 2
        · have := ih2 h2
          omega
        · have hn1 : n = 1 := by omega
          subst hn1
          rw [(by norm_num : (1 : Nat) / 2 = 0), bitsLenAux_zero]
          norm_num

theorem lt_nextPowerOfTwo (n : Nat) : n < nextPowerOfTwo n :=
  (bitsLenAux_bounds n n le_rfl).1

theorem nextPowerOfTwo_le {n : Nat} (h : 1 ≤ n) : nextPowerOfTwo n ≤ 2 * n :=
  (bitsLenAux_bounds n n le_rfl).2 h

theorem breakPatterns_rangeOp {a b : Nat} (d : List Task) :
    RangeOp a b d (breakPatterns d a b) := by
  simp only [breakPatterns]
  split
  · next h8 =>
    have hmod1 : b - a < nextPowerOfTwo (b - a) := lt_nextPowerOfTwo _
    have hmod2 : nextPowerOfTwo (b - a) ≤ 2 * (b - a) :=
      nextPowerOfTwo_le (by omega)
    have hoth : ∀ r : Nat,
        (if b - a ≤ Nat.land r (nextPowerOfTwo (b - a) - 1) then
          Nat.land r (nextPowerOfTwo (b - a) - 1) - (b - a)
        else Nat.land r (nextPowerOfTwo (b - a) - 1)) < b - a := by
      intro r
      have hle : Nat.land r (nextPowerOfTwo (b - a) - 1) ≤
          nextPowerOfTwo (b - a) - 1 := Nat.and_le_right
      split <;> omega
    have h1 := hoth (xorshiftNext (b - a))
    have h2 := hoth (xorshiftNext (xorshiftNext (b - a)))
    have h3 := hoth (xorshiftNext (xorshiftNext (xorshiftNext (b - a))))
    refine ((swapD_rangeOp d _ _ (by omega) (by omega) (by omega)
        (by omega)).trans
      (swapD_rangeOp _ _ _ (by omega) (by omega) (by omega)
        (by omega))).trans
      (swapD_rangeOp _ _ _ (by omega) (by omega) (by omega) (by omega))
  · exact RangeOp.rfl _ _ _

/-!
`choosePivot`: the chosen pivot lies in the range.
-/

theorem order2_fst_mem (d : List Task) (x y s : Nat) :
    (order2 d x y s).1 = x ∨ (order2 d x y s).1 = y := by
  rw [order2]
  split <;> simp

theorem order2_snd_mem (d : List Task) (x y s : Nat) :
    (order2 d x y s).2.1 = x ∨ (order2 d x y s).2.1 = y := by
  rw [order2]
  split <;> simp

theorem median_mem (d : List Task) (x y z s : Nat) :
    (median d x y z s).1 = x ∨ (median d x y z s).1 = y ∨
      (median d x y z s).1 = z := by
  simp only [median]
  rcases order2_snd_mem d (order2 d x y s).1
      (order2 d (order2 d x y s).2.1 z (order2 d x y s).2.2).1
      (order2 d (order2 d x y s).2.1 z (order2 d x y s).2.2).2.2 with
    h | h <;> rw [h]
  · rcases order2_fst_mem d x y s with h2 | h2 <;> rw [h2] <;> simp
  · rcases order2_fst_mem d (order2 d x y s).2.1 z
        (order2 d x y s).2.2 with h2 | h2 <;> rw [h2]
    · rcases order2_snd_mem d x y s with h3 | h3 <;> rw [h3] <;> simp
    · simp

theorem median_bounds {lo hi : Nat} (d : List Task) {x y z : Nat}
    (s : Nat) (hx1 : lo ≤ x) (hx2 : x < hi) (hy1 : lo ≤ y) (hy2 : y < hi)
    (hz1 : lo ≤ z) (hz2 : z < hi) :
    lo ≤ (median d x y z s).1 ∧ (median d x y z s).1 < hi := by
  rcases median_mem d x y z s with h | h | h <;> rw [h] <;>
    exact ⟨by omega, by omega⟩

theorem medianAdjacent_bounds (lo hi : Nat) (d : List Task) {x : Nat}
    (s : Nat) (h1 : lo ≤ x - 1) (h2 : x + 1 < hi) :
    lo ≤ (medianAdjacent d x s).1 ∧ (medianAdjacent d x s).1 < hi := by
  rw [medianAdjacent]
  rcases median_mem d (x - 1) x (x + 1) s with h | h | h <;> rw [h] <;>
    exact ⟨by omega, by omega⟩

theorem choosePivot_bounds (d : List Task) (a b : Nat) (h : 12 < b - a) :
    a ≤ (choosePivot d a b).1 ∧ (choosePivot d a b).1 < b := by
  simp only [choosePivot]
  rw [if_pos (by omega : 8 ≤ b - a)]
  by_cases h50 : 50 ≤ b - a
  · rw [if_pos h50]
    refine median_bounds d _ ?_ ?_ ?_ ?_ ?_ ?_
    · exact (medianAdjacent_bounds a b d _ (by omega) (by omega)).1
    · exact (medianAdjacent_bounds a b d _ (by omega) (by omega)).2
    · exact (medianAdjacent_bounds a b d _ (by omega) (by omega)).1
    · exact (medianAdjacent_bounds a b d _ (by omega) (by omega)).2
    · exact (medianAdjacent_bounds a b d _ (by omega) (by omega)).1
    · exact (medianAdjacent_bounds a b d _ (by omega) (by omega)).2
  · rw [if_neg h50]
    exact median_bounds d _ (by omega) (by omega) (by omega) (by omega)
      (by omega) (by omega)

/-!
`heapSort`: descendant relation of the implicit heap, `siftDown`, build
and pop phases.
-/

theorem Desc.le {r q : Nat} (h : Desc r q) : r ≤ q := by
  induction h with
  | refl => exact le_rfl
  | leftc q h ih => omega
  | rightc q h ih => omega

theorem Desc.chain {a b c : Nat} (h1 : Desc a b) (h2 : Desc b c) :
    Desc a c := by
  induction h2 with
  | refl => exact h1
  | leftc q h ih => exact .leftc _ _ ih
  | rightc q h ih => exact .rightc _ _ ih

theorem desc_parent {r q : Nat} (h : Desc r q) (hq : q ≠ r) :
    Desc r ((q - 1) / 2) := by
  cases h with
  | refl => exact absurd rfl hq
  | leftc q h =>
    rw [(by omega : (2 * q + 1 - 1) / 2 = q)]
    exact h
  | rightc q h =>
    rw [(by omega : (2 * q + 2 - 1) / 2 = q)]
    exact h

theorem not_desc_of_lt {r q : Nat} (h : q < r) : ¬ Desc r q :=
  fun hd => absurd hd.le (by omega)

theorem not_desc_child {c1 q : Nat} (hq : q ≠ c1)
    (hparent : (q - 1) / 2 < c1) : ¬ Desc c1 q :=
  fun hd => absurd (desc_parent hd hq).le (by omega)

theorem desc_zero (q : Nat) : Desc 0 q := by
  induction q using Nat.strong_induction_on with
  | _ q ih =>
    by_cases h0 : q = 0
    · rw [h0]
      exact .refl 0
    · have hp := ih ((q - 1) / 2) (by omega)
      rcases (by omega : q = 2 * ((q - 1) / 2) + 1 ∨
          q = 2 * ((q - 1) / 2) + 2) with h | h
      · rw [h]
        exact .leftc _ _ hp
      · rw [h]
        exact .rightc _ _ hp

theorem heapAbove_mono {d : List Task} {first hi r r2 : Nat}
    (h : HeapAbove d first hi r) (hr : r ≤ r2) : HeapAbove d first hi r2 :=
  fun p c hp hc hpc => h p c (by omega) hc hpc

theorem heapAbove_desc_le {d : List Task} {first hi t : Nat}
    (h : HeapAbove d first hi t) : ∀ {q}, Desc t q → q < hi →
    keyAt d (first + q) ≤ keyAt d (first + t) := by
  intro q hq
  induction hq with
  | refl => intro _; exact le_rfl
  | leftc q2 hd ih =>
    intro hqhi
    exact (h q2 (2 * q2 + 1) hd.le hqhi (Or.inl rfl)).trans (ih (by omega))
  | rightc q2 hd ih =>
    intro hqhi
    exact (h q2 (2 * q2 + 2) hd.le hqhi (Or.inr rfl)).trans (ih (by omega))

theorem siftDownLoop_spec {first hi : Nat} : ∀ (fuel : Nat) (d : List Task)
    (root : Nat), hi ≤ fuel + root + 1 → first + hi ≤ d.length →
    HeapAbove d first hi (root + 1) →
    RangeOp (first + root) (first + hi) d
      (siftDownLoop d hi first root fuel) ∧
    HeapAbove (siftDownLoop d hi first root fuel) first hi root ∧
    (∀ q, ¬ Desc root q →
      (siftDownLoop d hi first root fuel).getD (first + q) defTask =
        d.getD (first + q) defTask) ∧
    (∀ B, (∀ q, Desc root q → q < hi → keyAt d (first + q) ≤ B) →
      ∀ q, Desc root q → q < hi →
        keyAt (siftDownLoop d hi first root fuel) (first + q) ≤ B) := by
  intro fuel
  induction fuel with
  | zero =>
    intro d root hfuel hlen hheap
    rw [siftDownLoop]
    refine ⟨RangeOp.rfl _ _ _, ?_, fun _ _ => Eq.refl _, fun B hB => hB⟩
    intro p c hp hc hpc
    exact absurd hc (by rcases hpc with h | h <;> omega)
  | succ fuel ih =>
    intro d root hfuel hlen hheap
    simp only [siftDownLoop]
    by_cases hch : hi ≤ 2 * root + 1
    · rw [if_pos hch]
      refine ⟨RangeOp.rfl _ _ _, ?_, fun _ _ => Eq.refl _, fun B hB => hB⟩
      intro p c hp hc hpc
      by_cases hpr : p = root
      · subst hpr
        exact absurd hc (by rcases hpc with h | h <;> omega)
      · exact hheap p c (by omega) hc hpc
    · rw [if_neg hch]
      set child1 := if 2 * root + 1 + 1 < hi ∧
          lessD d (first + (2 * root + 1)) (first + (2 * root + 1) + 1) then
          2 * root + 1 + 1
        else 2 * root + 1 with hchild1
      have hc1a : root < child1 := by
        rw [hchild1]; split <;> omega
      have hc1b : child1 < hi := by
        rw [hchild1]
        split
        · next hcc => omega
        · omega
      have hc1c : child1 = 2 * root + 1 ∨ child1 = 2 * root + 2 := by
        rw [hchild1]; split <;> omega
      have hDrc1 : Desc root child1 := by
        rcases hc1c with h | h <;> rw [h]
        · exact .leftc _ _ (.refl root)
        · exact .rightc _ _ (.refl root)
      have hdom : ∀ c, c < hi → (c = 2 * root + 1 ∨ c = 2 * root + 2) →
          keyAt d (first + c) ≤ keyAt d (first + child1) := by
        intro c hc hpc
        rw [hchild1]
        split
        · next hsel =>
          rcases hpc with h | h
          · rw [h]
            exact Nat.le_of_lt hsel.2
          · rw [h]
        · next hsel =>
          rcases hpc with h | h
          · rw [h]
          · rw [h]
            have h2 : ¬ lessD d (first + (2 * root + 1))
                (first + (2 * root + 1) + 1) := by
              intro hl
              exact hsel ⟨by omega, hl⟩
            have h3 : first + (2 * root + 2) = first + (2 * root + 1) + 1 :=
              by omega
            rw [h3]
            exact Nat.le_of_not_lt h2
      by_cases hless : lessD d (first + root) (first + child1)
      · rw [if_neg (not_not_intro hless)]
        have hrlen : first + root < d.length := by omega
        have hclen : first + child1 < d.length := by omega
        have hlen1 : first + hi ≤
            (swapD d (first + root) (first + child1)).length := by
          rw [length_swapD]; exact hlen
        have hheap1 : HeapAbove (swapD d (first + root) (first + child1))
            first hi (child1 + 1) := by
          intro p c hp hc hpc
          have hc2 : 2 * p + 1 ≤ c := by rcases hpc with h | h <;> omega
          rw [keyAt_swapD_ne (by omega) (by omega),
            keyAt_swapD_ne (by omega) (by omega)]
          exact hheap p c (by omega) hc hpc
        obtain ⟨ihR, ihH, ihF, ihB⟩ :=
          ih (swapD d (first + root) (first + child1)) child1 (by omega)
            hlen1 hheap1
        have hF : ∀ q, ¬ Desc child1 q →
            keyAt (siftDownLoop (swapD d (first + root) (first + child1))
              hi first child1 fuel) (first + q) =
            keyAt (swapD d (first + root) (first + child1)) (first + q) :=
          fun q h => congrArg Task.dueDate (ihF q h)
        have hkroot : keyAt (siftDownLoop
            (swapD d (first + root) (first + child1)) hi first child1 fuel)
            (first + root) = keyAt d (first + child1) :=
          (hF root (not_desc_of_lt hc1a)).trans
            (keyAt_swapD_fst hrlen hclen)
        refine ⟨?_, ?_, ?_, ?_⟩
        · exact (swapD_rangeOp d (first + root) (first + child1) le_rfl
            (by omega) (by omega) (by omega)).trans
            (ihR.mono (by omega) le_rfl)
        · intro p c hp hc hpc
          by_cases hp2 : child1 ≤ p
          · exact ihH p c hp2 hc hpc
          · by_cases hpr : p = root
            · rw [hpr]
              by_cases hcc : c = child1
              · rw [hcc, hkroot]
                have hBM : ∀ q, Desc child1 q → q < hi →
                    keyAt (swapD d (first + root) (first + child1))
                      (first + q) ≤ keyAt d (first + child1) := by
                  intro q hdq hqhi
                  by_cases hqc : q = child1
                  · rw [hqc, keyAt_swapD_snd hrlen hclen]
                    exact Nat.le_of_lt hless
                  · have hqgt : child1 < q := by
                      have := hdq.le; omega
                    rw [keyAt_swapD_ne (by omega) (by omega)]
                    exact heapAbove_desc_le
                      (heapAbove_mono hheap (by omega)) hdq hqhi
                exact ihB (keyAt d (first + child1)) hBM child1
                  (.refl child1) hc1b
              · have hnd : ¬ Desc child1 c :=
                  not_desc_child hcc (by
                    rw [hpr] at hpc
                    rcases hpc with h | h <;> omega)
                have h1 : keyAt (siftDownLoop
                    (swapD d (first + root) (first + child1)) hi first
                    child1 fuel) (first + c) = keyAt d (first + c) :=
                  (hF c hnd).trans (keyAt_swapD_ne
                    (by rw [hpr] at hpc; rcases hpc with h | h <;> omega)
                    (by omega))
                rw [h1, hkroot]
                rw [hpr] at hpc
                exact hdom c hc hpc
            · have hpgt : root < p := by omega
              have hndp : ¬ Desc child1 p := not_desc_of_lt (by omega)
              have hcgt : child1 < c := by
                rcases hpc with h | h <;> omega
              have hndc : ¬ Desc child1 c :=
                not_desc_child (by omega)
                  (by rcases hpc with h | h <;> omega)
              have h1 : keyAt (siftDownLoop
                  (swapD d (first + root) (first + child1)) hi first
                  child1 fuel) (first + c) = keyAt d (first + c) :=
                (hF c hndc).trans
                  (keyAt_swapD_ne (by omega) (by omega))
              have h2 : keyAt (siftDownLoop
                  (swapD d (first + root) (first + child1)) hi first
                  child1 fuel) (first + p) = keyAt d (first + p) :=
                (hF p hndp).trans
                  (keyAt_swapD_ne (by omega) (by omega))
              rw [h1, h2]
              exact hheap p c (by omega) hc hpc
        · intro q hq
          have hnd : ¬ Desc child1 q := fun hd => hq (hDrc1.chain hd)
          have hqr : q ≠ root := fun he => hq (he ▸ Desc.refl root)
          have hqc : q ≠ child1 := fun he => hq (he ▸ hDrc1)
          exact (ihF q hnd).trans
            (getD_swapD_ne d _ _ _ (by omega) (by omega))
        · intro B hB q hq hqhi
          have hB1 : ∀ p, Desc child1 p → p < hi →
              keyAt (swapD d (first + root) (first + child1))
                (first + p) ≤ B := by
            intro p hdp hphi
            by_cases hpc1 : p = child1
            · rw [hpc1, keyAt_swapD_snd hrlen hclen]
              exact hB root (.refl root) (by omega)
            · have hplt : child1 < p := by have := hdp.le; omega
              rw [keyAt_swapD_ne (by omega) (by omega)]
              exact hB p (hDrc1.chain hdp) hphi
          by_cases hqc : Desc child1 q
          · exact ihB B hB1 q hqc hqhi
          · rw [hF q hqc]
            by_cases hqr : q = root
            · rw [hqr, keyAt_swapD_fst hrlen hclen]
              exact hB child1 hDrc1 hc1b
            · have hqc1 : q ≠ child1 := fun he => hqc (he ▸ Desc.refl child1)
              rw [keyAt_swapD_ne (by omega) (by omega)]
              exact hB q hq hqhi
      · rw [if_pos hless]
        refine ⟨RangeOp.rfl _ _ _, ?_, fun _ _ => Eq.refl _, fun B hB => hB⟩
        intro p c hp hc hpc
        by_cases hpr : p = root
        · rw [hpr]
          rw [hpr] at hpc
          exact (hdom c hc hpc).trans (Nat.le_of_not_lt hless)
        · exact hheap p c (by omega) hc hpc

theorem siftDown_spec {first hi : Nat} (d : List Task) (root : Nat)
    (hlen : first + hi ≤ d.length)
    (hheap : HeapAbove d first hi (root + 1)) :
    RangeOp (first + root) (first + hi) d (siftDown d root hi first) ∧
    HeapAbove (siftDown d root hi first) first hi root ∧
    (∀ q, ¬ Desc root q →
      (siftDown d root hi first).getD (first + q) defTask =
        d.getD (first + q) defTask) ∧
    (∀ B, (∀ q, Desc root q → q < hi → keyAt d (first + q) ≤ B) →
      ∀ q, Desc root q → q < hi →
        keyAt (siftDown d root hi first) (first + q) ≤ B) := by
  rw [siftDown]
  exact siftDownLoop_spec hi d root (by omega) hlen hheap

theorem heapAbove_top {d : List Task} {first hi : Nat} :
    HeapAbove d first hi ((hi - 1) / 2 + 1) := by
  intro p c hp hc hpc
  exact absurd hc (by rcases hpc with h | h <;> omega)

theorem heapSortBuild_spec (first hi : Nat) : ∀ (i : Nat) (d : List Task),
    first + hi ≤ d.length → HeapAbove d first hi (i + 1) →
    RangeOp first (first + hi) d (heapSortBuild d hi first i) ∧
    HeapAbove (heapSortBuild d hi first i) first hi 0 := by
  intro i
  induction i with
  | zero =>
    intro d hlen hheap
    rw [heapSortBuild]
    obtain ⟨h1, h2, _, _⟩ := siftDown_spec d 0 hlen hheap
    rw [Nat.add_zero] at h1
    exact ⟨h1, h2⟩
  | succ i ih =>
    intro d hlen hheap
    rw [heapSortBuild]
    obtain ⟨h1, h2, _, _⟩ := siftDown_spec d (i + 1) hlen hheap
    obtain ⟨h3, h4⟩ := ih (siftDown d (i + 1) hi first)
      (by rw [h1.1]; omega) h2
    exact ⟨(h1.mono (by omega) le_rfl).trans h3, h4⟩

theorem heapSortPop_spec (first : Nat) : ∀ (n : Nat) (d : List Task),
    first + (n + 1) ≤ d.length → HeapAbove d first (n + 1) 0 →
    RangeOp first (first + (n + 1)) d (heapSortPop d first n) ∧
    SortedRng (heapSortPop d first n) first (first + (n + 1)) := by
  intro n
  induction n with
  | zero =>
    intro d hlen hheap
    rw [heapSortPop, siftDown, siftDownLoop, swapD_self]
    exact ⟨RangeOp.rfl _ _ _, sortedRng_vacuous (by omega)⟩
  | succ n ih =>
    intro d hlen hheap
    rw [heapSortPop]
    have hmax : ∀ m, first ≤ m → m < first + (n + 2) →
        keyAt d m ≤ keyAt d first := by
      intro m h1 h2
      have h3 := heapAbove_desc_le hheap (desc_zero (m - first)) (by omega)
      rw [(by omega : first + (m - first) = m), Nat.add_zero] at h3
      exact h3
    have h1len : first < d.length := by omega
    have h2len : first + (n + 1) < d.length := by omega
    have hswapR : RangeOp first (first + (n + 2)) d
        (swapD d first (first + (n + 1))) :=
      swapD_rangeOp d first (first + (n + 1)) le_rfl (by omega) (by omega)
        (by omega)
    have hheap1 : HeapAbove (swapD d first (first + (n + 1))) first
        (n + 1) 1 := by
      intro p c hp hc hpc
      have hc2 : 2 * p + 1 ≤ c := by rcases hpc with h | h <;> omega
      rw [keyAt_swapD_ne (by omega) (by omega),
        keyAt_swapD_ne (by omega) (by omega)]
      exact hheap p c (by omega) (by omega) hpc
    obtain ⟨sdR, sdH, _, _⟩ :=
      siftDown_spec (swapD d first (first + (n + 1))) 0
        (by rw [length_swapD]; omega) hheap1
    rw [Nat.add_zero] at sdR
    obtain ⟨ihR, ihS⟩ :=
      ih (siftDown (swapD d first (first + (n + 1))) 0 (n + 1) first)
        (by rw [sdR.1, length_swapD]; omega) sdH
    have hcomp := sdR.trans ihR
    constructor
    · exact hswapR.trans ((sdR.mono le_rfl (by omega)).trans
        (ihR.mono le_rfl (by omega)))
    · intro k hk hkb
      by_cases hk1 : k + 1 < first + (n + 1)
      · exact ihS k hk hk1
      · rw [(by omega : k = first + n)]
        rw [(by omega : first + n + 1 = first + (n + 1))]
        have hright := (rangeOp_keyAt_frame hcomp
          (Or.inr le_rfl)).trans (keyAt_swapD_snd h1len h2len)
        rw [hright]
        have hB : ∀ m, first ≤ m → m < first + (n + 1) →
            keyAt (swapD d first (first + (n + 1))) m ≤ keyAt d first := by
          intro m hm1 hm2
          by_cases hmf : m = first
          · rw [hmf, keyAt_swapD_fst h1len h2len]
            exact hmax (first + (n + 1)) (by omega) (by omega)
          · rw [keyAt_swapD_ne (by omega) (by omega)]
            exact hmax m hm1 (by omega)
        exact rangeOp_key_bound hcomp (by rw [length_swapD]; omega) hB
          (by omega) (by omega)

theorem rangeOp_self_eq {a : Nat} {d e : List Task} (h : RangeOp a a d e) :
    e = d := by
  refine List.ext_getElem? (fun k => ?_)
  exact getD_frame_getElem? h.1 (h.2.1 k (by omega))

theorem heapSortRange_spec {d : List Task} {a b : Nat} (hb : b ≤ d.length) :
    RangeOp a b d (heapSortRange d a b) ∧
    SortedRng (heapSortRange d a b) a b := by
  simp only [heapSortRange]
  by_cases h0 : b - a = 0
  · rw [if_pos h0, h0]
    exact ⟨RangeOp.rfl _ _ _, sortedRng_vacuous (by omega)⟩
  · rw [if_neg h0]
    obtain ⟨h1, h2⟩ := heapSortBuild_spec a (b - a) ((b - a - 1) / 2) d
      (by omega) heapAbove_top
    rw [(by omega : a + (b - a) = b)] at h1
    obtain ⟨h3, h4⟩ := heapSortPop_spec a (b - a - 1)
      (heapSortBuild d (b - a) a ((b - a - 1) / 2))
      (by rw [h1.1]; omega)
      (by rw [(by omega : b - a - 1 + 1 = b - a)]; exact h2)
    rw [(by omega : a + (b - a - 1 + 1) = b)] at h3 h4
    exact ⟨h1.trans h3, h4⟩

/-!
`partialInsertionSort`: the scan, the two shifting loops, and the five
steps.  The left shift may look below `a`, so every statement carries the
sentinel hypothesis that the element at `a - 1` (when `a > 0`) is at most
every element of the range - which `pdqsort` guarantees at its call sites.
-/

theorem pisAdvance_bounds (d : List Task) (b : Nat) : ∀ (fuel i : Nat),
    i ≤ b → i ≤ pisAdvance d b i fuel ∧ pisAdvance d b i fuel ≤ b := by
  intro fuel
  induction fuel with
  | zero => intro i hib; rw [pisAdvance]; exact ⟨le_rfl, hib⟩
  | succ fuel ih =>
    intro i hib
    rw [pisAdvance]
    by_cases hc : i < b ∧ ¬ lessD d i (i - 1)
    · rw [if_pos hc]
      obtain ⟨h1, h2⟩ := ih (i + 1) (by omega)
      exact ⟨by omega, h2⟩
    · rw [if_neg hc]; exact ⟨le_rfl, hib⟩

theorem pisAdvance_sorted {d : List Task} {a b : Nat} : ∀ (fuel i : Nat),
    a < i → SortedRng d a i → SortedRng d a (pisAdvance d b i fuel) := by
  intro fuel
  induction fuel with
  | zero => intro i _ hs; rw [pisAdvance]; exact hs
  | succ fuel ih =>
    intro i hai hs
    rw [pisAdvance]
    by_cases hc : i < b ∧ ¬ lessD d i (i - 1)
    · rw [if_pos hc]
      refine ih (i + 1) (by omega) ?_
      intro k hak hkb
      by_cases hk : k + 1 < i
      · exact hs k hak hk
      · rw [(by omega : k = i - 1), (by omega : i - 1 + 1 = i)]
        exact Nat.le_of_not_lt hc.2
    · rw [if_neg hc]; exact hs

theorem pisAdvance_last (d : List Task) (b : Nat) : ∀ (fuel i : Nat),
    i ≤ b → b ≤ i + fuel →
    pisAdvance d b i fuel = b ∨
    (pisAdvance d b i fuel < b ∧
      lessD d (pisAdvance d b i fuel) (pisAdvance d b i fuel - 1)) := by
  intro fuel
  induction fuel with
  | zero =>
    intro i hib hbi
    rw [pisAdvance]
    left
    omega
  | succ fuel ih =>
    intro i hib hbi
    rw [pisAdvance]
    by_cases hc : i < b ∧ ¬ lessD d i (i - 1)
    · rw [if_pos hc]
      exact ih (i + 1) (by omega) (by omega)
    · rw [if_neg hc]
      by_cases hb2 : i = b
      · exact Or.inl hb2
      · refine Or.inr ⟨by omega, ?_⟩
        by_cases h2 : lessD d i (i - 1)
        · exact h2
        · exact absurd ⟨by omega, h2⟩ hc

theorem pisLeftShift_spec (a b T : Nat) (hT : T < b) : ∀ (p : Nat)
    (d : List Task), T < d.length → a ≤ p → p ≤ T →
    (∀ k, a ≤ k → k + 1 ≤ T → k + 1 ≠ p → keyAt d k ≤ keyAt d (k + 1)) →
    (1 ≤ p → p + 1 ≤ T → keyAt d (p - 1) ≤ keyAt d (p + 1)) →
    (0 < a → ∀ k, a ≤ k → k ≤ T → keyAt d (a - 1) ≤ keyAt d k) →
    RangeOp a b d (pisLeftShift d p) ∧
    SortedRng (pisLeftShift d p) a (T + 1) := by
  intro p
  induction p with
  | zero =>
    intro d hdlen hap hpT hI2 hI3 hsent
    rw [pisLeftShift]
    exact ⟨RangeOp.rfl _ _ _,
      fun k hak hkb => hI2 k hak (by omega) (by omega)⟩
  | succ p ih =>
    intro d hdlen hap hpT hI2 hI3 hsent
    rw [pisLeftShift]
    by_cases hc : lessD d (p + 1) p
    · rw [if_pos hc]
      have hap2 : a ≤ p := by
        by_cases h : a ≤ p
        · exact h
        · exfalso
          have ha : a = p + 1 := by omega
          have hsn := hsent (by omega) a le_rfl (by omega)
          rw [ha, (by omega : p + 1 - 1 = p)] at hsn
          omega
      have hplen : p < d.length := by omega
      have hp1len : p + 1 < d.length := by omega
      have hI2n : ∀ k, a ≤ k → k + 1 ≤ T → k + 1 ≠ p →
          keyAt (swapD d (p + 1) p) k ≤ keyAt (swapD d (p + 1) p) (k + 1) := by
        intro k hak hkT hkp
        by_cases hk1 : k + 1 = p + 1
        · rw [(by omega : k = p)]
          rw [keyAt_swapD_snd hp1len hplen,
            (by omega : p + 1 = p + 1)]
          rw [keyAt_swapD_fst hp1len hplen]
          exact Nat.le_of_lt hc
        · by_cases hk2 : k + 1 = p + 2
          · rw [(by omega : k = p + 1)]
            rw [keyAt_swapD_fst hp1len hplen,
              keyAt_swapD_ne (by omega) (by omega)]
            have h3 := hI3 (by omega) (by omega)
            rw [(by omega : p + 1 - 1 = p)] at h3
            rw [(by omega : p + 1 + 1 = p + 2)] at h3
            exact h3
          · rw [keyAt_swapD_ne (by omega) (by omega),
              keyAt_swapD_ne (by omega) (by omega)]
            exact hI2 k hak hkT hk1
      have hI3n : 1 ≤ p → p + 1 ≤ T →
          keyAt (swapD d (p + 1) p) (p - 1) ≤
            keyAt (swapD d (p + 1) p) (p + 1) := by
        intro hp1 hpT2
        rw [keyAt_swapD_ne (by omega) (by omega),
          keyAt_swapD_fst hp1len hplen]
        by_cases hpa : a ≤ p - 1
        · have h4 := hI2 (p - 1) hpa (by omega) (by omega)
          rw [(by omega : p - 1 + 1 = p)] at h4
          exact h4
        · have hpe : a = p := by omega
          have hsn := hsent (by omega) p (by omega) (by omega)
          rw [hpe] at hsn
          exact hsn
      have hsentn : 0 < a → ∀ k, a ≤ k → k ≤ T →
          keyAt (swapD d (p + 1) p) (a - 1) ≤
            keyAt (swapD d (p + 1) p) k := by
        intro ha k hak hkT
        rw [keyAt_swapD_ne (by omega) (by omega)]
        by_cases hk1 : k = p + 1
        · rw [hk1, keyAt_swapD_fst hp1len hplen]
          exact hsent ha p (by omega) (by omega)
        · by_cases hk2 : k = p
          · rw [hk2, keyAt_swapD_snd hp1len hplen]
            exact hsent ha (p + 1) (by omega) (by omega)
          · rw [keyAt_swapD_ne (by omega) (by omega)]
            exact hsent ha k hak hkT
      obtain ⟨ihR, ihS⟩ := ih (swapD d (p + 1) p)
        (by rw [length_swapD]; omega) hap2 (by omega) hI2n hI3n hsentn
      refine ⟨?_, ihS⟩
      exact (swapD_rangeOp d (p + 1) p (by omega) (by omega) (by omega)
        (by omega)).trans ihR
    · rw [if_neg hc]
      refine ⟨RangeOp.rfl _ _ _, fun k hak hkb => ?_⟩
      by_cases hk : k + 1 = p + 1
      · rw [(by omega : k = p)]
        exact Nat.le_of_not_lt hc
      · exact hI2 k hak (by omega) hk

theorem pisRightShift_rangeOp {a b : Nat} : ∀ (fuel j : Nat)
    (d : List Task), a < j → RangeOp a b d (pisRightShift d b j fuel) := by
  intro fuel
  induction fuel with
  | zero => intro j d _; rw [pisRightShift]; exact RangeOp.rfl _ _ _
  | succ fuel ih =>
    intro j d haj
    rw [pisRightShift]
    by_cases hc : j < b ∧ lessD d j (j - 1)
    · rw [if_pos hc]
      exact (swapD_rangeOp d j (j - 1) (by omega) (by omega) (by omega)
        (by omega)).trans (ih (j + 1) _ (by omega))
    · rw [if_neg hc]
      exact RangeOp.rfl _ _ _

theorem pisRightShift_frame {b : Nat} : ∀ (fuel j : Nat) (d : List Task)
    (k : Nat), k + 1 < j →
    (pisRightShift d b j fuel).getD k defTask = d.getD k defTask := by
  intro fuel
  induction fuel with
  | zero => intro j d k _; rw [pisRightShift]
  | succ fuel ih =>
    intro j d k hk
    rw [pisRightShift]
    by_cases hc : j < b ∧ lessD d j (j - 1)
    · rw [if_pos hc]
      exact (ih (j + 1) _ k (by omega)).trans
        (getD_swapD_ne _ _ _ _ (by omega) (by omega))
    · rw [if_neg hc]

theorem pisSteps_spec {a b : Nat} : ∀ (steps i : Nat) (d : List Task),
    b ≤ d.length → a < i → i ≤ b → SortedRng d a i →
    (0 < a → ∀ k, a ≤ k → k < b → keyAt d (a - 1) ≤ keyAt d k) →
    RangeOp a b d (pisSteps d a b i steps).1 ∧
    ((pisSteps d a b i steps).2 = true →
      SortedRng (pisSteps d a b i steps).1 a b) := by
  intro steps
  induction steps with
  | zero =>
    intro i d hlen hai hib hs hsent
    rw [pisSteps]
    exact ⟨RangeOp.rfl _ _ _, fun h => (Bool.false_ne_true h).elim⟩
  | succ steps ih =>
    intro i d hlen hai hib hs hsent
    simp only [pisSteps]
    set i1 := pisAdvance d b i (b - i) with hi1
    have hadv := pisAdvance_bounds d b (b - i) i hib
    have hsorted1 : SortedRng d a i1 := pisAdvance_sorted (b - i) i hai hs
    by_cases hc1 : i1 = b
    · rw [if_pos hc1]
      refine ⟨RangeOp.rfl _ _ _, fun _ => ?_⟩
      rw [← hc1]
      exact hsorted1
    · rw [if_neg hc1]
      by_cases hc2 : b - a < 50
      · rw [if_pos hc2]
        exact ⟨RangeOp.rfl _ _ _, fun h => (Bool.false_ne_true h).elim⟩
      · rw [if_neg hc2]
        have hlast := pisAdvance_last d b (b - i) i hib (by omega)
        have hi1b : i1 < b := by omega
        have hless : lessD d i1 (i1 - 1) := by
          rcases hlast with h | h
          · exact absurd h hc1
          · exact h.2
        have hI1a : a < i1 := by omega
        have hi1len : i1 < d.length := by omega
        have hi1mlen : i1 - 1 < d.length := by omega
        have hswapR : RangeOp a b d (swapD d i1 (i1 - 1)) :=
          swapD_rangeOp d i1 (i1 - 1) (by omega) (by omega) (by omega)
            (by omega)
        have hA : RangeOp a b d
            (if 2 ≤ i1 - a then
              pisLeftShift (swapD d i1 (i1 - 1)) (i1 - 1)
            else swapD d i1 (i1 - 1)) ∧
            SortedRng
              (if 2 ≤ i1 - a then
                pisLeftShift (swapD d i1 (i1 - 1)) (i1 - 1)
              else swapD d i1 (i1 - 1)) a (i1 + 1) := by
          by_cases hls : 2 ≤ i1 - a
          · rw [if_pos hls]
            have hI2 : ∀ k, a ≤ k → k + 1 ≤ i1 → k + 1 ≠ i1 - 1 →
                keyAt (swapD d i1 (i1 - 1)) k ≤
                  keyAt (swapD d i1 (i1 - 1)) (k + 1) := by
              intro k hak hkT hkp
              by_cases hk1 : k + 1 = i1
              · rw [(by omega : k = i1 - 1), (by omega : i1 - 1 + 1 = i1)]
                rw [keyAt_swapD_snd hi1len hi1mlen,
                  keyAt_swapD_fst hi1len hi1mlen]
                exact Nat.le_of_lt hless
              · rw [keyAt_swapD_ne (by omega) (by omega),
                  keyAt_swapD_ne (by omega) (by omega)]
                exact hsorted1 k hak (by omega)
            have hI3 : 1 ≤ i1 - 1 → i1 - 1 + 1 ≤ i1 →
                keyAt (swapD d i1 (i1 - 1)) (i1 - 1 - 1) ≤
                  keyAt (swapD d i1 (i1 - 1)) (i1 - 1 + 1) := by
              intro h1 h2
              rw [(by omega : i1 - 1 + 1 = i1)]
              rw [keyAt_swapD_ne (by omega) (by omega),
                keyAt_swapD_fst hi1len hi1mlen]
              have h4 := hsorted1 (i1 - 2) (by omega) (by omega)
              rw [(by omega : i1 - 2 + 1 = i1 - 1)] at h4
              rw [(by omega : i1 - 1 - 1 = i1 - 2)]
              exact h4
            have hsent1 : 0 < a → ∀ k, a ≤ k → k ≤ i1 →
                keyAt (swapD d i1 (i1 - 1)) (a - 1) ≤
                  keyAt (swapD d i1 (i1 - 1)) k := by
              intro ha k h1 h2
              exact rangeOp_sentinel ha hswapR (by omega) (hsent ha) k h1
                (by omega)
            obtain ⟨hLR, hLS⟩ := pisLeftShift_spec a b i1 hi1b (i1 - 1)
              (swapD d i1 (i1 - 1)) (by rw [length_swapD]; omega)
              (by omega) (by omega) hI2 hI3 hsent1
            exact ⟨hswapR.trans hLR, hLS⟩
          · rw [if_neg hls]
            refine ⟨hswapR, fun k hak hkb => ?_⟩
            rw [(by omega : k = i1 - 1), (by omega : i1 - 1 + 1 = i1)]
            rw [keyAt_swapD_snd hi1len hi1mlen,
              keyAt_swapD_fst hi1len hi1mlen]
            exact Nat.le_of_lt hless
        set d2v := if 2 ≤ i1 - a then
            pisLeftShift (swapD d i1 (i1 - 1)) (i1 - 1)
          else swapD d i1 (i1 - 1) with hd2v
        have hB : RangeOp a b d
            (if 2 ≤ b - i1 then
              pisRightShift d2v b (i1 + 1) (b - (i1 + 1))
            else d2v) ∧
            SortedRng
              (if 2 ≤ b - i1 then
                pisRightShift d2v b (i1 + 1) (b - (i1 + 1))
              else d2v) a i1 := by
          by_cases hrs : 2 ≤ b - i1
          · rw [if_pos hrs]
            have hRR : RangeOp a b d2v
                (pisRightShift d2v b (i1 + 1) (b - (i1 + 1))) :=
              pisRightShift_rangeOp (b - (i1 + 1)) (i1 + 1) d2v (by omega)
            refine ⟨hA.1.trans hRR, fun k hak hkb => ?_⟩
            have hf1 : keyAt (pisRightShift d2v b (i1 + 1) (b - (i1 + 1)))
                k = keyAt d2v k :=
              congrArg Task.dueDate
                (pisRightShift_frame (b - (i1 + 1)) (i1 + 1) d2v k
                  (by omega))
            have hf2 : keyAt (pisRightShift d2v b (i1 + 1) (b - (i1 + 1)))
                (k + 1) = keyAt d2v (k + 1) :=
              congrArg Task.dueDate
                (pisRightShift_frame (b - (i1 + 1)) (i1 + 1) d2v (k + 1)
                  (by omega))
            rw [hf1, hf2]
            exact hA.2 k hak (by omega)
          · rw [if_neg hrs]
            exact ⟨hA.1, sortedRng_restrict hA.2 (by omega)⟩
        set d3v := if 2 ≤ b - i1 then
            pisRightShift d2v b (i1 + 1) (b - (i1 + 1))
          else d2v with hd3v
        obtain ⟨recR, recS⟩ := ih i1 d3v (by rw [hB.1.1]; omega) hI1a
          (by omega) hB.2
          (fun ha => rangeOp_sentinel ha hB.1 (by omega) (hsent ha))
        exact ⟨hB.1.trans recR, recS⟩

theorem partialInsertionSort_spec {d : List Task} {a b : Nat}
    (hab : a < b) (hlen : b ≤ d.length)
    (hsent : 0 < a → ∀ k, a ≤ k → k < b → keyAt d (a - 1) ≤ keyAt d k) :
    RangeOp a b d (partialInsertionSort d a b).1 ∧
    ((partialInsertionSort d a b).2 = true →
      SortedRng (partialInsertionSort d a b).1 a b) := by
  rw [partialInsertionSort]
  exact pisSteps_spec 5 (a + 1) d hlen (by omega) (by omega)
    (sortedRng_vacuous le_rfl) hsent

/-!
`partition`: the pivot is moved to `a`, the scan loops exchange
out-of-place pairs, and the final swap puts the pivot between a zone of
strictly smaller keys and a zone of keys at least the pivot.
-/

theorem partitionSkipLeft_bounds (d : List Task) (a j : Nat) :
    ∀ (fuel i : Nat), i ≤ j + 1 →
    i ≤ partitionSkipLeft d a j i fuel ∧
    partitionSkipLeft d a j i fuel ≤ j + 1 := by
  intro fuel
  induction fuel with
  | zero => intro i hij; rw [partitionSkipLeft]; exact ⟨le_rfl, hij⟩
  | succ fuel ih =>
    intro i hij
    rw [partitionSkipLeft]
    by_cases hc : i ≤ j ∧ lessD d i a
    · rw [if_pos hc]
      obtain ⟨h1, h2⟩ := ih (i + 1) (by omega)
      exact ⟨by omega, h2⟩
    · rw [if_neg hc]; exact ⟨le_rfl, hij⟩

theorem partitionSkipLeft_zone (d : List Task) (a j : Nat) :
    ∀ (fuel i : Nat), (∀ k, a + 1 ≤ k → k < i → lessD d k a) →
    ∀ k, a + 1 ≤ k → k < partitionSkipLeft d a j i fuel → lessD d k a := by
  intro fuel
  induction fuel with
  | zero => intro i hz; rw [partitionSkipLeft]; exact hz
  | succ fuel ih =>
    intro i hz
    rw [partitionSkipLeft]
    by_cases hc : i ≤ j ∧ lessD d i a
    · rw [if_pos hc]
      refine ih (i + 1) ?_
      intro k h1 h2
      by_cases hk : k < i
      · exact hz k h1 hk
      · rw [(by omega : k = i)]
        exact hc.2
    · rw [if_neg hc]; exact hz

theorem partitionSkipLeft_last (d : List Task) (a j : Nat) :
    ∀ (fuel i : Nat), i ≤ j + 1 → j + 1 ≤ i + fuel →
    partitionSkipLeft d a j i fuel = j + 1 ∨
    (partitionSkipLeft d a j i fuel ≤ j ∧
      ¬ lessD d (partitionSkipLeft d a j i fuel) a) := by
  intro fuel
  induction fuel with
  | zero =>
    intro i h1 h2
    rw [partitionSkipLeft]
    left
    omega
  | succ fuel ih =>
    intro i h1 h2
    rw [partitionSkipLeft]
    by_cases hc : i ≤ j ∧ lessD d i a
    · rw [if_pos hc]
      exact ih (i + 1) (by omega) (by omega)
    · rw [if_neg hc]
      by_cases hb2 : i = j + 1
      · exact Or.inl hb2
      · refine Or.inr ⟨by omega, ?_⟩
        by_cases h3 : lessD d i a
        · exact absurd ⟨by omega, h3⟩ hc
        · exact h3

theorem partitionSkipRight_bounds (d : List Task) (a i : Nat) :
    ∀ (fuel j : Nat), i - 1 ≤ j →
    i - 1 ≤ partitionSkipRight d a i j fuel ∧
    partitionSkipRight d a i j fuel ≤ j := by
  intro fuel
  induction fuel with
  | zero => intro j hij; rw [partitionSkipRight]; exact ⟨hij, le_rfl⟩
  | succ fuel ih =>
    intro j hij
    rw [partitionSkipRight]
    by_cases hc : i ≤ j ∧ ¬ lessD d j a
    · rw [if_pos hc]
      obtain ⟨h1, h2⟩ := ih (j - 1) (by omega)
      exact ⟨h1, by omega⟩
    · rw [if_neg hc]; exact ⟨hij, le_rfl⟩

theorem partitionSkipRight_zone (d : List Task) (a i b : Nat) :
    ∀ (fuel j : Nat), (∀ k, j < k → k < b → ¬ lessD d k a) → j < b →
    ∀ k, partitionSkipRight d a i j fuel < k → k < b → ¬ lessD d k a := by
  intro fuel
  induction fuel with
  | zero => intro j hz _; rw [partitionSkipRight]; exact hz
  | succ fuel ih =>
    intro j hz hjb
    rw [partitionSkipRight]
    by_cases hc : i ≤ j ∧ ¬ lessD d j a
    · rw [if_pos hc]
      refine ih (j - 1) ?_ (by omega)
      intro k h1 h2
      by_cases hk : j < k
      · exact hz k hk h2
      · rw [(by omega : k = j)]
        exact hc.2
    · rw [if_neg hc]; exact hz

theorem partitionSkipRight_last (d : List Task) (a i : Nat) :
    ∀ (fuel j : Nat), i - 1 ≤ j → j ≤ i - 1 + fuel →
    partitionSkipRight d a i j fuel = i - 1 ∨
    (i ≤ partitionSkipRight d a i j fuel ∧
      lessD d (partitionSkipRight d a i j fuel) a) := by
  intro fuel
  induction fuel with
  | zero =>
    intro j h1 h2
    rw [partitionSkipRight]
    left
    omega
  | succ fuel ih =>
    intro j h1 h2
    rw [partitionSkipRight]
    by_cases hc : i ≤ j ∧ ¬ lessD d j a
    · rw [if_pos hc]
      exact ih (j - 1) (by omega) (by omega)
    · rw [if_neg hc]
      by_cases hb2 : j < i
      · exact Or.inl (by omega)
      · refine Or.inr ⟨by omega, ?_⟩
        by_cases h3 : lessD d j a
        · exact h3
        · exact absurd ⟨by omega, h3⟩ hc

theorem partitionLoop_spec {a b : Nat} : ∀ (fuel i j : Nat)
    (d : List Task), a + 1 ≤ i → i ≤ j + 1 → j < b → j + 1 ≤ i + fuel →
    b ≤ d.length →
    (∀ k, a + 1 ≤ k → k < i → lessD d k a) →
    (∀ k, j < k → k < b → ¬ lessD d k a) →
    RangeOp (a + 1) b d (partitionLoop d a i j fuel).1 ∧
    a ≤ (partitionLoop d a i j fuel).2 ∧
    (partitionLoop d a i j fuel).2 ≤ j ∧
    (∀ k, a + 1 ≤ k → k < (partitionLoop d a i j fuel).2 + 1 →
      lessD (partitionLoop d a i j fuel).1 k a) ∧
    (∀ k, (partitionLoop d a i j fuel).2 < k → k < b →
      ¬ lessD (partitionLoop d a i j fuel).1 k a) := by
  intro fuel
  induction fuel with
  | zero =>
    intro i j d hai hij hjb hfuel hblen hzL hzR
    rw [partitionLoop]
    refine ⟨RangeOp.rfl _ _ _, by omega, le_rfl, ?_, hzR⟩
    intro k h1 h2
    exact hzL k h1 (by omega)
  | succ fuel ih =>
    intro i j d hai hij hjb hfuel hblen hzL hzR
    simp only [partitionLoop]
    set i1 := partitionSkipLeft d a j i (j + 1 - i) with hi1d
    set j1 := partitionSkipRight d a i1 j (j + 1 - i1) with hj1d
    have hi1 := partitionSkipLeft_bounds d a j (j + 1 - i) i hij
    have hL1 := partitionSkipLeft_zone d a j (j + 1 - i) i hzL
    have hlast1 := partitionSkipLeft_last d a j (j + 1 - i) i hij (by omega)
    have hj1 := partitionSkipRight_bounds d a i1 (j + 1 - i1) j (by omega)
    have hR1 := partitionSkipRight_zone d a i1 b (j + 1 - i1) j hzR hjb
    have hlast2 := partitionSkipRight_last d a i1 (j + 1 - i1) j (by omega)
      (by omega)
    by_cases hbr : j1 < i1
    · rw [if_pos hbr]
      refine ⟨RangeOp.rfl _ _ _, by omega, by omega, ?_, hR1⟩
      intro k h1 h2
      exact hL1 k h1 (by omega)
    · rw [if_neg hbr]
      have hile : i1 ≤ j ∧ ¬ lessD d i1 a := by
        rcases hlast1 with h | h
        · omega
        · exact h
      have hjge : i1 ≤ j1 ∧ lessD d j1 a := by
        rcases hlast2 with h | h
        · omega
        · exact h
      have hij2 : i1 < j1 := by
        rcases Nat.lt_or_ge i1 j1 with h | h
        · exact h
        · have he : i1 = j1 := by omega
          rw [he] at hile
          exact absurd hjge.2 hile.2
      have hi1len : i1 < d.length := by omega
      have hj1len : j1 < d.length := by omega
      have halen : a < d.length := by omega
      have hzL1 : ∀ k, a + 1 ≤ k → k < i1 + 1 →
          lessD (swapD d i1 j1) k a := by
        intro k h1 h2
        have hka : keyAt (swapD d i1 j1) a = keyAt d a :=
          keyAt_swapD_ne (by omega) (by omega)
        by_cases hk : k = i1
        · rw [lessD, hka, hk, keyAt_swapD_fst hi1len hj1len]
          exact hjge.2
        · rw [lessD, hka, keyAt_swapD_ne (by omega) (by omega)]
          exact hL1 k h1 (by omega)
      have hzR1 : ∀ k, j1 - 1 < k → k < b →
          ¬ lessD (swapD d i1 j1) k a := by
        intro k h1 h2
        have hka : keyAt (swapD d i1 j1) a = keyAt d a :=
          keyAt_swapD_ne (by omega) (by omega)
        by_cases hk : k = j1
        · rw [lessD, hka, hk, keyAt_swapD_snd hi1len hj1len]
          exact hile.2
        · rw [lessD, hka, keyAt_swapD_ne (by omega) (by omega)]
          exact hR1 k (by omega) h2
      obtain ⟨ihR, ihm1, ihm2, ihL, ihRz⟩ := ih (i1 + 1) (j1 - 1)
        (swapD d i1 j1) (by omega) (by omega) (by omega) (by omega)
        (by rw [length_swapD]; omega) hzL1 hzR1
      refine ⟨?_, by omega, by omega, ihL, ihRz⟩
      exact (swapD_rangeOp d i1 j1 (by omega) (by omega) (by omega)
        (by omega)).trans ihR

theorem partition_spec {d : List Task} {a b pivot : Nat} (hap : a ≤ pivot)
    (hpb : pivot < b) (hblen : b ≤ d.length) :
    RangeOp a b d (partition d a b pivot).1 ∧
    a ≤ (partition d a b pivot).2.1 ∧ (partition d a b pivot).2.1 < b ∧
    (∀ k, a ≤ k → k < (partition d a b pivot).2.1 →
      keyAt (partition d a b pivot).1 k <
        keyAt (partition d a b pivot).1 (partition d a b pivot).2.1) ∧
    (∀ k, (partition d a b pivot).2.1 < k → k < b →
      keyAt (partition d a b pivot).1 (partition d a b pivot).2.1 ≤
        keyAt (partition d a b pivot).1 k) := by
  have hab : a < b := by omega
  simp only [partition]
  set d0 := swapD d a pivot with hd0
  have hd0R : RangeOp a b d d0 :=
    swapD_rangeOp d a pivot le_rfl hab hap hpb
  have hd0len : b ≤ d0.length := by rw [hd0, length_swapD]; omega
  set i1 := partitionSkipLeft d0 a (b - 1) (a + 1) (b - 1 + 1 - (a + 1))
    with hi1d
  set j1 := partitionSkipRight d0 a i1 (b - 1) (b - 1 + 1 - i1) with hj1d
  have hi1 := partitionSkipLeft_bounds d0 a (b - 1) (b - 1 + 1 - (a + 1))
    (a + 1) (by omega)
  have hL1 := partitionSkipLeft_zone d0 a (b - 1) (b - 1 + 1 - (a + 1))
    (a + 1) (fun k h1 h2 => absurd h2 (by omega))
  have hlast1 := partitionSkipLeft_last d0 a (b - 1)
    (b - 1 + 1 - (a + 1)) (a + 1) (by omega) (by omega)
  have hj1 := partitionSkipRight_bounds d0 a i1 (b - 1 + 1 - i1) (b - 1)
    (by omega)
  have hR1 := partitionSkipRight_zone d0 a i1 b (b - 1 + 1 - i1) (b - 1)
    (fun k h1 h2 => absurd h1 (by omega)) (by omega)
  have hlast2 := partitionSkipRight_last d0 a i1 (b - 1 + 1 - i1) (b - 1)
    (by omega) (by omega)
  have halen : a < d0.length := by omega
  by_cases hbr : j1 < i1
  · rw [if_pos hbr]
    show RangeOp a b d (swapD d0 j1 a) ∧ a ≤ j1 ∧ j1 < b ∧
      (∀ k, a ≤ k → k < j1 →
        keyAt (swapD d0 j1 a) k < keyAt (swapD d0 j1 a) j1) ∧
      (∀ k, j1 < k → k < b →
        keyAt (swapD d0 j1 a) j1 ≤ keyAt (swapD d0 j1 a) k)
    have hj1e : j1 = i1 - 1 := by omega
    have hj1len : j1 < d0.length := by omega
    have hfst : keyAt (swapD d0 j1 a) j1 = keyAt d0 a :=
      keyAt_swapD_fst hj1len halen
    refine ⟨hd0R.trans (swapD_rangeOp d0 j1 a (by omega) (by omega)
      le_rfl hab), by omega, by omega, ?_, ?_⟩
    · intro k h1 h2
      rw [hfst]
      by_cases hk : k = a
      · by_cases hja : j1 = a
        · omega
        · rw [hk, keyAt_swapD_snd hj1len halen]
          exact hL1 j1 (by omega) (by omega)
      · rw [keyAt_swapD_ne2 d0 j1 a k (by omega) (by omega)]
        exact hL1 k (by omega) (by omega)
    · intro k h1 h2
      rw [hfst, keyAt_swapD_ne2 d0 j1 a k (by omega) (by omega)]
      exact Nat.le_of_not_lt (hR1 k (by omega) h2)
  · rw [if_neg hbr]
    have hile : i1 ≤ b - 1 ∧ ¬ lessD d0 i1 a := by
      rcases hlast1 with h | h
      · omega
      · exact h
    have hjge : i1 ≤ j1 ∧ lessD d0 j1 a := by
      rcases hlast2 with h | h
      · omega
      · exact h
    have hij2 : i1 < j1 := by
      rcases Nat.lt_or_ge i1 j1 with h | h
      · exact h
      · have he : i1 = j1 := by omega
        rw [he] at hile
        exact absurd hjge.2 hile.2
    have hi1len : i1 < d0.length := by omega
    have hj1len : j1 < d0.length := by omega
    have hzL1 : ∀ k, a + 1 ≤ k → k < i1 + 1 →
        lessD (swapD d0 i1 j1) k a := by
      intro k h1 h2
      have hka : keyAt (swapD d0 i1 j1) a = keyAt d0 a :=
        keyAt_swapD_ne (by omega) (by omega)
      by_cases hk : k = i1
      · rw [lessD, hka, hk, keyAt_swapD_fst hi1len hj1len]
        exact hjge.2
      · rw [lessD, hka, keyAt_swapD_ne (by omega) (by omega)]
        exact hL1 k h1 (by omega)
    have hzR1 : ∀ k, j1 - 1 < k → k < b →
        ¬ lessD (swapD d0 i1 j1) k a := by
      intro k h1 h2
      have hka : keyAt (swapD d0 i1 j1) a = keyAt d0 a :=
        keyAt_swapD_ne (by omega) (by omega)
      by_cases hk : k = j1
      · rw [lessD, hka, hk, keyAt_swapD_snd hi1len hj1len]
        exact hile.2
      · rw [lessD, hka, keyAt_swapD_ne (by omega) (by omega)]
        exact hR1 k (by omega) h2
    obtain ⟨loopR, hm1, hm2, zL, zR⟩ := partitionLoop_spec b (i1 + 1)
      (j1 - 1) (swapD d0 i1 j1) (by omega) (by omega) (by omega)
      (by omega) (by rw [length_swapD]; omega) hzL1 hzR1
    set R1 := (partitionLoop (swapD d0 i1 j1) a (i1 + 1) (j1 - 1) b).1
      with hR1d
    set r2 := (partitionLoop (swapD d0 i1 j1) a (i1 + 1) (j1 - 1) b).2
      with hr2d
    show RangeOp a b d (swapD R1 r2 a) ∧ a ≤ r2 ∧ r2 < b ∧
      (∀ k, a ≤ k → k < r2 →
        keyAt (swapD R1 r2 a) k < keyAt (swapD R1 r2 a) r2) ∧
      (∀ k, r2 < k → k < b →
        keyAt (swapD R1 r2 a) r2 ≤ keyAt (swapD R1 r2 a) k)
    have hKa : keyAt R1 a = keyAt d0 a :=
      (rangeOp_keyAt_frame loopR (Or.inl (by omega))).trans
        (keyAt_swapD_ne (by omega) (by omega))
    have hR1len : b ≤ R1.length := by
      rw [loopR.1, length_swapD]
      omega
    have hr2len : r2 < R1.length := by omega
    have halen2 : a < R1.length := by omega
    have hfst : keyAt (swapD R1 r2 a) r2 = keyAt R1 a :=
      keyAt_swapD_fst hr2len halen2
    refine ⟨?_, by omega, by omega, ?_, ?_⟩
    · refine ((hd0R.trans (swapD_rangeOp d0 i1 j1 (by omega) (by omega)
        (by omega) (by omega))).trans (loopR.mono (by omega) le_rfl)).trans
        (swapD_rangeOp R1 r2 a (by omega) (by omega) le_rfl hab)
    · intro k h1 h2
      rw [hfst]
      by_cases hk : k = a
      · by_cases hra : r2 = a
        · omega
        · rw [hk, keyAt_swapD_snd hr2len halen2]
          have h3 : keyAt R1 r2 < keyAt R1 a := zL r2 (by omega) (by omega)
          omega
      · rw [keyAt_swapD_ne (by omega) (by omega)]
        have h3 : keyAt R1 k < keyAt R1 a := zL k (by omega) (by omega)
        omega
    · intro k h1 h2
      rw [hfst, keyAt_swapD_ne (by omega) (by omega)]
      have h3 : ¬ keyAt R1 k < keyAt R1 a := zR k (by omega) h2
      omega

/-!
`partitionEqual`: splits into a zone of keys equal to the pivot key
(together with the sentinel, which forces the lower bound) and a zone of
strictly larger keys.
-/

theorem peqSkipLeft_bounds (d : List Task) (a j : Nat) :
    ∀ (fuel i : Nat), i ≤ j + 1 →
    i ≤ peqSkipLeft d a j i fuel ∧ peqSkipLeft d a j i fuel ≤ j + 1 := by
  intro fuel
  induction fuel with
  | zero => intro i hij; rw [peqSkipLeft]; exact ⟨le_rfl, hij⟩
  | succ fuel ih =>
    intro i hij
    rw [peqSkipLeft]
    by_cases hc : i ≤ j ∧ ¬ lessD d a i
    · rw [if_pos hc]
      obtain ⟨h1, h2⟩ := ih (i + 1) (by omega)
      exact ⟨by omega, h2⟩
    · rw [if_neg hc]; exact ⟨le_rfl, hij⟩

theorem peqSkipLeft_zone (d : List Task) (a j : Nat) :
    ∀ (fuel i : Nat), (∀ k, a + 1 ≤ k → k < i → ¬ lessD d a k) →
    ∀ k, a + 1 ≤ k → k < peqSkipLeft d a j i fuel → ¬ lessD d a k := by
  intro fuel
  induction fuel with
  | zero => intro i hz; rw [peqSkipLeft]; exact hz
  | succ fuel ih =>
    intro i hz
    rw [peqSkipLeft]
    by_cases hc : i ≤ j ∧ ¬ lessD d a i
    · rw [if_pos hc]
      refine ih (i + 1) ?_
      intro k h1 h2
      by_cases hk : k < i
      · exact hz k h1 hk
      · rw [(by omega : k = i)]
        exact hc.2
    · rw [if_neg hc]; exact hz

theorem peqSkipLeft_last (d : List Task) (a j : Nat) :
    ∀ (fuel i : Nat), i ≤ j + 1 → j + 1 ≤ i + fuel →
    peqSkipLeft d a j i fuel = j + 1 ∨
    (peqSkipLeft d a j i fuel ≤ j ∧
      lessD d a (peqSkipLeft d a j i fuel)) := by
  intro fuel
  induction fuel with
  | zero =>
    intro i h1 h2
    rw [peqSkipLeft]
    left
    omega
  | succ fuel ih =>
    intro i h1 h2
    rw [peqSkipLeft]
    by_cases hc : i ≤ j ∧ ¬ lessD d a i
    · rw [if_pos hc]
      exact ih (i + 1) (by omega) (by omega)
    · rw [if_neg hc]
      by_cases hb2 : i = j + 1
      · exact Or.inl hb2
      · refine Or.inr ⟨by omega, ?_⟩
        by_cases h3 : lessD d a i
        · exact h3
        · exact absurd ⟨by omega, h3⟩ hc

theorem peqSkipRight_bounds (d : List Task) (a i : Nat) :
    ∀ (fuel j : Nat), i - 1 ≤ j →
    i - 1 ≤ peqSkipRight d a i j fuel ∧ peqSkipRight d a i j fuel ≤ j := by
  intro fuel
  induction fuel with
  | zero => intro j hij; rw [peqSkipRight]; exact ⟨hij, le_rfl⟩
  | succ fuel ih =>
    intro j hij
    rw [peqSkipRight]
    by_cases hc : i ≤ j ∧ lessD d a j
    · rw [if_pos hc]
      obtain ⟨h1, h2⟩ := ih (j - 1) (by omega)
      exact ⟨h1, by omega⟩
    · rw [if_neg hc]; exact ⟨hij, le_rfl⟩

theorem peqSkipRight_zone (d : List Task) (a i b : Nat) :
    ∀ (fuel j : Nat), (∀ k, j < k → k < b → lessD d a k) → j < b →
    ∀ k, peqSkipRight d a i j fuel < k → k < b → lessD d a k := by
  intro fuel
  induction fuel with
  | zero => intro j hz _; rw [peqSkipRight]; exact hz
  | succ fuel ih =>
    intro j hz hjb
    rw [peqSkipRight]
    by_cases hc : i ≤ j ∧ lessD d a j
    · rw [if_pos hc]
      refine ih (j - 1) ?_ (by omega)
      intro k h1 h2
      by_cases hk : j < k
      · exact hz k hk h2
      · rw [(by omega : k = j)]
        exact hc.2
    · rw [if_neg hc]; exact hz

theorem peqSkipRight_last (d : List Task) (a i : Nat) :
    ∀ (fuel j : Nat), i - 1 ≤ j → j ≤ i - 1 + fuel →
    peqSkipRight d a i j fuel = i - 1 ∨
    (i ≤ peqSkipRight d a i j fuel ∧
      ¬ lessD d a (peqSkipRight d a i j fuel)) := by
  intro fuel
  induction fuel with
  | zero =>
    intro j h1 h2
    rw [peqSkipRight]
    left
    omega
  | succ fuel ih =>
    intro j h1 h2
    rw [peqSkipRight]
    by_cases hc : i ≤ j ∧ lessD d a j
    · rw [if_pos hc]
      exact ih (j - 1) (by omega) (by omega)
    · rw [if_neg hc]
      by_cases hb2 : j < i
      · exact Or.inl (by omega)
      · refine Or.inr ⟨by omega, ?_⟩
        by_cases h3 : lessD d a j
        · exact absurd ⟨by omega, h3⟩ hc
        · exact h3

theorem partitionEqualLoop_spec (a b : Nat) : ∀ (fuel i j : Nat)
    (d : List Task), a + 1 ≤ i → i ≤ j + 1 → j < b → j + 1 ≤ i + fuel →
    b ≤ d.length →
    (∀ k, a + 1 ≤ k → k < i → ¬ lessD d a k) →
    (∀ k, j < k → k < b → lessD d a k) →
    RangeOp (a + 1) b d (partitionEqualLoop d a i j fuel).1 ∧
    a + 1 ≤ (partitionEqualLoop d a i j fuel).2 ∧
    (partitionEqualLoop d a i j fuel).2 ≤ j + 1 ∧
    (∀ k, a + 1 ≤ k → k < (partitionEqualLoop d a i j fuel).2 →
      ¬ lessD (partitionEqualLoop d a i j fuel).1 a k) ∧
    (∀ k, (partitionEqualLoop d a i j fuel).2 ≤ k → k < b →
      lessD (partitionEqualLoop d a i j fuel).1 a k) := by
  intro fuel
  induction fuel with
  | zero =>
    intro i j d hai hij hjb hfuel hblen hzL hzR
    rw [partitionEqualLoop]
    refine ⟨RangeOp.rfl _ _ _, hai, hij, hzL, ?_⟩
    intro k h1 h2
    exact hzR k (by omega) h2
  | succ fuel ih =>
    intro i j d hai hij hjb hfuel hblen hzL hzR
    simp only [partitionEqualLoop]
    set i1 := peqSkipLeft d a j i (j + 1 - i) with hi1d
    set j1 := peqSkipRight d a i1 j (j + 1 - i1) with hj1d
    have hi1 := peqSkipLeft_bounds d a j (j + 1 - i) i hij
    have hL1 := peqSkipLeft_zone d a j (j + 1 - i) i hzL
    have hlast1 := peqSkipLeft_last d a j (j + 1 - i) i hij (by omega)
    have hj1 := peqSkipRight_bounds d a i1 (j + 1 - i1) j (by omega)
    have hR1 := peqSkipRight_zone d a i1 b (j + 1 - i1) j hzR hjb
    have hlast2 := peqSkipRight_last d a i1 (j + 1 - i1) j (by omega)
      (by omega)
    by_cases hbr : j1 < i1
    · rw [if_pos hbr]
      refine ⟨RangeOp.rfl _ _ _, by omega, by omega, hL1, ?_⟩
      intro k h1 h2
      exact hR1 k (by omega) h2
    · rw [if_neg hbr]
      have hile : i1 ≤ j ∧ lessD d a i1 := by
        rcases hlast1 with h | h
        · omega
        · exact h
      have hjge : i1 ≤ j1 ∧ ¬ lessD d a j1 := by
        rcases hlast2 with h | h
        · omega
        · exact h
      have hij2 : i1 < j1 := by
        rcases Nat.lt_or_ge i1 j1 with h | h
        · exact h
        · have he : i1 = j1 := by omega
          rw [he] at hile
          exact absurd hile.2 hjge.2
      have hi1len : i1 < d.length := by omega
      have hj1len : j1 < d.length := by omega
      have halen : a < d.length := by omega
      have hzL1 : ∀ k, a + 1 ≤ k → k < i1 + 1 →
          ¬ lessD (swapD d i1 j1) a k := by
        intro k h1 h2
        have hka : keyAt (swapD d i1 j1) a = keyAt d a :=
          keyAt_swapD_ne (by omega) (by omega)
        by_cases hk : k = i1
        · rw [lessD, hka, hk, keyAt_swapD_fst hi1len hj1len]
          exact hjge.2
        · rw [lessD, hka, keyAt_swapD_ne (by omega) (by omega)]
          exact hL1 k h1 (by omega)
      have hzR1 : ∀ k, j1 - 1 < k → k < b →
          lessD (swapD d i1 j1) a k := by
        intro k h1 h2
        have hka : keyAt (swapD d i1 j1) a = keyAt d a :=
          keyAt_swapD_ne (by omega) (by omega)
        by_cases hk : k = j1
        · rw [lessD, hka, hk, keyAt_swapD_snd hi1len hj1len]
          exact hile.2
        · rw [lessD, hka, keyAt_swapD_ne (by omega) (by omega)]
          exact hR1 k (by omega) h2
      obtain ⟨ihR, ihm1, ihm2, ihL, ihRz⟩ := ih (i1 + 1) (j1 - 1)
        (swapD d i1 j1) (by omega) (by omega) (by omega) (by omega)
        (by rw [length_swapD]; omega) hzL1 hzR1
      refine ⟨?_, by omega, by omega, ihL, ?_⟩
      · exact (swapD_rangeOp d i1 j1 (by omega) (by omega) (by omega)
          (by omega)).trans ihR
      · intro k h1 h2
        exact ihRz k h1 h2

theorem partitionEqual_spec {d : List Task} {a b pivot : Nat}
    (hap : a ≤ pivot) (hpb : pivot < b) (hblen : b ≤ d.length) :
    RangeOp a b d (partitionEqual d a b pivot).1 ∧
    a < (partitionEqual d a b pivot).2 ∧
    (partitionEqual d a b pivot).2 ≤ b ∧
    keyAt (partitionEqual d a b pivot).1 a = keyAt d pivot ∧
    (∀ k, a ≤ k → k < (partitionEqual d a b pivot).2 →
      keyAt (partitionEqual d a b pivot).1 k ≤
        keyAt (partitionEqual d a b pivot).1 a) ∧
    (∀ k, (partitionEqual d a b pivot).2 ≤ k → k < b →
      keyAt (partitionEqual d a b pivot).1 a <
        keyAt (partitionEqual d a b pivot).1 k) := by
  have hab : a < b := by omega
  rw [partitionEqual]
  have hd0R : RangeOp a b d (swapD d a pivot) :=
    swapD_rangeOp d a pivot le_rfl hab hap hpb
  obtain ⟨loopR, hm1, hm2, zL, zR⟩ :=
    partitionEqualLoop_spec a b b (a + 1) (b - 1) (swapD d a pivot) le_rfl
      (by omega) (by omega) (by omega) (by rw [length_swapD]; omega)
      (fun k h1 h2 => absurd h2 (by omega))
      (fun k h1 h2 => absurd h1 (by omega))
  have halen : a < d.length := by omega
  have hpvlen : pivot < d.length := by omega
  have hKa : keyAt (partitionEqualLoop (swapD d a pivot) a (a + 1)
      (b - 1) b).1 a = keyAt d pivot :=
    (rangeOp_keyAt_frame loopR (Or.inl (by omega))).trans
      (keyAt_swapD_fst halen hpvlen)
  refine ⟨hd0R.trans (loopR.mono (by omega) le_rfl), by omega, by omega,
    hKa, ?_, ?_⟩
  · intro k h1 h2
    by_cases hk : k = a
    · rw [hk]
    · have h3 : ¬ keyAt (partitionEqualLoop (swapD d a pivot) a (a + 1)
          (b - 1) b).1 a < keyAt (partitionEqualLoop (swapD d a pivot) a
          (a + 1) (b - 1) b).1 k := zL k (by omega) h2
      omega
  · intro k h1 h2
    exact zR k (by omega) h2

/-!
The `pdqsort` master theorem: on the range `[a, b)` with enough fuel and
the sentinel guarantee at `a - 1`, the loop permutes the range and leaves
it sorted.
-/

theorem pdqsortLoop_spec : ∀ (fuel : Nat) (d : List Task)
    (a b limit : Nat) (wb wp : Bool), b - a ≤ fuel → b ≤ d.length →
    (0 < a → ∀ k, a ≤ k → k < b → keyAt d (a - 1) ≤ keyAt d k) →
    RangeOp a b d (pdqsortLoop fuel d a b limit wb wp) ∧
    SortedRng (pdqsortLoop fuel d a b limit wb wp) a b := by
  intro fuel
  induction fuel with
  | zero =>
    intro d a b limit wb wp hfuel hlen hsent
    rw [pdqsortLoop]
    exact ⟨RangeOp.rfl _ _ _, sortedRng_vacuous (by omega)⟩
  | succ fuel ih =>
    intro d a b limit wb wp hfuel hlen hsent
    simp only [pdqsortLoop]
    by_cases h12 : b - a ≤ 12
    · rw [if_pos h12]
      exact insertionSortRange_spec hlen
    · rw [if_neg h12]
      by_cases hlim : limit = 0
      · rw [if_pos hlim]
        exact heapSortRange_spec hlen
      · rw [if_neg hlim]
        set d0 := if wb = true then d else breakPatterns d a b with hd0def
        have hd0R : RangeOp a b d d0 := by
          rw [hd0def]
          split
          · exact RangeOp.rfl _ _ _
          · exact breakPatterns_rangeOp d
        have hd0len : b ≤ d0.length := by rw [hd0R.1]; omega
        have hsent0 : 0 < a → ∀ k, a ≤ k → k < b →
            keyAt d0 (a - 1) ≤ keyAt d0 k :=
          fun ha => rangeOp_sentinel ha hd0R hlen (hsent ha)
        have hcp := choosePivot_bounds d0 a b (by omega)
        set cp := choosePivot d0 a b with hcpdef
        set d1 := if cp.2 = sortedHint.decreasingHint then
            reverseRange d0 a b else d0 with hd1def
        set pivot1 := if cp.2 = sortedHint.decreasingHint then
            (b - 1) - (cp.1 - a) else cp.1 with hp1def
        set hint1 := if cp.2 = sortedHint.decreasingHint then
            sortedHint.increasingHint else cp.2 with hh1def
        have hd1R : RangeOp a b d0 d1 := by
          rw [hd1def]
          split
          · exact reverseRange_rangeOp d0 (by omega)
          · exact RangeOp.rfl _ _ _
        have hdR1 : RangeOp a b d d1 := hd0R.trans hd1R
        have hd1len : b ≤ d1.length := by rw [hdR1.1]; omega
        have hsent1 : 0 < a → ∀ k, a ≤ k → k < b →
            keyAt d1 (a - 1) ≤ keyAt d1 k :=
          fun ha => rangeOp_sentinel ha hd1R hd0len (hsent0 ha)
        have hpb1 : a ≤ pivot1 := by
          rw [hp1def]
          split <;> omega
        have hpb2 : pivot1 < b := by
          rw [hp1def]
          split <;> omega
        have hcont : ∀ (d2 : List Task) (lim2 : Nat) (wb1 wp1 wb2 wp2 :
            Bool), RangeOp a b d d2 →
            RangeOp a b d
              (if 0 < a ∧ ¬ lessD d2 (a - 1) pivot1 then
                pdqsortLoop fuel (partitionEqual d2 a b pivot1).1
                  (partitionEqual d2 a b pivot1).2 b lim2 wb1 wp1
              else
                if (partition d2 a b pivot1).2.1 - a <
                    b - (partition d2 a b pivot1).2.1 then
                  pdqsortLoop fuel
                    (pdqsortLoop fuel (partition d2 a b pivot1).1 a
                      (partition d2 a b pivot1).2.1 lim2 true true)
                    ((partition d2 a b pivot1).2.1 + 1) b lim2 wb2 wp2
                else
                  pdqsortLoop fuel
                    (pdqsortLoop fuel (partition d2 a b pivot1).1
                      ((partition d2 a b pivot1).2.1 + 1) b lim2 true true)
                    a (partition d2 a b pivot1).2.1 lim2 wb2 wp2) ∧
            SortedRng
              (if 0 < a ∧ ¬ lessD d2 (a - 1) pivot1 then
                pdqsortLoop fuel (partitionEqual d2 a b pivot1).1
                  (partitionEqual d2 a b pivot1).2 b lim2 wb1 wp1
              else
                if (partition d2 a b pivot1).2.1 - a <
                    b - (partition d2 a b pivot1).2.1 then
                  pdqsortLoop fuel
                    (pdqsortLoop fuel (partition d2 a b pivot1).1 a
                      (partition d2 a b pivot1).2.1 lim2 true true)
                    ((partition d2 a b pivot1).2.1 + 1) b lim2 wb2 wp2
                else
                  pdqsortLoop fuel
                    (pdqsortLoop fuel (partition d2 a b pivot1).1
                      ((partition d2 a b pivot1).2.1 + 1) b lim2 true true)
                    a (partition d2 a b pivot1).2.1 lim2 wb2 wp2) a b := by
          intro d2 lim2 wb1 wp1 wb2 wp2 hx
          have hd2len : b ≤ d2.length := by rw [hx.1]; omega
          have hsent2 : 0 < a → ∀ k, a ≤ k → k < b →
              keyAt d2 (a - 1) ≤ keyAt d2 k :=
            fun ha => rangeOp_sentinel ha hx hlen (hsent ha)
          by_cases hpeq : 0 < a ∧ ¬ lessD d2 (a - 1) pivot1
          · rw [if_pos hpeq]
            obtain ⟨peqR, hm1, hm2, hKa, zE, zG⟩ :=
              partitionEqual_spec hpb1 hpb2 hd2len
            set P1 := (partitionEqual d2 a b pivot1).1 with hP1
            set m := (partitionEqual d2 a b pivot1).2 with hm
            have hsentP : 0 < a → ∀ k, a ≤ k → k < b →
                keyAt P1 (a - 1) ≤ keyAt P1 k :=
              fun ha => rangeOp_sentinel ha peqR hd2len (hsent2 ha)
            have hEq : keyAt P1 a = keyAt d2 (a - 1) := by
              rw [hKa]
              have h1 := hsent2 hpeq.1 pivot1 hpb1 hpb2
              have h2 := Nat.le_of_not_lt hpeq.2
              omega
            have hzEq : ∀ k, a ≤ k → k < m → keyAt P1 k = keyAt P1 a := by
              intro k h1 h2
              have hle := zE k h1 h2
              have hge : keyAt P1 (a - 1) ≤ keyAt P1 k :=
                hsentP hpeq.1 k h1 (by omega)
              have hfr : keyAt P1 (a - 1) = keyAt d2 (a - 1) :=
                rangeOp_keyAt_frame peqR (Or.inl (by omega))
              omega
            have hsentm : 0 < m → ∀ k, m ≤ k → k < b →
                keyAt P1 (m - 1) ≤ keyAt P1 k := by
              intro _ k h1 h2
              rw [hzEq (m - 1) (by omega) (by omega)]
              exact Nat.le_of_lt (zG k (by omega) h2)
            obtain ⟨recR, recS⟩ := ih P1 m b lim2 wb1 wp1 (by omega)
              (by rw [peqR.1]; omega) hsentm
            refine ⟨(hx.trans peqR).trans (recR.mono (by omega) le_rfl),
              ?_⟩
            intro k hk hkb
            by_cases hk1 : k + 1 < m
            · have f1 := rangeOp_keyAt_frame recR
                ((by omega : k < m ∨ b ≤ k))
              have f2 := rangeOp_keyAt_frame recR
                ((by omega : k + 1 < m ∨ b ≤ k + 1))
              rw [f1, f2, hzEq k hk (by omega), hzEq (k + 1) (by omega)
                hk1]
            · by_cases hk2 : k + 1 = m
              · have f1 := rangeOp_keyAt_frame recR
                  ((by omega : k < m ∨ b ≤ k))
                rw [f1, hzEq k hk (by omega)]
                obtain ⟨q, hq1, hq2, _, hq4⟩ := rangeOp_key_mem recR
                  (by rw [peqR.1]; omega) (by omega : m ≤ k + 1) hkb
                rw [hq4]
                exact Nat.le_of_lt (zG q hq1 hq2)
              · exact recS k (by omega) hkb
          · rw [if_neg hpeq]
            obtain ⟨prR, hm1, hm2, zLt, zGe⟩ :=
              partition_spec hpb1 hpb2 hd2len
            set P1 := (partition d2 a b pivot1).1 with hP1
            set m := (partition d2 a b pivot1).2.1 with hm
            have hsentP : 0 < a → ∀ k, a ≤ k → k < b →
                keyAt P1 (a - 1) ≤ keyAt P1 k :=
              fun ha => rangeOp_sentinel ha prR hd2len (hsent2 ha)
            have hP1len : b ≤ P1.length := by rw [prR.1]; omega
            by_cases hlr : m - a < b - m
            · rw [if_pos hlr]
              obtain ⟨lR, lS⟩ := ih P1 a m lim2 true true (by omega)
                (by omega) (fun ha k h1 h2 => hsentP ha k h1 (by omega))
              set D3 := pdqsortLoop fuel P1 a m lim2 true true with hD3
              have hsentm : 0 < m + 1 → ∀ k, m + 1 ≤ k → k < b →
                  keyAt D3 (m + 1 - 1) ≤ keyAt D3 k := by
                intro _ k h1 h2
                rw [(by omega : m + 1 - 1 = m)]
                have f1 := rangeOp_keyAt_frame lR
                  (Or.inr (le_rfl : m ≤ m))
                have f2 := rangeOp_keyAt_frame lR
                  (Or.inr (by omega : m ≤ k))
                rw [f1, f2]
                exact zGe k (by omega) h2
              obtain ⟨rR, rS⟩ := ih D3 (m + 1) b lim2 wb2 wp2 (by omega)
                (by rw [lR.1]; omega) hsentm
              refine ⟨((hx.trans prR).trans
                (lR.mono le_rfl (by omega))).trans
                (rR.mono (by omega) le_rfl), ?_⟩
              intro k hk hkb
              by_cases hc1 : k + 1 < m
              · have f1 := rangeOp_keyAt_frame rR
                  ((by omega : k < m + 1 ∨ b ≤ k))
                have f2 := rangeOp_keyAt_frame rR
                  ((by omega : k + 1 < m + 1 ∨ b ≤ k + 1))
                rw [f1, f2]
                exact lS k hk hc1
              · by_cases hc2 : k + 1 = m
                · have f1 := rangeOp_keyAt_frame rR
                    ((by omega : k < m + 1 ∨ b ≤ k))
                  have f2 := rangeOp_keyAt_frame rR
                    ((by omega : k + 1 < m + 1 ∨ b ≤ k + 1))
                  rw [f1, f2, hc2]
                  have f3 := rangeOp_keyAt_frame lR
                    (Or.inr (le_rfl : m ≤ m))
                  rw [f3]
                  obtain ⟨q, hq1, hq2, _, hq4⟩ := rangeOp_key_mem lR
                    (by omega) hk (by omega)
                  rw [hq4]
                  exact Nat.le_of_lt (zLt q hq1 hq2)
                · by_cases hc3 : k = m
                  · have f1 := rangeOp_keyAt_frame rR
                      ((by omega : k < m + 1 ∨ b ≤ k))
                    rw [hc3] at f1 ⊢
                    rw [f1]
                    have f3 := rangeOp_keyAt_frame lR
                      (Or.inr (le_rfl : m ≤ m))
                    rw [f3]
                    obtain ⟨q, hq1, hq2, _, hq4⟩ := rangeOp_key_mem rR
                      (by rw [lR.1]; omega) (le_rfl : m + 1 ≤ m + 1)
                      (by omega)
                    rw [hq4]
                    have f4 := rangeOp_keyAt_frame lR
                      (Or.inr (by omega : m ≤ q))
                    rw [f4]
                    exact zGe q (by omega) hq2
                  · exact rS k (by omega) hkb
            · rw [if_neg hlr]
              have hsentm : 0 < m + 1 → ∀ k, m + 1 ≤ k → k < b →
                  keyAt P1 (m + 1 - 1) ≤ keyAt P1 k := by
                intro _ k h1 h2
                rw [(by omega : m + 1 - 1 = m)]
                exact zGe k (by omega) h2
              obtain ⟨rR, rS⟩ := ih P1 (m + 1) b lim2 true true (by omega)
                (by omega) hsentm
              set D3 := pdqsortLoop fuel P1 (m + 1) b lim2 true true
                with hD3
              have hsenta : 0 < a → ∀ k, a ≤ k → k < m →
                  keyAt D3 (a - 1) ≤ keyAt D3 k := by
                intro ha k h1 h2
                have f1 := rangeOp_keyAt_frame rR
                  ((by omega : a - 1 < m + 1 ∨ b ≤ a - 1))
                have f2 := rangeOp_keyAt_frame rR
                  ((by omega : k < m + 1 ∨ b ≤ k))
                rw [f1, f2]
                exact hsentP ha k h1 (by omega)
              obtain ⟨lR, lS⟩ := ih D3 a m lim2 wb2 wp2 (by omega)
                (by rw [rR.1]; omega) hsenta
              refine ⟨((hx.trans prR).trans
                (rR.mono (by omega) le_rfl)).trans
                (lR.mono le_rfl (by omega)), ?_⟩
              intro k hk hkb
              by_cases hc1 : k + 1 < m
              · exact lS k hk hc1
              · by_cases hc2 : k + 1 = m
                · obtain ⟨q, hq1, hq2, _, hq4⟩ := rangeOp_key_mem lR
                    (by rw [rR.1]; omega) hk (by omega)
                  rw [hq4]
                  have f1 := rangeOp_keyAt_frame rR
                    ((by omega : q < m + 1 ∨ b ≤ q))
                  rw [f1]
                  have f2 := rangeOp_keyAt_frame lR
                    (Or.inr (by omega : m ≤ k + 1))
                  have f3 := rangeOp_keyAt_frame rR
                    ((by omega : k + 1 < m + 1 ∨ b ≤ k + 1))
                  rw [f2, f3, hc2]
                  exact Nat.le_of_lt (zLt q hq1 hq2)
                · by_cases hc3 : k = m
                  · have f2 := rangeOp_keyAt_frame lR
                      (Or.inr (by omega : m ≤ k))
                    have f3 := rangeOp_keyAt_frame rR
                      ((by omega : k < m + 1 ∨ b ≤ k))
                    have f4 := rangeOp_keyAt_frame lR
                      (Or.inr (by omega : m ≤ k + 1))
                    rw [f2, f3, f4, hc3]
                    obtain ⟨q, hq1, hq2, _, hq4⟩ := rangeOp_key_mem rR
                      (by omega) (le_rfl : m + 1 ≤ m + 1) (by omega)
                    rw [hq4]
                    exact zGe q (by omega) hq2
                  · have f1 := rangeOp_keyAt_frame lR
                      (Or.inr (by omega : m ≤ k))
                    have f2 := rangeOp_keyAt_frame lR
                      (Or.inr (by omega : m ≤ k + 1))
                    rw [f1, f2]
                    exact rS k (by omega) hkb
        by_cases hbr : wb = true ∧ wp = true ∧
            hint1 = sortedHint.increasingHint
        · rw [if_pos hbr]
          obtain ⟨pisR, pisS⟩ := partialInsertionSort_spec
            (by omega : a < b) hd1len hsent1
          by_cases hflag : (partialInsertionSort d1 a b).2 = true
          · rw [if_pos hflag]
            exact ⟨hdR1.trans pisR, pisS hflag⟩
          · rw [if_neg hflag]
            exact hcont _ _ _ _ _ _ (hdR1.trans pisR)
        · rw [if_neg hbr]
          exact hcont _ _ _ _ _ _ hdR1

/-!
`sort.Slice` as called by `ListTasks`: permutation and sortedness, and
the pagination window under in-range arithmetic.
-/

theorem sortedRng_dueSorted {d : List Task} (h : SortedRng d 0 d.length) :
    DueSorted d := by
  rw [DueSorted, List.pairwise_iff_get]
  have hkg : ∀ (i : Fin d.length), keyAt d i.val = (d.get i).dueDate := by
    intro i
    rw [keyAt, List.getD_eq_getElem?_getD, List.getElem?_eq_getElem i.isLt]
    rfl
  intro i j hij
  have h2 := sortedRng_le h (Nat.zero_le i.val) (Nat.le_of_lt hij) j.isLt
  rw [hkg i, hkg j] at h2
  exact h2

theorem sortSliceTasks_spec (ts : List Task) :
    (sortSliceTasks ts).Perm ts ∧ DueSorted (sortSliceTasks ts) := by
  rw [sortSliceTasks]
  obtain ⟨hR, hS⟩ := pdqsortLoop_spec ts.length ts 0 ts.length
    (bitsLen ts.length) true true le_rfl le_rfl
    (fun h => absurd h (by omega))
  refine ⟨hR.2.2, sortedRng_dueSorted ?_⟩
  rw [hR.1]
  exact hS

theorem wrap64_eq_self {x : Int} (h1 : -(2 ^ 63) ≤ x) (h2 : x < 2 ^ 63) :
    wrap64 x = x := by
  rw [wrap64, Int.emod_eq_of_lt (by omega) (by omega)]
  omega

theorem paginate_window (page0 pageSize0 : Int) (ts : List Task)
    (h : (if page0 ≤ 0 then 1 else page0) *
      (if pageSize0 ≤ 0 then 10 else pageSize0) < 2 ^ 63) :
    paginate page0 pageSize0 ts =
      some ((ts.drop (((if page0 ≤ 0 then 1 else page0) - 1) *
          (if pageSize0 ≤ 0 then 10 else pageSize0)).toNat).take
        (if pageSize0 ≤ 0 then 10 else pageSize0).toNat) := by
  simp only [paginate]
  set p := if page0 ≤ 0 then 1 else page0 with hpdef
  set sz := if pageSize0 ≤ 0 then 10 else pageSize0 with hszdef
  have hp1 : 1 ≤ p := by rw [hpdef]; split <;> omega
  have hsz1 : 1 ≤ sz := by rw [hszdef]; split <;> omega
  have hple : p * 1 ≤ p * sz := mul_le_mul_of_nonneg_left hsz1 (by omega)
  rw [mul_one] at hple
  have hSnn : 0 ≤ (p - 1) * sz := mul_nonneg (by omega) (by omega)
  have hSsz : (p - 1) * sz + sz = p * sz := by ring
  have hw1 : wrap64 (p - 1) = p - 1 := wrap64_eq_self (by omega) (by omega)
  rw [hw1]
  have hw2 : wrap64 ((p - 1) * sz) = (p - 1) * sz :=
    wrap64_eq_self (by omega) (by omega)
  rw [hw2]
  by_cases hbig : (ts.length : Int) ≤ (p - 1) * sz
  · rw [if_pos hbig]
    have hdrop : ts.drop ((p - 1) * sz).toNat = [] :=
      List.drop_eq_nil_of_le (by omega)
    rw [hdrop]
    simp
  · rw [if_neg hbig]
    have hw3 : wrap64 ((p - 1) * sz + sz) = (p - 1) * sz + sz :=
      wrap64_eq_self (by omega) (by omega)
    rw [hw3]
    by_cases hcap : (ts.length : Int) < (p - 1) * sz + sz
    · rw [if_pos hcap, if_pos ⟨hSnn, by omega⟩]
      congr 1
      rw [List.take_of_length_le (by simp [List.length_drop]; omega),
        List.take_of_length_le (by simp [List.length_drop]; omega)]
    · rw [if_neg hcap, if_pos ⟨hSnn, by omega⟩]
      congr 1
      rw [(by omega : (p - 1) * sz + sz - (p - 1) * sz = sz)]

/-!
The C2 and C3 claim theorems.
-/

/-- C2 (corrected): for every store sequence and filter, `ListTasks`
returns the retained tasks sorted ascending by due date - the sort step
permutes the retained tasks into nondecreasing due-date order and the
pipeline paginates exactly that sorted sequence.  (The stability half of
the original claim is false; see the counterexample.) -/
theorem C2_listTasks_sorted_amended (filter : TaskFilter)
    (ts : List Task) :
    (sortSliceTasks (retainStatus filter.status ts)).Perm
      (retainStatus filter.status ts) ∧
    DueSorted (sortSliceTasks (retainStatus filter.status ts)) ∧
    listTasksPipeline filter ts =
      paginate filter.page filter.pageSize
        (sortSliceTasks (retainStatus filter.status ts)) :=
  ⟨(sortSliceTasks_spec _).1, (sortSliceTasks_spec _).2, rfl⟩

/-- C2 counterexample: thirteen stored tasks with tied due dates; the
pipeline (no filter, one full page) returns `t4` before `t0` although both
are due at 12 and the store yielded `t0` first - `sort.Slice` (pdqsort)
is not stable, so ties do not keep the order the store yielded. -/
theorem C2_counterexample :
    (listTasksPipeline ⟨none, 1, 13⟩ cexTasks).map (List.map Task.title) =
      some ["t6", "t3", "t9", "t10", "t11", "t2", "t5", "t7", "t12", "t4",
        "t0", "t8", "t1"] ∧
    cexTasks.map Task.title =
      ["t0", "t1", "t2", "t3", "t4", "t5", "t6", "t7", "t8", "t9", "t10",
        "t11", "t12"] ∧
    (cexTasks.getD 0 defTask).dueDate = (cexTasks.getD 4 defTask).dueDate :=
  ⟨rfl, rfl, rfl⟩

/-- C3 (corrected): with the defaulted page and page size, whenever the
`int` window arithmetic stays in range (`page * pageSize < 2^63`),
`ListTasks` returns exactly the window of the sorted filtered sequence -
empty beyond the end, shorter on the final page, never an error; in
particular 25 tasks with page size 10 give pages of 10, 10, 5 and then
empty.  (Without the range condition the window arithmetic overflows and
the slice expression panics; see the counterexample.) -/
theorem C3_pagination_amended :
    (∀ (ts : List Task) (f : TaskFilter),
      (if f.page ≤ 0 then 1 else f.page) *
          (if f.pageSize ≤ 0 then 10 else f.pageSize) < 2 ^ 63 →
      listTasksPipeline f ts =
        some (((sortSliceTasks (retainStatus f.status ts)).drop
            (((if f.page ≤ 0 then 1 else f.page) - 1) *
              (if f.pageSize ≤ 0 then 10 else f.pageSize)).toNat).take
          (if f.pageSize ≤ 0 then 10 else f.pageSize).toNat)) ∧
    (∀ ts : List Task, ts.length = 25 →
      (listTasksPipeline ⟨none, 1, 10⟩ ts).map List.length = some 10 ∧
      (listTasksPipeline ⟨none, 2, 10⟩ ts).map List.length = some 10 ∧
      (listTasksPipeline ⟨none, 3, 10⟩ ts).map List.length = some 5 ∧
      listTasksPipeline ⟨none, 100, 10⟩ ts = some []) := by
  constructor
  · intro ts f h
    rw [listTasksPipeline]
    exact paginate_window f.page f.pageSize _ h
  · intro ts h25
    have hL : (sortSliceTasks (retainStatus none ts)).length = 25 := by
      rw [(sortSliceTasks_spec (retainStatus none ts)).1.length_eq]
      exact h25
    have hgen : ∀ p10 : Int, 0 < p10 → p10 * 10 < 2 ^ 63 →
        listTasksPipeline ⟨none, p10, 10⟩ ts =
          some (((sortSliceTasks (retainStatus none ts)).drop
            ((p10 - 1) * 10).toNat).take (10 : Int).toNat) := by
      intro p10 hp0 hlt
      have hn1 : ¬ p10 ≤ 0 := by omega
      have hn2 : ¬ (10 : Int) ≤ 0 := by norm_num
      have hw := paginate_window p10 10
        (sortSliceTasks (retainStatus none ts))
        (by rw [if_neg hn1, if_neg hn2]; exact hlt)
      rw [if_neg hn1, if_neg hn2] at hw
      rw [listTasksPipeline]
      exact hw
    refine ⟨?_, ?_, ?_, ?_⟩
    · rw [hgen 1 (by norm_num) (by norm_num)]
      simp [List.length_take, List.length_drop, hL]
    · rw [hgen 2 (by norm_num) (by norm_num)]
      simp [List.length_take, List.length_drop, hL]
    · rw [hgen 3 (by norm_num) (by norm_num)]
      simp [List.length_take, List.length_drop, hL]
    · rw [hgen 100 (by norm_num) (by norm_num)]
      have hdrop : (sortSliceTasks (retainStatus none ts)).drop
          (((100 : Int) - 1) * 10).toNat = [] :=
        List.drop_eq_nil_of_le (by rw [hL]; norm_num)
      rw [hdrop]
      simp

/-- C3 witness: the empty store (page 100) and a concrete 25-task store
(page 3 holds 5 tasks). -/
theorem C3_pagination_amended_witness :
    (listTasksPipeline ⟨none, 100, 10⟩ [] =
      some (((sortSliceTasks (retainStatus none [])).drop
          (((if (100 : Int) ≤ 0 then (1 : Int) else 100) - 1) *
            (if (10 : Int) ≤ 0 then (10 : Int) else 10)).toNat).take
        (if (10 : Int) ≤ 0 then (10 : Int) else 10).toNat)) ∧
    (listTasksPipeline ⟨none, 3, 10⟩ cex25).map List.length = some 5 :=
  ⟨C3_pagination_amended.1 [] ⟨none, 100, 10⟩ (by norm_num),
    (C3_pagination_amended.2 cex25 (by rfl)).2.2.1⟩

/-- C3 counterexample: one stored task, page 3 with page size `2^62`; the
window start `(page-1)*pageSize` overflows 64-bit `int` to `-2^63`, the
guard `start >= len(tasks)` does not fire on the negative value, and the
slice expression `tasks[start:end]` panics (modelled as `none`) - so
`ListTasks` does fail on an out-of-range page. -/
theorem C3_counterexample :
    listTasksPipeline ⟨none, 3, 4611686018427387904⟩ [cexTask "c3" 5] =
      none := rfl

end TaskApi
